import Mathlib

/-!
Verification development for the nan0db document-database core
(`src/DB.js`, `src/DocumentEntry.js`, `src/DocumentStat.js`, `src/utils/data.js`).

The JavaScript sources are shallowly embedded: JS values are `JVal`, JS
`Map`s (which preserve insertion order and update values in place) are
association lists `Smap`, stateful methods are state-passing functions, and
the platform back-end (`listDir`/`statDocument`/`loadDocument`/…, supplied
by subclasses) is modelled by a finite filesystem tree `FS` or by explicit
function parameters.  Back-end invocations are recorded in a `BOp` trace so
that claims about "how many traversals happen" are statable.
-/

set_option maxHeartbeats 1000000

namespace Nan0DB

/-! ### JS string maps (the `Map` objects used for `data` and `meta`)

JS `Map.prototype.set` keeps the insertion position of an existing key and
overwrites its value; `get` returns `undefined` when absent.  We model a map
as its entry list in insertion order. -/

abbrev Smap (α : Type) := List (String × α)

def mget {α : Type} : Smap α → String → Option α
  | [], _ => none
  | (k2, v) :: rest, k => if k2 = k then some v else mget rest k

def mhas {α : Type} (m : Smap α) (k : String) : Bool :=
  (mget m k).isSome

def mset {α : Type} : Smap α → String → α → Smap α
  | [], k, v => [(k, v)]
  | (k2, v2) :: rest, k, v =>
    if k2 = k then (k2, v) :: rest else (k2, v2) :: mset rest k v

@[simp] theorem mget_nil {α : Type} (k : String) : mget ([] : Smap α) k = none := rfl

@[simp] theorem mget_cons {α : Type} (k2 k : String) (v : α) (rest : Smap α) :
    mget ((k2, v) :: rest) k = if k2 = k then some v else mget rest k := rfl

theorem mget_mset_self {α : Type} (m : Smap α) (k : String) (v : α) :
    mget (mset m k v) k = some v := by
  induction m with
  | nil => simp [mset]
  | cons p rest ih =>
    obtain ⟨k2, v2⟩ := p
    by_cases h : k2 = k <;> simp [mset, h, ih]

theorem mget_mset_other {α : Type} (m : Smap α) (k k2 : String) (v : α) (h : k ≠ k2) :
    mget (mset m k v) k2 = mget m k2 := by
  induction m with
  | nil => simp [mset, h]
  | cons p rest ih =>
    obtain ⟨k3, v3⟩ := p
    by_cases h3 : k3 = k
    · subst h3; simp [mset, h]
    · simp [mset, h3]
      by_cases h4 : k3 = k2 <;> simp [h4, ih]

/-! ### JS string primitives

The sources use `String.prototype.startsWith`, `split`, `slice`,
`replace(string, string)` (which replaces only the first occurrence),
the regexes `/\/+$/` (strip trailing slashes), `/\/{2,}/g` (collapse slash
runs) and `/^\[(\d+)\]$/` (array-index segment).  All strings in scope are
ASCII, so JS UTF-16 lengths coincide with character counts. -/

/-- `lPrefix? pat s` : does `s` start with `pat` (character-wise)? -/
def lPrefix? : List Char → List Char → Bool
  | [], _ => true
  | _ :: _, [] => false
  | a :: as, b :: bs => a = b && lPrefix? as bs

/-- JS `s.startsWith(pat)`. -/
def jsStartsWith (s pat : String) : Bool :=
  lPrefix? pat.data s.data

theorem lPrefix?_append (p rest : List Char) : lPrefix? p (p ++ rest) = true := by
  induction p with
  | nil => rfl
  | cons a as ih => simpa [lPrefix?] using ih

/-- Index (0-based) of the first occurrence of `pat` in `hay`, as
`String.prototype.indexOf` / the search done by `replace` would find it. -/
def findOcc (hay pat : List Char) : Option Nat :=
  match hay with
  | [] => if pat = [] then some 0 else none
  | _ :: as => if lPrefix? pat hay then some 0 else (findOcc as pat).map (· + 1)

/-- JS `s.replace(pat, rep)` with a *string* pattern: replaces only the
first occurrence (or returns `s` unchanged when there is none). -/
def jsReplaceFirst (s pat rep : String) : String :=
  match findOcc s.data pat.data with
  | none => s
  | some i => String.mk (s.data.take i ++ rep.data ++ s.data.drop (i + pat.data.length))

theorem findOcc_of_starts (hay pat : List Char) (hne : pat ≠ []) (h : lPrefix? pat hay = true) :
    findOcc hay pat = some 0 := by
  cases hay with
  | nil => cases pat with
    | nil => exact absurd rfl hne
    | cons a as => simp [lPrefix?] at h
  | cons a as => simp [findOcc, h]

/-- When `s` literally starts with the nonempty `pat`, the JS
`s.replace(pat, "")` removes exactly that leading prefix. -/
theorem jsReplaceFirst_starts (p rest : List Char) (hne : p ≠ []) :
    jsReplaceFirst (String.mk (p ++ rest)) (String.mk p) "" = String.mk rest := by
  unfold jsReplaceFirst
  rw [show (String.mk (p ++ rest)).data = p ++ rest from rfl,
    show (String.mk p).data = p from rfl,
    findOcc_of_starts _ _ hne (lPrefix?_append p rest)]
  simp

/-- JS `/\/+$/` removal: drop every trailing `'/'`. -/
def dropTrailSl (cs : List Char) : List Char :=
  (cs.reverse.dropWhile (· = '/')).reverse

def jsStripTrailSl (s : String) : String :=
  String.mk (dropTrailSl s.data)

/-- JS `.replace(/\/{2,}/g, "/")`: collapse every run of two or more
slashes into a single one (right fold; a slash is dropped exactly when the
already-collapsed tail still starts with one, so every maximal run becomes
a single slash). -/
def collapseSl : List Char → List Char
  | [] => []
  | a :: rest =>
    let tail := collapseSl rest
    if a = '/' ∧ tail.head? = some '/' then tail else a :: tail

/-- JS `s.split(c)` for a one-character separator (the default divider
`"/"` is one character): `"" ↦ [""]`, separators at the ends produce empty
segments. -/
def splitCh (c : Char) : List Char → List (List Char)
  | [] => [[]]
  | a :: as =>
    if a = c then [] :: splitCh c as
    else
      match splitCh c as with
      | [] => [[a]]
      | g :: gs => (a :: g) :: gs

def jsSplitSl (s : String) : List String :=
  (splitCh '/' s.data).map String.mk

/-- JS `s.slice(n)` for a nonnegative start index. -/
def jsSliceFrom (s : String) (n : Nat) : String :=
  String.mk (s.data.drop n)

def isDigitCh (c : Char) : Bool :=
  48 ≤ c.toNat && c.toNat ≤ 57

def digitVal (c : Char) : Nat := c.toNat - 48

/-- `parseInt` on a digit string (big-endian). -/
def parseDigits (cs : List Char) : Nat :=
  cs.foldl (fun acc c => acc * 10 + digitVal c) 0

def digitCh : Nat → Char
  | 0 => '0' | 1 => '1' | 2 => '2' | 3 => '3' | 4 => '4'
  | 5 => '5' | 6 => '6' | 7 => '7' | 8 => '8' | _ => '9'

/-- Digit rendering with a fuel bound (any `fuel` with `n < 10 ^ fuel`
yields the digits; the wrapper supplies `n + 1`, which always suffices). -/
def natCharsAux : Nat → Nat → List Char
  | 0, _ => []
  | fuel + 1, n => if n < 10 then [digitCh n] else natCharsAux fuel (n / 10) ++ [digitCh (n % 10)]

/-- The decimal digits of `n`, as JS `String(n)` renders a nonnegative
integer. -/
def natChars (n : Nat) : List Char := natCharsAux (n + 1) n

def natStr (n : Nat) : String := String.mk (natChars n)

theorem digitVal_digitCh (d : Nat) (h : d < 10) : digitVal (digitCh d) = d := by
  interval_cases d <;> decide

theorem parseDigits_append (xs : List Char) (c : Char) :
    parseDigits (xs ++ [c]) = parseDigits xs * 10 + digitVal c := by
  simp [parseDigits, List.foldl_append]

theorem isDigitCh_digitCh (d : Nat) : isDigitCh (digitCh d) = true := by
  unfold digitCh
  split <;> decide

theorem natCharsAux_spec :
    ∀ (fuel n : Nat), 0 < fuel → n < 10 ^ fuel →
      parseDigits (natCharsAux fuel n) = n ∧ natCharsAux fuel n ≠ [] ∧
        (natCharsAux fuel n).all isDigitCh = true := by
  intro fuel
  induction fuel with
  | zero => intro n h0 _; omega
  | succ fuel ih =>
    intro n _ hlt
    by_cases h : n < 10
    · refine ⟨?_, by simp [natCharsAux, h], by simp [natCharsAux, h, isDigitCh_digitCh]⟩
      simp [natCharsAux, h, parseDigits, digitVal_digitCh n h]
    · have hf : 0 < fuel := by
        rcases Nat.eq_zero_or_pos fuel with h0 | h0
        · subst h0; simp at hlt; omega
        · exact h0
      have hdiv : n / 10 < 10 ^ fuel := by
        have h10 : 10 ^ (fuel + 1) = 10 * 10 ^ fuel := by ring
        omega
      obtain ⟨ihp, ihn, ihd⟩ := ih (n / 10) hf hdiv
      have hmod := digitVal_digitCh (n % 10) (Nat.mod_lt _ (by omega))
      refine ⟨?_, by simp [natCharsAux, h], ?_⟩
      · rw [show natCharsAux (fuel + 1) n =
          natCharsAux fuel (n / 10) ++ [digitCh (n % 10)] by simp [natCharsAux, h]]
        rw [parseDigits_append, ihp, hmod]
        omega
      · rw [show natCharsAux (fuel + 1) n =
          natCharsAux fuel (n / 10) ++ [digitCh (n % 10)] by simp [natCharsAux, h]]
        simp only [List.all_append, List.all_cons, List.all_nil]
        simp [ihd, isDigitCh_digitCh]

theorem natChars_spec (n : Nat) :
    parseDigits (natChars n) = n ∧ natChars n ≠ [] ∧ (natChars n).all isDigitCh = true := by
  have h1 : n < 10 ^ n := Nat.lt_pow_self (by norm_num) n
  have h2 : (10 : Nat) ^ n ≤ 10 ^ (n + 1) := Nat.pow_le_pow_right (by omega) (Nat.le_succ n)
  exact natCharsAux_spec (n + 1) n (by omega) (by omega)

theorem parseDigits_natChars (n : Nat) : parseDigits (natChars n) = n :=
  (natChars_spec n).1

theorem natChars_ne_nil (n : Nat) : natChars n ≠ [] :=
  (natChars_spec n).2.1

theorem natChars_all_digits (n : Nat) : (natChars n).all isDigitCh = true :=
  (natChars_spec n).2.2

/-! ### JS values

`JVal` models the JS values manipulated by `utils/data.js` and stored in a
`DB`'s `data` map: `undefined`, `null`, booleans, numbers (integral — no
claim involves fractional numbers), strings, arrays and plain objects.
Objects are field lists in insertion order (faithful to `for…in` for keys
that are not array indices); array holes are `undef` elements. -/

inductive JVal where
  | undef
  | null
  | bool (b : Bool)
  | num (n : Int)
  | str (s : String)
  | arr (elems : List JVal)
  | obj (fields : List (String × JVal))
  deriving Repr

mutual

def JVal.beq : JVal → JVal → Bool
  | .undef, .undef => true
  | .null, .null => true
  | .bool a, .bool b => a == b
  | .num a, .num b => a == b
  | .str a, .str b => a == b
  | .arr xs, .arr ys => beqElems xs ys
  | .obj fs, .obj gs => beqFields fs gs
  | _, _ => false

def beqElems : List JVal → List JVal → Bool
  | [], [] => true
  | x :: xs, y :: ys => JVal.beq x y && beqElems xs ys
  | _, _ => false

def beqFields : List (String × JVal) → List (String × JVal) → Bool
  | [], [] => true
  | (k1, v1) :: xs, (k2, v2) :: ys => k1 == k2 && JVal.beq v1 v2 && beqFields xs ys
  | _, _ => false

end

theorem jval_beq_iff_aux :
    ∀ (n : Nat) (a b : JVal), sizeOf a ≤ n → (JVal.beq a b = true ↔ a = b) := by
  intro n
  induction n with
  | zero =>
    intro a b h
    cases a <;> simp_arith at h
  | succ n ih =>
    intro a b h
    have elems : ∀ (xs ys : List JVal), sizeOf xs ≤ n →
        (beqElems xs ys = true ↔ xs = ys) := by
      intro xs
      induction xs with
      | nil => intro ys _; cases ys <;> simp [beqElems]
      | cons x xs ihx =>
        intro ys hs
        cases ys with
        | nil => simp [beqElems]
        | cons y ys =>
          have hx : sizeOf x ≤ n := by simp_arith at hs; omega
          have hxs : sizeOf xs ≤ n := by simp_arith at hs; omega
          simp [beqElems, ih x y hx, ihx ys hxs]
    have fields : ∀ (fs gs : List (String × JVal)), sizeOf fs ≤ n →
        (beqFields fs gs = true ↔ fs = gs) := by
      intro fs
      induction fs with
      | nil => intro gs _; cases gs <;> simp [beqFields]
      | cons p fs ihf =>
        intro gs hs
        obtain ⟨k1, v1⟩ := p
        cases gs with
        | nil => simp [beqFields]
        | cons q gs =>
          obtain ⟨k2, v2⟩ := q
          have hv : sizeOf v1 ≤ n := by simp_arith at hs; omega
          have hfs : sizeOf fs ≤ n := by simp_arith at hs; omega
          simp [beqFields, ih v1 v2 hv, ihf gs hfs, and_assoc]
    cases a <;> cases b <;> simp [JVal.beq]
    case arr.arr xs ys =>
      exact elems xs ys (by simp_arith at h; omega)
    case obj.obj fs gs =>
      exact fields fs gs (by simp_arith at h; omega)

theorem JVal.beq_iff (a b : JVal) : JVal.beq a b = true ↔ a = b :=
  jval_beq_iff_aux (sizeOf a) a b (Nat.le_refl _)

instance : DecidableEq JVal := fun a b =>
  decidable_of_iff (JVal.beq a b = true) (JVal.beq_iff a b)

/-- `typeof v === 'object' && v !== null` as the sources test it: arrays and
plain objects. -/
def isContainer : JVal → Bool
  | .arr _ => true
  | .obj _ => true
  | _ => false

/-- `['object','function'].includes(typeof v)` (no functions in `JVal`):
true for `null`, arrays and objects. -/
def isObjTypeof : JVal → Bool
  | .null => true
  | .arr _ => true
  | .obj _ => true
  | _ => false

/-- JS truthiness: `undefined`, `null`, `false`, `0`, `""` are falsy. -/
def truthy : JVal → Bool
  | .undef => false
  | .null => false
  | .bool b => b
  | .num n => ¬ n = 0
  | .str s => ¬ s = ""
  | .arr _ => true
  | .obj _ => true

/-- Is `k` a canonical array-index string (`String(i)` for some `i`)?  Only
such keys address array elements in JS. -/
def canonIdx? (k : String) : Option Nat :=
  let cs := k.data
  if cs ≠ [] ∧ cs.all isDigitCh ∧ (cs = ['0'] ∨ cs.head? ≠ some '0') then
    some (parseDigits cs)
  else none

/-- JS array element assignment `a[i] = v`: extends with holes when `i` is
beyond the current length. -/
def listSet (xs : List JVal) (i : Nat) (v : JVal) : List JVal :=
  if i < xs.length then xs.set i v
  else xs ++ List.replicate (i - xs.length) .undef ++ [v]

/-- Property read `v[k]` as the sources use it.  On objects: own field or
`undefined`.  On arrays: element when `k` is a canonical index (holes read
as `undefined`).  String keys on arrays and property reads on primitives
are not exercised by any verified run and are modelled as `undefined`. -/
def JVal.getProp : JVal → String → JVal
  | .obj fs, k => (mget fs k).getD .undef
  | .arr xs, k =>
    match canonIdx? k with
    | some i => xs.getD i .undef
    | none => .undef
  | _, _ => JVal.undef

/-- Property write `v[k] = x` as the sources use it.  On objects: update in
place or append.  On arrays: element write for canonical indices.  String
keys on arrays and writes to primitives (which throw in strict mode) are
not exercised by any verified run and leave the value unchanged. -/
def JVal.setProp : JVal → String → JVal → JVal
  | .obj fs, k, x => .obj (mset fs k x)
  | .arr xs, k, x =>
    match canonIdx? k with
    | some i => .arr (listSet xs i x)
    | none => .arr xs
  | v, _, _ => v

/-! ### `Data.flatten` (src/utils/data.js lines 56-70)

`OBJECT_DIVIDER` and `ARRAY_WRAPPER` are process-wide configurable; the
embedding fixes them to their defaults `"/"` and `"[]"`, the values used by
every claim. -/

mutual

/-- `Data.flatten(obj, parent, res)`: depth-first walk writing scalar
leaves into `res` under divider-joined paths, array indices wrapped as
`[i]`. -/
def flattenV : JVal → String → Smap JVal → Smap JVal
  | .obj fs, parentK, res => flattenFs fs parentK res
  | .arr xs, parentK, res => flattenAr xs 0 parentK res
  | _, _, res => res

def flattenFs : List (String × JVal) → String → Smap JVal → Smap JVal
  | [], _, res => res
  | (k, v) :: rest, parentK, res =>
    let propName := if parentK = "" then k else parentK ++ "/" ++ k
    let res2 := if isContainer v then flattenV v propName res else mset res propName v
    flattenFs rest parentK res2

def flattenAr : List JVal → Nat → String → Smap JVal → Smap JVal
  | [], _, _, res => res
  | v :: rest, i, parentK, res =>
    let corr := "[" ++ natStr i ++ "]"
    let propName := if parentK = "" then corr else parentK ++ "/" ++ corr
    let res2 := if isContainer v then flattenV v propName res else mset res propName v
    flattenAr rest (i + 1) parentK res2

end

/-- `Data.flatten(obj)` with the default arguments. -/
def dataFlatten (v : JVal) : Smap JVal := flattenV v "" []

/-! ### `Data.find` (src/utils/data.js lines 79-98) -/

/-- The `/^\[(\d+)\]$/` match: digits of an `[i]` segment, or `none`. -/
def idxDigits? (s : String) : Option (List Char) :=
  if s.data.head? = some '[' ∧ s.data.tail.getLast? = some ']' ∧
      s.data.tail.dropLast ≠ [] ∧ s.data.tail.dropLast.all isDigitCh
  then some s.data.tail.dropLast else none

/-- The segment conversion done by `Data.find` and `unflatten`:
`"[07]" ↦ String(parseInt("07", 10)) = "7"`; anything else unchanged. -/
def convKey (s : String) : String :=
  match idxDigits? s with
  | some ds => natStr (parseDigits ds)
  | none => s

/-- The walk of `Data.find`: each segment is converted, then looked up;
non-container values are returned immediately (even with segments left
over); `undefined` accumulators stop the walk. -/
def dataFindLoop : JVal → List String → JVal
  | acc, [] => acc
  | acc, key :: rest =>
    if acc = .undef then .undef
    else
      let next := acc.getProp (convKey key)
      if isContainer next then dataFindLoop next rest else next

/-- `Data.find(path, obj)` with a pre-split path. -/
def dataFindSegs (path : List String) (v : JVal) : JVal :=
  dataFindLoop v path

/-- `Data.find(path, obj)` with a divider-joined string path. -/
def dataFindStr (path : String) (v : JVal) : JVal :=
  dataFindLoop v (jsSplitSl path)

/-! ### `Data.findValue` (src/utils/data.js lines 108-122) -/

/-- The `do … while` of `findValue`: look up the path; optionally treat
scalars as missing; on a miss pop the last segment and retry while segments
remain and the `MAX_DEEP_UNFLATTEN = 99` bound is not hit.  One segment is
popped per iteration, so any `fuel ≥ path.length + 1` makes the fuel-out
branch unreachable; the wrapper supplies exactly that. -/
def findValueLoop (obj : JVal) (skipScalar : Bool) :
    Nat → List String → Nat → JVal × List String
  | 0, path, _ => (JVal.undef, path)
  | fuel + 1, path, i =>
    let value0 := dataFindLoop obj path
    let value := if skipScalar ∧ ¬ isObjTypeof value0 then JVal.undef else value0
    if value = .undef then
      if path.dropLast ≠ [] ∧ i + 1 < 99 then
        findValueLoop obj skipScalar fuel path.dropLast (i + 1)
      else (value, path.dropLast)
    else (value, path)

/-- `Data.findValue(path, obj, skipScalar)`. -/
def dataFindValue (path : List String) (obj : JVal) (skipScalar : Bool) :
    JVal × List String :=
  findValueLoop obj skipScalar (path.length + 1) path 0

/-- `Array.prototype.join("/")`. -/
def joinSl : List String → String
  | [] => ""
  | [s] => s
  | s :: rest => s ++ "/" ++ joinSl rest

/-! ### `Data.unflatten` (src/utils/data.js lines 130-183)

The JS loop mutates `result` through the alias `parent`, which is the
object `Data.find(path, result)` returned (or `result` itself when that
return value was falsy).  `Data.find` returns a container only after
consuming the whole path, so a truthy container `parent` lives exactly at
`path` inside `result`; the functional rendering therefore re-walks `path`
(applying the same `[i] ↦ i` segment conversion `Data.find` applies — the
segments pushed by the loop are already converted, so this is the identity
on them) and rebuilds the spine. -/

/-- Walk along converted segments with plain property reads (the node that
`Data.find` would make its accumulator). -/
def walkPath : JVal → List String → JVal
  | root, [] => root
  | root, p :: rest => walkPath (root.getProp (convKey p)) rest

/-- Functional rendering of mutation through an alias: replace the node at
`path` inside `root`. -/
def replaceAt : JVal → List String → JVal → JVal
  | _, [], nv => nv
  | root, p :: rest, nv => root.setProp (convKey p) (replaceAt (root.getProp (convKey p)) rest nv)

/-- `parent[k] = x` where `parent` is the container at `path` in `root`. -/
def setAtPath (root : JVal) (path : List String) (k : String) (x : JVal) : JVal :=
  replaceAt root path ((walkPath root path).setProp k x)

/-- `parent[curr] = parent[curr] || defv` where
`parent = Data.find(path, result) || result` (`parentV` is the `find`
result; when it is falsy the assignment goes to `result`'s top level). -/
def orAssign (result : JVal) (path : List String) (parentV : JVal) (curr2 : String)
    (defv : JVal) : JVal :=
  if truthy parentV then
    let old := parentV.getProp curr2
    setAtPath result path curr2 (if truthy old then old else defv)
  else
    let old := result.getProp curr2
    result.setProp curr2 (if truthy old then old else defv)

/-- The `for (let i = 0; i < keys.length - 1; i++)` loop of `unflatten`:
create or reuse one intermediate container per segment, choosing array
versus object by looking ahead at the next segment (`keys[i+1] || null`
turns an empty next segment into `null`).  A truthy non-container parent
makes both branches fail: the array branch by assigning to a primitive
(a `TypeError` under strict mode), the object branch by the explicit
`TypeError` in the source. -/
def unflatLoop (result : JVal) (path : List String) :
    List String → Except String (JVal × List String)
  | [] => .ok (result, path)
  | [_] => .ok (result, path)
  | curr :: next :: rest =>
    let parentV := dataFindLoop result path
    let curr2 := convKey curr
    if truthy parentV ∧ ¬ isContainer parentV then
      .error ("Element is not an object in " ++ joinSl path)
    else
      let defv := if next ≠ "" ∧ (idxDigits? next).isSome then JVal.arr [] else JVal.obj []
      unflatLoop (orAssign result path parentV curr2 defv) (path ++ [curr2]) (next :: rest)

/-- One iteration of `unflatten`'s outer `for (let flatKey in data)` loop:
build intermediate containers, then place the leaf value.  `keys.pop()`
removes the final segment before the fallback branch computes
`keys.slice(0, keys.length - 1)`, so the fallback search path drops the
last *two* segments of the original key. -/
def unflatKey (result : JVal) (flatKey : String) (v : JVal) : Except String JVal := do
  let keys := jsSplitSl flatKey
  let (result1, path) ← unflatLoop result [] keys
  let (value, vpath) := dataFindValue path result1 false
  let key := (keys.getLast?).getD ""
  let keysPopped := keys.dropLast
  match value with
  | .arr _ =>
    match idxDigits? key with
    | some ds => pure (setAtPath result1 vpath (natStr (parseDigits ds)) v)
    | none =>
      -- `value[key] = …` with a non-index key on an array attaches a string
      -- property; not representable on list-modelled arrays and not
      -- exercised by any verified run.
      pure (setAtPath result1 vpath key v)
  | .obj _ => pure (setAtPath result1 vpath key v)
  | .null => .error "TypeError: cannot set a property of null"
  | _ =>
    let (v2, p2) := dataFindValue keysPopped.dropLast result1 true
    match v2 with
    | .arr _ | .obj _ =>
      let pathStr := jsSliceFrom flatKey ((joinSl p2).data.length + 1)
      pure (setAtPath result1 p2 pathStr v)
    | .null => .error "TypeError: cannot set a property of null"
    | _ =>
      .error ("Value key not found: " ++ key ++ " => " ++ joinSl keysPopped)

/-- `Data.unflatten(data)`. -/
def unflatten (entries : Smap JVal) : Except String JVal :=
  entries.foldlM (fun r kv => unflatKey r kv.1 kv.2) (JVal.obj [])

instance {ε α : Type} [DecidableEq ε] [DecidableEq α] : DecidableEq (Except ε α) := fun a b =>
  match a, b with
  | .ok x, .ok y => decidable_of_iff (x = y) (by simp)
  | .error x, .error y => decidable_of_iff (x = y) (by simp)
  | .ok _, .error _ => isFalse (by simp)
  | .error _, .ok _ => isFalse (by simp)

/-! ### `JSON.parse(JSON.stringify(…))` and `Data.merge`
(src/utils/data.js lines 193-210) -/

mutual

/-- The deep copy `JSON.parse(JSON.stringify(target))`: `undefined` array
elements (holes) become `null`, `undefined`-valued fields are dropped,
everything else copies structurally. -/
def jsonCopy : JVal → JVal
  | .undef => .undef
  | .null => .null
  | .bool b => .bool b
  | .num n => .num n
  | .str s => .str s
  | .arr xs => .arr (jsonCopyElems xs)
  | .obj fs => .obj (jsonCopyFields fs)

def jsonCopyElems : List JVal → List JVal
  | [] => []
  | .undef :: rest => .null :: jsonCopyElems rest
  | x :: rest => jsonCopy x :: jsonCopyElems rest

def jsonCopyFields : List (String × JVal) → List (String × JVal)
  | [] => []
  | (_, .undef) :: rest => jsonCopyFields rest
  | (k, v) :: rest => (k, jsonCopy v) :: jsonCopyFields rest

end

mutual

/-- `Data.merge(target, source)`: deep-copy the target, then fold the
source's own enumerable keys (fields of an object, indices of an array). -/
def dataMerge (t s : JVal) : JVal :=
  let nt := jsonCopy t
  match s with
  | .obj fs => mergeFields nt fs
  | .arr xs => mergeElems nt xs 0
  | _ => nt

/-- One `for (const key in source)` step for object sources:
`source[key] && typeof source[key] === 'object'` selects containers
(`null` is falsy); arrays replace wholesale via `slice()`, objects merge
recursively into `newTarget[key] || {}`, scalars overwrite. -/
def mergeFields (nt : JVal) : List (String × JVal) → JVal
  | [] => nt
  | (k, v) :: rest =>
    let nt2 :=
      if truthy v ∧ isContainer v then
        match v with
        | .arr xs => nt.setProp k (.arr xs)
        | _ =>
          let base := if truthy (nt.getProp k) then nt.getProp k else .obj []
          nt.setProp k (dataMerge base v)
      else nt.setProp k v
    mergeFields nt2 rest

/-- The same step when the source is an array (`for…in` yields the index
strings). -/
def mergeElems (nt : JVal) : List JVal → Nat → JVal
  | [], _ => nt
  | v :: rest, i =>
    let k := natStr i
    let nt2 :=
      if truthy v ∧ isContainer v then
        match v with
        | .arr xs => nt.setProp k (.arr xs)
        | _ =>
          let base := if truthy (nt.getProp k) then nt.getProp k else .obj []
          nt.setProp k (dataMerge base v)
      else nt.setProp k v
    mergeElems nt2 rest (i + 1)

end

/-! ### `DocumentStat` (src/DocumentStat.js) and `DocumentEntry`
(src/DocumentEntry.js)

Only the fields the verified claims read are carried; the omitted numeric
fields (`atimeMs`, `blocks`, …) default to zero in the source and are never
consulted by `DB`. -/

structure DocumentStat where
  mtimeMs : Int := 0
  size : Nat := 0
  isDirectory : Bool := false
  isFile : Bool := false
  isSymbolicLink : Bool := false
  error : Option String := none
  deriving Repr, DecidableEq

structure DocumentEntry where
  name : String := ""
  stat : DocumentStat := {}
  depth : Nat := 0
  path : String := ""
  parent : String := ""
  fulfilled : Bool := false
  deriving Repr, DecidableEq

/-- `path.split("/").pop() ?? ""`. -/
def lastSeg (path : String) : String :=
  ((jsSplitSl path).getLast?).getD ""

/-- The `DocumentEntry` constructor as `readDir` invokes it
(`{ name, stat, depth, path }`): `parent` and `fulfilled` keep their
defaults `""` and `false`; an empty `name` with a nonempty `path` is
replaced by the last path segment. -/
def DocumentEntry.make (name : String) (stat : DocumentStat) (depth : Nat) (path : String) :
    DocumentEntry :=
  { name := if name = "" ∧ path ≠ "" then lastSeg path else name,
    stat := stat, depth := depth, path := path }

/-! ### The back-end model

The base class leaves `listDir`, `statDocument`, `loadDocument`,
`saveDocument` and `relative` to platform subclasses (they throw
`Not implemented`).  For the traversal claims the back-end is a finite
tree `FS`: `listDir uri` returns the `(name, stat)` children of the node
at `uri`, and `statDocument` returns the node's stat — the contract of
§ external interfaces.  Every back-end invocation is logged as a `BOp`. -/

inductive FS where
  | file (size : Nat) (mtimeMs : Int) (err : Option String)
  | dir (children : List (String × FS))
  deriving Repr

def FS.stat : FS → DocumentStat
  | .file sz mt err => { size := sz, mtimeMs := mt, error := err, isFile := true }
  | .dir _ => { isDirectory := true }

inductive BOp where
  | statDoc (uri : String)
  | listDir (uri : String)
  | loadDoc (uri : String)
  | saveDoc (uri : String)
  deriving Repr, DecidableEq

/-- The base-class `resolve(...args)`: `args.filter(Boolean).join("/")`. -/
def jsResolve (xs : List String) : String :=
  joinSl (xs.filter (fun s => s ≠ ""))

/-! ### `DB` (src/DB.js)

`dbs` holds attached sibling stores, which are themselves `DB`s, so `DB`
is a (nested) inductive rather than a structure. -/

inductive DB where
  | mk (root cwd : String) (connected : Bool) (data : Smap JVal)
      (meta : Smap DocumentStat) (dbs : List DB)
  deriving Repr

def DB.root : DB → String | .mk r _ _ _ _ _ => r
def DB.cwd : DB → String | .mk _ c _ _ _ _ => c
def DB.connected : DB → Bool | .mk _ _ c _ _ _ => c
def DB.data : DB → Smap JVal | .mk _ _ _ d _ _ => d
def DB.meta : DB → Smap DocumentStat | .mk _ _ _ _ m _ => m
def DB.dbs : DB → List DB | .mk _ _ _ _ _ l => l

def DB.withConnected : DB → Bool → DB | .mk r c _ d m l, c2 => .mk r c c2 d m l
def DB.withData : DB → Smap JVal → DB | .mk r c k _ m l, d2 => .mk r c k d2 m l
def DB.withMeta : DB → Smap DocumentStat → DB | .mk r c k d _ l, m2 => .mk r c k d m2 l
def DB.withDbs : DB → List DB → DB | .mk r c k d m _, l2 => .mk r c k d m l2

/-- `get loaded()`: the `"?loaded"` marker is present in `meta`. -/
def DB.loaded (self : DB) : Bool := mhas self.meta "?loaded"

/-- `attach(db)` (lines 88-93): push onto `dbs`.  The `TypeError` on
non-`DB` arguments is unrepresentable here — every argument is a `DB`. -/
def DB.attach (self db : DB) : DB := self.withDbs (self.dbs ++ [db])

/-- `Array.prototype.findIndex` (as an `Option`al index). -/
def jsFindIndex (p : DB → Bool) : List DB → Option Nat
  | [] => none
  | d :: rest => if p d then some 0 else (jsFindIndex p rest).map (· + 1)

/-- `Array.prototype.splice(i, 1)`: the pair (removed elements, remaining
list). -/
def spliceOne : List DB → Nat → List DB × List DB
  | [], _ => ([], [])
  | d :: rest, 0 => ([d], rest)
  | d :: rest, i + 1 =>
    let (rem, keep) := spliceOne rest i
    (rem, d :: keep)

/-- `detach(db)` (lines 100-106): find the first entry with the same
`(root, cwd)` pair; `false` (here `none`) if absent, otherwise splice it
out and return the removed one-element list. -/
def DB.detach (self db : DB) : Option (List DB) × DB :=
  match jsFindIndex (fun d => d.root == db.root && d.cwd == db.cwd) self.dbs with
  | none => (none, self)
  | some i =>
    let (rem, keep) := spliceOne self.dbs i
    (some rem, self.withDbs keep)

/-- `extract(uri)` (lines 113-126).  The method only reads `this`, so the
pair returned is `(the new store, this afterwards)` with the second
component literally the receiver. -/
def DB.extract (self : DB) (uri : String) : DB × DB :=
  let rt := if self.root = "." then "" else String.mk (collapseSl (self.root ++ "/").data)
  let pfx := jsStripTrailSl uri ++ "/"
  (DB.mk (rt ++ uri) "." false
    ((self.data.filter (fun kv => jsStartsWith kv.1 pfx)).map
      (fun kv => (jsReplaceFirst kv.1 pfx "", kv.2)))
    ((self.meta.filter (fun kv => jsStartsWith kv.1 pfx)).map
      (fun kv => (jsReplaceFirst kv.1 pfx "", kv.2)))
    [], self)

/-- `get(uri)` (lines 291-298): a missing entry or the `false` sentinel
triggers `loadDocument` (the back-end `loadFn`, logged); the cached value
is returned.  `ensureAccess` is the base implementation (always true). -/
def DB.get (self : DB) (uri : String) (loadFn : String → JVal) : JVal × DB × List BOp :=
  if ¬ mhas self.data uri ∨ mget self.data uri = some (.bool false) then
    let d := loadFn uri
    let self2 := self.withData (mset self.data uri d)
    ((mget self2.data uri).getD .undef, self2, [.loadDoc uri])
  else
    ((mget self.data uri).getD .undef, self, [])

/-- `set(uri, data)` (lines 306-312): store the value and stamp the
metadata with `mtimeMs = Date.now()` (the clock is the explicit `now`),
spreading any existing stat. -/
def DB.set (self : DB) (uri : String) (d : JVal) (now : Int) : JVal × DB :=
  let m := (mget self.meta uri).getD {}
  (d, (self.withData (mset self.data uri d)).withMeta
    (mset self.meta uri { m with mtimeMs := now }))

/-- The body of `push`'s second loop (lines 446-455): for every cached
entry, stat the back-end and save when the cached `mtimeMs` is strictly
newer.  The `uri` argument of `push` is only used for the access
pre-checks (base `ensureAccess` always allows), so the loop runs over the
whole `data` map regardless. -/
def pushLoop (met : Smap DocumentStat) (statFn : String → DocumentStat) :
    Smap JVal → List String × List BOp
  | [] => ([], [])
  | (k, _) :: rest =>
    let m := (mget met k).getD { mtimeMs := 0 }
    let st := statFn k
    let (cs, tr) := pushLoop met statFn rest
    if m.mtimeMs > st.mtimeMs then (k :: cs, .statDoc k :: .saveDoc k :: tr)
    else (cs, .statDoc k :: tr)

/-- `push(uri?)` (lines 438-456). -/
def DB.push (self : DB) (uri : Option String) (statFn : String → DocumentStat) :
    List String × List BOp :=
  let _ := uri   -- consumed only by the `ensureAccess` pre-checks (no-ops here)
  pushLoop self.meta statFn self.data

/-! ### `readDir` (src/DB.js lines 174-223)

The generator is consumed to exhaustion by every verified run, so it is
modelled as the full list of yields plus the final cache maps and back-end
trace.  Starting `readDir` on a file node reaches the base-class
`relative`, which throws `Not implemented` before anything is yielded. -/

/-- Phase 1 of the directory branch: iterate `listDir`'s entries in order,
skip filtered-out paths, record `data[path] = false` and `meta[path] =
stat`, yield directories immediately and buffer files in `later`. -/
def classifyChildren :
    List (String × FS) → String → Nat → (String → Bool) → Smap JVal → Smap DocumentStat →
      List DocumentEntry × List DocumentEntry × Smap JVal × Smap DocumentStat
  | [], _, _, _, dat, met => ([], [], dat, met)
  | (name, child) :: rest, uri, depth, flt, dat, met =>
    let path := jsResolve [uri, name]
    if ¬ flt path then classifyChildren rest uri depth flt dat met
    else
      let dat2 := mset dat path (.bool false)
      let met2 := mset met path child.stat
      let el := DocumentEntry.make name child.stat depth path
      let (ds, ls, dat3, met3) := classifyChildren rest uri depth flt dat2 met2
      if child.stat.isDirectory then (el :: ds, ls, dat3, met3) else (ds, el :: ls, dat3, met3)

mutual

def readDir (fs : FS) (uri : String) (depth : Nat) (flt : String → Bool) (skipSym : Bool)
    (dat : Smap JVal) (met : Smap DocumentStat) :
    Except String (List DocumentEntry × Smap JVal × Smap DocumentStat × List BOp) :=
  if ¬ flt uri then .ok ([], dat, met, [])
  else
    match fs with
    | .dir children =>
      let (dirsOut, laterOut, dat1, met1) := classifyChildren children uri depth flt dat met
      match readSubdirs children uri depth flt skipSym dat1 met1 with
      | .error e => .error e
      | .ok (recOut, dat2, met2, tr2) =>
        .ok (dirsOut ++ laterOut ++ recOut, dat2, met2, [.statDoc uri, .listDir uri] ++ tr2)
    | .file _ _ _ => .error "Not implemented"

/-- Phase 3: recurse into every directory child (symbolic links skipped on
request) at `depth + 1`. -/
def readSubdirs :
    List (String × FS) → String → Nat → (String → Bool) → Bool → Smap JVal → Smap DocumentStat →
      Except String (List DocumentEntry × Smap JVal × Smap DocumentStat × List BOp)
  | [], _, _, _, _, dat, met => .ok ([], dat, met, [])
  | (name, child) :: rest, uri, depth, flt, skipSym, dat, met =>
    if skipSym ∧ child.stat.isSymbolicLink then readSubdirs rest uri depth flt skipSym dat met
    else if child.stat.isDirectory then
      match readDir child (jsResolve [uri, name]) (depth + 1) flt skipSym dat met with
      | .error e => .error e
      | .ok (o1, dat1, met1, t1) =>
        match readSubdirs rest uri depth flt skipSym dat1 met1 with
        | .error e => .error e
        | .ok (o2, dat2, met2, t2) => .ok (o1 ++ o2, dat2, met2, t1 ++ t2)
    else readSubdirs rest uri depth flt skipSym dat met

end

/-! ### `find` (src/DB.js lines 255-274) -/

inductive FindYield where
  | entry (e : DocumentEntry)
  | key (uri : String)
  deriving Repr, DecidableEq

/-- The `uri` argument of `find`: a literal URI or a predicate over
`(key, cached value)`. -/
inductive FindQuery where
  | lit (uri : String)
  | pred (f : String → JVal → Bool)

/-- The cache scan at the end of `find`. -/
def queryMatches : FindQuery → Smap JVal → List String
  | .pred f, dat => (dat.filter (fun kv => f kv.1 kv.2)).map (fun kv => kv.1)
  | .lit u, dat => if mhas dat u then [u] else []

/-- `find(uri, depth)`: `requireConnected` (the base `connect` always
succeeds and sets the flag); when the `"?loaded"` marker is absent,
delegate one `readDir` of the root at `depth + 1` (its `DocumentEntry`s
are yielded through — the source marks this with a `@todo`), then set the
marker; finally scan the cache. -/
def DB.find (fs : FS) (self : DB) (q : FindQuery) (depth : Nat) :
    Except String (List FindYield × DB × List BOp) :=
  let self1 := self.withConnected true
  if ¬ mhas self1.meta "?loaded" then
    match readDir fs self1.root (depth + 1) (fun _ => true) false self1.data self1.meta with
    | .error e => .error e
    | .ok (ents, dat1, met1, tr) =>
      let met2 := mset met1 "?loaded" {}
      .ok (ents.map FindYield.entry ++ (queryMatches q dat1).map FindYield.key,
        (self1.withData dat1).withMeta met2, tr)
  else
    .ok ((queryMatches q self1.data).map FindYield.key, self1, [])

/-! ### `findStream` (src/DB.js lines 506-631) -/

/-- One step of the progress bookkeeping: entries are mutated only through
their `fulfilled` flag, always via the `dirs`/`top` maps, and each entry
object is created once per path — so object identity is its `path`, and
the flag is modelled as the `fulfilled` path set. -/
structure ProgState where
  dirs : Smap DocumentEntry
  top : Smap DocumentEntry
  fulfilled : List String
  deriving Repr, DecidableEq

def markFulfilled (st : ProgState) (p : String) : ProgState :=
  { st with fulfilled := p :: st.fulfilled }

def isFulfilled (st : ProgState) (e : DocumentEntry) : Bool :=
  st.fulfilled.contains e.path

/-- The `while (dir.parent && dirs.has(dir.parent))` ascent (lines
566-574).  In the runs of interest the chain is acyclic, and
`dirs.size + 1` fuel bounds any acyclic chain. -/
def topAncestorName (st : ProgState) : Nat → DocumentEntry → String
  | 0, d => d.name
  | fuel + 1, d =>
    if d.parent ≠ "" ∧ mhas st.dirs d.parent then
      match mget st.dirs d.parent with
      | some d2 => topAncestorName st fuel d2
      | none => d.name
    else d.name

/-- `getProgress(files)` (lines 540-602), flagged
`!!! INCORRECT PROGRESS CALCULATION !!!` in the source.  The depth-gated
`top`-based progress value is computed and then unconditionally overwritten
by the all-directories ratio (only the overwriting value is modelled; the
intermediate assignment has no other effect), while the `fulfilled`
markings it performs are kept. -/
def getProgress (files : List DocumentEntry) (st0 : ProgState) :
    Except String (Rat × ProgState) :=
  match files.getLast? with
  | none => .error "getProgress on no files"
  | some recent =>
    let lastE := files.dropLast.getLast?
    let st1 :=
      if recent.stat.isDirectory then { st0 with dirs := mset st0.dirs recent.path recent }
      else st0
    if ¬ recent.stat.isDirectory ∧ recent.parent ≠ "" ∧ ¬ mhas st1.dirs recent.parent then
      .error ("Directory not found: " ++ recent.parent)
    else
      let st2 :=
        match lastE with
        | some l =>
          if l.parent ≠ "" ∧ l.parent ≠ recent.parent ∧ mhas st1.dirs l.parent then
            match mget st1.dirs l.parent with
            | some dir =>
              let stA := markFulfilled st1 dir.path
              match mget stA.top dir.name with
              | some topDir => markFulfilled stA topDir.path
              | none => stA
            | none => st1
          else st1
        | none => st1
      let st3 :=
        if recent.depth > 0 then
          let tname := topAncestorName st2 (st2.dirs.length + 1) recent
          match mget st2.top tname with
          | some topDir =>
            let subDirs := (st2.dirs.map (fun kv => kv.2)).filter
              (fun d => d.name ≠ tname ∧ (d.parent == tname || jsStartsWith d.name (tname ++ "/")))
            if subDirs ≠ [] ∧ subDirs.all (fun d => isFulfilled st2 d) then
              markFulfilled st2 topDir.path
            else st2
          | none => st2
        else if recent.stat.isDirectory then { st2 with top := mset st2.top recent.name recent }
        else st2
      let denom := st3.dirs.length
      let num := ((st3.dirs.map (fun kv => kv.2)).filter (fun d => isFulfilled st3 d)).length
      -- `fulfilledDirs.length / dirs.size` is exact here, so the JS float is
      -- the rational `num / denom` (`mkRat`); `dirs.size ? … : 0` guards zero.
      .ok (if denom = 0 then 0 else mkRat num denom, st3)

/-- A `StreamEntry` snapshot (src/StreamEntry.js): in JS the maps and the
entry objects are live references; by the end of a full run they equal the
final state, and each yielded snapshot here carries the state at yield
time. -/
structure StreamEntry where
  file : DocumentEntry
  files : List DocumentEntry
  dirs : Smap DocumentEntry
  top : Smap DocumentEntry
  errors : Smap (Option String)
  progress : Rat
  totalSizeDirs : Nat
  totalSizeFiles : Nat
  deriving Repr, DecidableEq

/-- Lexicographic character-list comparison (code-point order). -/
def strLtChars : List Char → List Char → Bool
  | [], [] => false
  | [], _ :: _ => true
  | _ :: _, [] => false
  | a :: as, b :: bs =>
    if a.toNat < b.toNat then true
    else if b.toNat < a.toNat then false
    else strLtChars as bs

/-- `a.name.localeCompare(b.name) ≤ 0` for the lowercase-ASCII names in
scope coincides with code-point lexicographic order. -/
def nameLe (a b : DocumentEntry) : Bool := ¬ strLtChars b.name.data a.name.data

def insertSorted (e : DocumentEntry) : List DocumentEntry → List DocumentEntry
  | [] => [e]
  | x :: xs => if nameLe x e then x :: insertSorted e xs else e :: x :: xs

/-- `files.sort(sortFn)` with the default `sort: "name", order: "asc"`:
a stable sort by name (JS `Array.prototype.sort` is stable). -/
def sortByName : List DocumentEntry → List DocumentEntry
  | [] => []
  | x :: xs => insertSorted x (sortByName xs)

/-- The consumer loop of `findStream` over the already-listed `readDir`
yields: push the file (the `files` array was sorted in place after the
previous yield), record errors and directories, compute the progress, sort,
snapshot, honor `limit`. -/
def findStreamLoop (entries : List DocumentEntry) (files : List DocumentEntry)
    (st : ProgState) (errors : Smap (Option String)) (tsD tsF : Nat) (limit : Int) :
    Except String (List StreamEntry) :=
  match entries with
  | [] => .ok []
  | f :: rest =>
    let files1 := files ++ [f]
    let errors1 := if f.stat.error.isSome then mset errors f.path f.stat.error else errors
    let st1 := if f.stat.isDirectory then { st with dirs := mset st.dirs f.path f } else st
    let tsD1 := if f.stat.isDirectory then tsD + f.stat.size else tsD
    let tsF1 := if f.stat.isFile then tsF + f.stat.size else tsF
    match getProgress files1 st1 with
    | .error e => .error e
    | .ok (p, st2) =>
      let sorted := sortByName files1
      let entry : StreamEntry :=
        { file := f, files := sorted, dirs := st2.dirs, top := st2.top, errors := errors1,
          progress := p, totalSizeDirs := tsD1, totalSizeFiles := tsF1 }
      if limit > 0 ∧ (Int.ofNat files1.length) ≥ limit then .ok [entry]
      else
        match findStreamLoop rest sorted st2 errors1 tsD1 tsF1 limit with
        | .error e => .error e
        | .ok out => .ok (entry :: out)

/-- `findStream(uri, options)` with the default options (no filter, sort by
name ascending, no limit unless given): drive `readDir` from `uri` and fold
the yields into `StreamEntry` snapshots. -/
def DB.findStream (fs : FS) (self : DB) (uri : String) (limit : Int) :
    Except String (List StreamEntry × Smap JVal × Smap DocumentStat × List BOp) :=
  match readDir fs uri 0 (fun _ => true) false self.data self.meta with
  | .error e => .error e
  | .ok (ents, dat, met, tr) =>
    match findStreamLoop ents [] ⟨[], [], []⟩ [] 0 0 limit with
    | .error e => .error e
    | .ok out => .ok (out, dat, met, tr)

/-! ### Projection lemmas for the `DB` updaters -/

@[simp] theorem DB.root_withData (self : DB) (d : Smap JVal) : (self.withData d).root = self.root := by
  cases self; rfl
@[simp] theorem DB.data_withData (self : DB) (d : Smap JVal) : (self.withData d).data = d := by
  cases self; rfl
@[simp] theorem DB.meta_withData (self : DB) (d : Smap JVal) : (self.withData d).meta = self.meta := by
  cases self; rfl
@[simp] theorem DB.dbs_withData (self : DB) (d : Smap JVal) : (self.withData d).dbs = self.dbs := by
  cases self; rfl
@[simp] theorem DB.root_withMeta (self : DB) (m : Smap DocumentStat) : (self.withMeta m).root = self.root := by
  cases self; rfl
@[simp] theorem DB.data_withMeta (self : DB) (m : Smap DocumentStat) : (self.withMeta m).data = self.data := by
  cases self; rfl
@[simp] theorem DB.meta_withMeta (self : DB) (m : Smap DocumentStat) : (self.withMeta m).meta = m := by
  cases self; rfl
@[simp] theorem DB.root_withConnected (self : DB) (b : Bool) : (self.withConnected b).root = self.root := by
  cases self; rfl
@[simp] theorem DB.data_withConnected (self : DB) (b : Bool) : (self.withConnected b).data = self.data := by
  cases self; rfl
@[simp] theorem DB.meta_withConnected (self : DB) (b : Bool) : (self.withConnected b).meta = self.meta := by
  cases self; rfl
@[simp] theorem DB.dbs_withDbs (self : DB) (l : List DB) : (self.withDbs l).dbs = l := by
  cases self; rfl
@[simp] theorem DB.withDbs_withDbs (self : DB) (l l2 : List DB) :
    (self.withDbs l).withDbs l2 = self.withDbs l2 := by
  cases self; rfl
@[simp] theorem DB.withDbs_dbs (self : DB) : self.withDbs self.dbs = self := by
  cases self; rfl
@[simp] theorem DB.root_withDbs (self : DB) (l : List DB) : (self.withDbs l).root = self.root := by
  cases self; rfl
@[simp] theorem DB.cwd_withDbs (self : DB) (l : List DB) : (self.withDbs l).cwd = self.cwd := by
  cases self; rfl

/-! ### String lemmas for `extract` -/

theorem lPrefix?_iff (pat s : List Char) :
    lPrefix? pat s = true ↔ ∃ rest, s = pat ++ rest := by
  induction pat generalizing s with
  | nil => simp [lPrefix?]
  | cons a as ih =>
    cases s with
    | nil =>
      simp [lPrefix?]
    | cons b bs =>
      simp only [lPrefix?, Bool.and_eq_true, decide_eq_true_eq, ih, List.cons_append,
        List.cons.injEq]
      constructor
      · rintro ⟨rfl, rest, rfl⟩
        exact ⟨rest, rfl, rfl⟩
      · rintro ⟨rest, rfl, rfl⟩
        exact ⟨rfl, rest, rfl⟩

theorem strMk_data (s : String) : String.mk s.data = s := rfl

theorem str_data_append (a b : String) : (a ++ b).data = a.data ++ b.data := rfl

theorem dropTrailSl_eq_self (cs : List Char) (h : cs.getLast? ≠ some '/') :
    dropTrailSl cs = cs := by
  unfold dropTrailSl
  cases hrev : cs.reverse with
  | nil =>
    have : cs = [] := by simpa using congrArg List.reverse hrev
    simp [this]
  | cons a rest =>
    have hlast : cs.getLast? = some a := by
      rw [← List.head?_reverse, hrev]
      rfl
    have ha : (a = '/') = False := by
      simp only [eq_iff_iff, iff_false]
      intro hcontra
      exact h (hcontra ▸ hlast)
    rw [List.dropWhile_cons]
    simp only [ha, decide_False, Bool.false_eq_true, if_false]
    rw [← hrev, List.reverse_reverse]

/-! ### Claim C1

`findStream` over a two-directory, four-file tree in which both
directories are fully enumerated before the generator ends.  `readDir`
never fills `DocumentEntry.parent`, so `getProgress` (flagged
`!!! INCORRECT PROGRESS CALCULATION !!!` in the source) never marks a
directory fulfilled, and the final entry reports progress 0, not 1. -/

/-- Two directories (`a`, `b`) and four files. -/
def c1fs : FS := .dir
  [("a", .dir [("x.txt", .file 1 0 none)]),
   ("b", .dir [("y.txt", .file 1 0 none)]),
   ("f1.txt", .file 1 0 none),
   ("f2.txt", .file 1 0 none)]

/-- C1: the full `findStream` run over `c1fs` yields 6 entries (2
directories, 4 files, both directories fully consumed); the final entry
has seen both directories (`dirs.size = 2`) yet its `progress` is 0 — the
claimed value 1 is never reached because no directory is ever marked
fulfilled. -/
theorem c1_findStream_final_progress_zero :
    (DB.findStream c1fs (.mk "." "." true [] [] []) "" (-1)).toOption.map
        (fun r => (r.1.length, (r.1.getLast?).map (fun e => (e.dirs.length, e.progress)))) =
      some (6, some (2, 0)) := by decide

/-! ### Claim C8

`readDir` constructs every `DocumentEntry` as
`new DocumentEntry({ name, stat, depth, path })` — the `parent` field is
never passed and keeps its default `""`, even for entries inside a
subdirectory. -/

def c8fs : FS := .dir [("a", .dir [("x.txt", .file 1 0 none)])]

/-- C8: the entry for `a/x.txt` (contained in directory `a`, so the claim
demands `parent = "a"`) is yielded with `parent = ""`, exactly like the
root-level entry. -/
theorem c8_readDir_parent_empty :
    (readDir c8fs "" 0 (fun _ => true) false [] []).toOption.map
        (fun r => r.1.map (fun e => (e.path, e.parent))) =
      some [("a", ""), ("a/x.txt", "")] := by decide

/-! ### Claim C5

`push(uri)` uses `uri` only for the `ensureAccess` pre-checks; the
save loop runs over the *whole* `data` map and saves every entry whose
cached `mtimeMs` beats the back-end stat, contradicting the source's own
`@param uri Optional specific URI to save`. -/

def c5st : DB := .mk "." "." false
  [("a", .str "va"), ("b", .str "vb")]
  [("a", { mtimeMs := 5 }), ("b", { mtimeMs := 5 })] []

/-- C5: `push("a")` on a store with two stale cached documents returns
`["a", "b"]` and saves `"b"` as well — the claim demands a changed-set of
at most `{"a"}` and no save of `"b"`. -/
theorem c5_push_saves_unrelated_document :
    c5st.push (some "a") (fun _ => { mtimeMs := 0 }) =
      (["a", "b"], [.statDoc "a", .saveDoc "a", .statDoc "b", .saveDoc "b"]) := by decide

/-! ### Claim C2 : `extract` -/

/-- The claim's key-set transformation, stated from the spec's words:
`{ k.slice(p.len + 1) : v | k ∈ m, k startsWith p ++ "/" }`. -/
def specStripKeys {α : Type} (m : Smap α) (p : String) : Smap α :=
  (m.filter (fun kv => jsStartsWith kv.1 (p ++ "/"))).map
    (fun kv => (String.mk (kv.1.data.drop (p.data.length + 1)), kv.2))

/-- The claim's new root `oldRoot/p`, read as the path join (joining to
the neutral root `"."` gives `p` itself). -/
def specJoinRoot (r p : String) : String := if r = "." then p else r ++ "/" ++ p

def c2st : DB := .mk "." "." false [("a/b", .num 1)] [("a/b", {})] []

/-- C2 counterexample: for the prefix `"a/"` (which ends in a slash) the
claim demands the key set `{ k | k startsWith "a//" }` stripped of its
first 3 characters — the empty map here — but `extract` first strips the
trailing slash and keeps `a/b ↦ 1` as `b ↦ 1`. -/
theorem c2_counterexample :
    ((c2st.extract "a/").1).data = [("b", JVal.num 1)] ∧
    specStripKeys c2st.data "a/" = ([] : Smap JVal) ∧
    ((c2st.extract "a/").1).data ≠ specStripKeys c2st.data "a/" := by decide

theorem specStrip_eq_extractMap {α : Type} (m : Smap α) (p : String)
    (hp : p.data.getLast? ≠ some '/') :
    (m.filter (fun kv => jsStartsWith kv.1 (jsStripTrailSl p ++ "/"))).map
        (fun kv => (jsReplaceFirst kv.1 (jsStripTrailSl p ++ "/") "", kv.2)) =
      specStripKeys m p := by
  have hstrip : jsStripTrailSl p = p := by
    unfold jsStripTrailSl
    rw [dropTrailSl_eq_self p.data hp, strMk_data]
  rw [hstrip]
  unfold specStripKeys
  apply List.map_congr_left
  intro kv hkv
  have hpred := (List.mem_filter.1 hkv).2
  have hstarts : lPrefix? (p ++ "/").data kv.1.data = true := hpred
  obtain ⟨rest, hrest⟩ := (lPrefix?_iff _ _).1 hstarts
  have hne : (p ++ "/").data ≠ [] := by
    rw [str_data_append]
    simp [String.data]
  have hkey : kv.1 = String.mk ((p ++ "/").data ++ rest) := by
    rw [← hrest, strMk_data]
  have hlen : (p ++ "/").data.length = p.data.length + 1 := by
    rw [str_data_append]
    simp [String.data]
  rw [hkey, jsReplaceFirst_starts _ _ hne]
  have : ((p ++ "/").data ++ rest).drop (p.data.length + 1) = rest := by
    rw [← hlen, List.drop_left]
  rw [show (String.mk ((p ++ "/").data ++ rest)).data = (p ++ "/").data ++ rest from rfl, this]

/-- C2 amended: for a prefix `p` that does not end in `"/"` and a normal
root (no slash runs appear when `"/"` is appended — in particular the
default `"."`), `extract p` returns a fresh disconnected store whose
`data` and `meta` are exactly the spec's stripped key sets, whose root is
the path join `oldRoot/p`, and the source store is left untouched. -/
theorem c2_extract_amended (self : DB) (p : String)
    (hp : p.data.getLast? ≠ some '/')
    (hr : collapseSl (self.root ++ "/").data = (self.root ++ "/").data) :
    (self.extract p).1.data = specStripKeys self.data p ∧
    (self.extract p).1.meta = specStripKeys self.meta p ∧
    (self.extract p).1.root = specJoinRoot self.root p ∧
    (self.extract p).1.cwd = "." ∧
    (self.extract p).1.connected = false ∧
    (self.extract p).1.dbs = [] ∧
    (self.extract p).2 = self := by
  unfold DB.extract
  refine ⟨?_, ?_, ?_, rfl, rfl, rfl, rfl⟩
  · exact specStrip_eq_extractMap self.data p hp
  · exact specStrip_eq_extractMap self.meta p hp
  · show (if self.root = "." then "" else String.mk (collapseSl (self.root ++ "/").data)) ++ p =
      specJoinRoot self.root p
    unfold specJoinRoot
    by_cases hdot : self.root = "."
    · simp [hdot]
    · simp only [hdot, if_false]
      rw [hr, strMk_data]

/-- C2 witness: extracting `"sub"` from a store rooted at `"."` holding
`sub/x ↦ 1` and `other ↦ 2`. -/
theorem c2_extract_amended_witness :
    (let st : DB := .mk "." "." false [("sub/x", .num 1), ("other", .num 2)]
      [("sub/x", {})] []
     (st.extract "sub").1.data = specStripKeys st.data "sub" ∧
     (st.extract "sub").1.root = specJoinRoot "." "sub") := by
  refine ⟨(c2_extract_amended _ "sub" (by decide) (by decide)).1, ?_⟩
  exact (c2_extract_amended _ "sub" (by decide) (by decide)).2.2.1

/-! ### Claim C9 : `attach` / `detach` -/

def c9d1 : DB := .mk "." "." false [("x", .num 1)] [] []
def c9d2 : DB := .mk "." "." false [] [] []
def c9base : DB := .mk "base" "." false [] [] [c9d1]

/-- C9 counterexample: `c9base` already holds an attached store `c9d1`
with the same `(root, cwd)` pair (`(".", ".")`) as the new instance
`c9d2`.  After `attach(c9d2)`, `detach(c9d2)` matches and removes `c9d1`
(the *first* `(root, cwd)` match), so the `dbs` list ends as `[c9d2]`,
not the pre-attach `[c9d1]` — attach-then-detach does not restore it. -/
theorem c9_counterexample :
    ((c9base.attach c9d2).detach c9d2).2.dbs.map DB.data = [[]] ∧
    c9base.dbs.map DB.data = [[("x", JVal.num 1)]] ∧
    ((c9base.attach c9d2).detach c9d2).2.dbs.map DB.data ≠ c9base.dbs.map DB.data := by
  decide

theorem jsFindIndex_append_all_false (l : List DB) (p : DB → Bool)
    (h : ∀ d ∈ l, p d = false) (db : DB) (hdb : p db = true) :
    jsFindIndex p (l ++ [db]) = some l.length := by
  induction l with
  | nil => simp [jsFindIndex, hdb]
  | cons d rest ih =>
    have hd : p d = false := h d (by simp)
    have ih2 := ih (fun x hx => h x (by simp [hx]))
    simp [jsFindIndex, hd, ih2]

theorem spliceOne_append_end (l : List DB) (db : DB) :
    spliceOne (l ++ [db]) l.length = ([db], l) := by
  induction l with
  | nil => rfl
  | cons d rest ih => simp [spliceOne, ih]

/-- C9 amended: the parts of the claim that hold as stated — a no-match
`detach` returns `false` and changes nothing, a successful `detach`
removes the first `(root, cwd)` match and returns it as a one-element
list — plus the restore property *amended* with the hypothesis the
counterexample forces: no store already in `dbs` may share the argument's
`(root, cwd)` pair. -/
theorem c9_attach_detach_amended (self db : DB)
    (hfresh : ∀ d ∈ self.dbs, ¬ (d.root = db.root ∧ d.cwd = db.cwd)) :
    (self.attach db).detach db = (some [db], self) ∧
    (∀ t : DB, jsFindIndex (fun d => d.root == db.root && d.cwd == db.cwd) t.dbs = none →
      t.detach db = (none, t)) ∧
    (∀ (t : DB) (i : Nat),
      jsFindIndex (fun d => d.root == db.root && d.cwd == db.cwd) t.dbs = some i →
      t.detach db = (some (spliceOne t.dbs i).1, t.withDbs (spliceOne t.dbs i).2)) := by
  refine ⟨?_, ?_, ?_⟩
  · have hfalse : ∀ d ∈ self.dbs, (fun d => d.root == db.root && d.cwd == db.cwd) d = false := by
      intro d hd
      have := hfresh d hd
      simp only [Bool.and_eq_false_iff, beq_eq_false_iff_ne, ne_eq]
      by_cases h1 : d.root = db.root
      · exact Or.inr (fun h2 => this ⟨h1, h2⟩)
      · exact Or.inl h1
    have htrue : (fun d => d.root == db.root && d.cwd == db.cwd) db = true := by simp
    unfold DB.detach DB.attach
    rw [DB.dbs_withDbs, jsFindIndex_append_all_false self.dbs _ hfalse db htrue]
    simp [spliceOne_append_end]
  · intro t hnone
    unfold DB.detach
    rw [hnone]
  · intro t i hsome
    unfold DB.detach
    rw [hsome]

/-- C9 witness: attaching then detaching a store with a fresh
`(root, cwd)` pair restores the sibling list. -/
theorem c9_attach_detach_amended_witness :
    (∀ d ∈ c9base.dbs, ¬ (d.root = (DB.mk "other" "." false [] [] []).root ∧
      d.cwd = (DB.mk "other" "." false [] [] []).cwd)) ∧
    (c9base.attach (.mk "other" "." false [] [] [])).detach (.mk "other" "." false [] [] []) =
      (some [.mk "other" "." false [] [] []], c9base) := by
  refine ⟨by decide, (c9_attach_detach_amended c9base _ (by decide)).1⟩

/-! ### Claim C10 : the `false` sentinel in `get`/`set` -/

/-- C10: `set(u, v)` for `v ≠ false` makes `get(u)` answer `v` from the
cache with no back-end load and no state change; `set(u, false)` stores
the value that doubles as the "known but unloaded" sentinel, so `get(u)`
invokes `loadDocument` and returns the freshly loaded value instead of
the stored `false`. -/
theorem c10_get_set_sentinel (self : DB) (u : String) (v : JVal) (now : Int)
    (loadFn : String → JVal) (hv : v ≠ .bool false) :
    (DB.get ((DB.set self u v now).2) u loadFn = (v, (DB.set self u v now).2, [])) ∧
    ((DB.get ((DB.set self u (.bool false) now).2) u loadFn).1 = loadFn u ∧
     (DB.get ((DB.set self u (.bool false) now).2) u loadFn).2.2 = [.loadDoc u]) := by
  constructor
  · have hdata : ((DB.set self u v now).2).data = mset self.data u v := by
      unfold DB.set; simp
    have hvv : (mget (mset self.data u v) u = some (JVal.bool false)) = False := by
      simp only [mget_mset_self, eq_iff_iff, iff_false]
      intro hc
      exact hv (by injection hc)
    unfold DB.get
    rw [hdata]
    simp [mhas, mget_mset_self, hvv, hv]
  · have hdata : ((DB.set self u (.bool false) now).2).data =
        mset self.data u (.bool false) := by
      unfold DB.set; simp
    unfold DB.get
    rw [hdata]
    simp [mhas, mget_mset_self]

/-! ### Claim C6 : `readDir` ordering -/

@[simp] theorem DocumentEntry.make_depth (name : String) (stat : DocumentStat) (depth : Nat)
    (path : String) : (DocumentEntry.make name stat depth path).depth = depth := rfl

@[simp] theorem DocumentEntry.make_stat (name : String) (stat : DocumentStat) (depth : Nat)
    (path : String) : (DocumentEntry.make name stat depth path).stat = stat := rfl

/-- Every entry yielded by phase 1 carries the call's depth, and lands in
the first component iff its stat marks a directory. -/
theorem classifyChildren_spec (cs : List (String × FS)) (uri : String) (depth : Nat)
    (flt : String → Bool) (dat : Smap JVal) (met : Smap DocumentStat) :
    (∀ e ∈ (classifyChildren cs uri depth flt dat met).1,
      e.depth = depth ∧ e.stat.isDirectory = true) ∧
    (∀ e ∈ (classifyChildren cs uri depth flt dat met).2.1,
      e.depth = depth ∧ e.stat.isDirectory = false) := by
  induction cs generalizing dat met with
  | nil => simp [classifyChildren]
  | cons p rest ih =>
    obtain ⟨name, child⟩ := p
    by_cases hf : flt (jsResolve [uri, name])
    · obtain ⟨ih1, ih2⟩ := ih (mset dat (jsResolve [uri, name]) (.bool false))
        (mset met (jsResolve [uri, name]) child.stat)
      by_cases hd : child.stat.isDirectory
      · constructor
        · intro e he
          simp only [classifyChildren, hf, not_true_eq_false, if_false, hd, if_true] at he
          rcases List.mem_cons.1 he with rfl | he2
          · exact ⟨rfl, hd⟩
          · exact ih1 e he2
        · intro e he
          simp only [classifyChildren, hf, not_true_eq_false, if_false, hd, if_true] at he
          exact ih2 e he
      · constructor
        · intro e he
          simp only [classifyChildren, hf, not_true_eq_false, if_false, hd,
            Bool.false_eq_true, if_false] at he
          exact ih1 e he
        · intro e he
          simp only [classifyChildren, hf, not_true_eq_false, if_false, hd,
            Bool.false_eq_true, if_false] at he
          rcases List.mem_cons.1 he with rfl | he2
          · exact ⟨rfl, by simpa using hd⟩
          · exact ih2 e he2
    · have heq : classifyChildren ((name, child) :: rest) uri depth flt dat met =
          classifyChildren rest uri depth flt dat met := by
        simp [classifyChildren, hf]
      rw [heq]
      exact ih dat met

/-- Depth lower bounds: `readDir` started at `depth` yields only entries of
depth `≥ depth`, and the recursion of phase 3 yields only entries of depth
`> depth` (strong induction on the tree size, mirroring the mutual
recursion). -/
theorem readDir_not_filtered (fs : FS) (uri : String) (depth : Nat) (flt : String → Bool)
    (skipSym : Bool) (dat : Smap JVal) (met : Smap DocumentStat) (hflt : flt uri = false) :
    readDir fs uri depth flt skipSym dat met = .ok ([], dat, met, []) := by
  cases fs <;> (rw [readDir]; simp [hflt])

theorem readSubdirs_cons_eq (name : String) (child : FS) (rest : List (String × FS))
    (uri : String) (depth : Nat) (flt : String → Bool) (skipSym : Bool)
    (dat : Smap JVal) (met : Smap DocumentStat) :
    readSubdirs ((name, child) :: rest) uri depth flt skipSym dat met =
      if skipSym ∧ child.stat.isSymbolicLink then
        readSubdirs rest uri depth flt skipSym dat met
      else if child.stat.isDirectory then
        match readDir child (jsResolve [uri, name]) (depth + 1) flt skipSym dat met with
        | .error e => .error e
        | .ok (o1, dat1, met1, t1) =>
          match readSubdirs rest uri depth flt skipSym dat1 met1 with
          | .error e => .error e
          | .ok (o2, dat2, met2, t2) => .ok (o1 ++ o2, dat2, met2, t1 ++ t2)
      else readSubdirs rest uri depth flt skipSym dat met := by
  rw [readSubdirs]

theorem readDir_dir_eq (cs : List (String × FS)) (uri : String) (depth : Nat)
    (flt : String → Bool) (skipSym : Bool) (dat : Smap JVal) (met : Smap DocumentStat)
    (hflt : flt uri = true) :
    readDir (.dir cs) uri depth flt skipSym dat met =
      match readSubdirs cs uri depth flt skipSym
          (classifyChildren cs uri depth flt dat met).2.2.1
          (classifyChildren cs uri depth flt dat met).2.2.2 with
      | .error e => .error e
      | .ok (recOut, dat2, met2, tr2) =>
        .ok ((classifyChildren cs uri depth flt dat met).1 ++
            (classifyChildren cs uri depth flt dat met).2.1 ++ recOut,
          dat2, met2, [.statDoc uri, .listDir uri] ++ tr2) := by
  rw [readDir]
  rcases hcl : classifyChildren cs uri depth flt dat met with ⟨ds, ls, dat1, met1⟩
  simp [hflt, hcl]

/-- Depth lower bounds: `readDir` started at `depth` yields only entries of
depth `≥ depth` (strong induction on the tree size, mirroring the mutual
recursion; the helper bound for phase 3 is strict). -/
theorem readDir_depth_lb_aux :
    ∀ (n : Nat) (fs : FS), sizeOf fs ≤ n →
      ∀ uri depth flt skipSym dat met out rest,
        readDir fs uri depth flt skipSym dat met = .ok (out, rest) →
        ∀ e ∈ out, depth ≤ e.depth := by
  intro n
  induction n with
  | zero => intro fs h; cases fs <;> simp_arith at h
  | succ n ih =>
    intro fs hsz uri depth flt skipSym dat met out rest hok e he
    have hsub : ∀ (cs : List (String × FS)), sizeOf cs ≤ n →
        ∀ uri2 depth2 flt2 skipSym2 dat2 met2 out2 rest2,
          readSubdirs cs uri2 depth2 flt2 skipSym2 dat2 met2 = .ok (out2, rest2) →
          ∀ e2 ∈ out2, depth2 < e2.depth := by
      intro cs
      induction cs with
      | nil =>
        intro _ uri2 depth2 flt2 skipSym2 dat2 met2 out2 rest2 hok2 e2 he2
        simp only [readSubdirs, Except.ok.injEq, Prod.mk.injEq] at hok2
        rw [← hok2.1] at he2
        simp at he2
      | cons p rest2 ihcs =>
        intro hcssz uri2 depth2 flt2 skipSym2 dat2 met2 out2 rr hok2 e2 he2
        obtain ⟨name, child⟩ := p
        have hszrest : sizeOf rest2 ≤ n := by simp_arith at hcssz; omega
        have hszchild : sizeOf child ≤ n := by simp_arith at hcssz; omega
        rw [readSubdirs_cons_eq] at hok2
        by_cases hsym : skipSym2 ∧ child.stat.isSymbolicLink
        · rw [if_pos hsym] at hok2
          exact ihcs hszrest _ _ _ _ _ _ _ _ hok2 e2 he2
        · rw [if_neg hsym] at hok2
          by_cases hdir : child.stat.isDirectory
          · simp only [hdir, if_true] at hok2
            rcases hrd : readDir child (jsResolve [uri2, name]) (depth2 + 1) flt2 skipSym2
                dat2 met2 with err | ⟨o1, dat3, met3, t1⟩
            · simp only [hrd] at hok2
              exact absurd hok2 (by simp)
            · simp only [hrd] at hok2
              rcases hrs : readSubdirs rest2 uri2 depth2 flt2 skipSym2 dat3 met3 with
                err2 | ⟨o2, dat4, met4, t2⟩
              · simp only [hrs] at hok2
                exact absurd hok2 (by simp)
              · simp only [hrs, Except.ok.injEq, Prod.mk.injEq] at hok2
                rw [show out2 = o1 ++ o2 from hok2.1.symm] at he2
                rcases List.mem_append.1 he2 with h1 | h2
                · have := ih child hszchild _ _ _ _ _ _ _ _ hrd e2 h1
                  omega
                · exact ihcs hszrest _ _ _ _ _ _ _ _ hrs e2 h2
          · simp only [hdir] at hok2
            simp only [Bool.false_eq_true, if_false] at hok2
            exact ihcs hszrest _ _ _ _ _ _ _ _ hok2 e2 he2
    by_cases hflt : flt uri
    · cases fs with
      | file sz mt err =>
        rw [show readDir (.file sz mt err) uri depth flt skipSym dat met =
            .error "Not implemented" by rw [readDir]; simp [hflt]] at hok
        exact absurd hok (by simp)
      | dir children =>
        have hcs : sizeOf children ≤ n := by simp_arith at hsz; omega
        rw [readDir_dir_eq children uri depth flt skipSym dat met hflt] at hok
        rcases hrs : readSubdirs children uri depth flt skipSym
            (classifyChildren children uri depth flt dat met).2.2.1
            (classifyChildren children uri depth flt dat met).2.2.2 with
          err | ⟨recOut, dat2, met2, tr2⟩
        · simp only [hrs] at hok
          exact absurd hok (by simp)
        · simp only [hrs, Except.ok.injEq, Prod.mk.injEq] at hok
          rw [show out = (classifyChildren children uri depth flt dat met).1 ++
              (classifyChildren children uri depth flt dat met).2.1 ++ recOut
            from hok.1.symm] at he
          obtain ⟨hcl1, hcl2⟩ := classifyChildren_spec children uri depth flt dat met
          rcases List.mem_append.1 he with h12 | h3
          · rcases List.mem_append.1 h12 with h1 | h2
            · exact (hcl1 e h1).1 ▸ Nat.le_refl _
            · exact (hcl2 e h2).1 ▸ Nat.le_refl _
          · have := hsub children hcs _ _ _ _ _ _ _ _ hrs e h3
            omega
    · rw [readDir_not_filtered fs uri depth flt skipSym dat met (by simpa using hflt)] at hok
      simp only [Except.ok.injEq, Prod.mk.injEq] at hok
      rw [← hok.1] at he
      simp at he

theorem readDir_depth_lb (fs : FS) (uri : String) (depth : Nat) (flt : String → Bool)
    (skipSym : Bool) (dat : Smap JVal) (met : Smap DocumentStat)
    (out : List DocumentEntry) (rest : Smap JVal × Smap DocumentStat × List BOp)
    (hok : readDir fs uri depth flt skipSym dat met = .ok (out, rest)) :
    ∀ e ∈ out, depth ≤ e.depth :=
  readDir_depth_lb_aux (sizeOf fs) fs (Nat.le_refl _) uri depth flt skipSym dat met out rest hok

theorem readSubdirs_depth_lb :
    ∀ (cs : List (String × FS)) (uri : String) (depth : Nat) (flt : String → Bool)
      (skipSym : Bool) (dat : Smap JVal) (met : Smap DocumentStat)
      (out : List DocumentEntry) (rest : Smap JVal × Smap DocumentStat × List BOp),
      readSubdirs cs uri depth flt skipSym dat met = .ok (out, rest) →
      ∀ e ∈ out, depth < e.depth := by
  intro cs
  induction cs with
  | nil =>
    intro uri depth flt skipSym dat met out rest hok e he
    simp only [readSubdirs, Except.ok.injEq, Prod.mk.injEq] at hok
    rw [← hok.1] at he
    simp at he
  | cons p rest2 ihcs =>
    intro uri depth flt skipSym dat met out rr hok e he
    obtain ⟨name, child⟩ := p
    rw [readSubdirs_cons_eq] at hok
    by_cases hsym : skipSym ∧ child.stat.isSymbolicLink
    · rw [if_pos hsym] at hok
      exact ihcs _ _ _ _ _ _ _ _ hok e he
    · rw [if_neg hsym] at hok
      by_cases hdir : child.stat.isDirectory
      · simp only [hdir, if_true] at hok
        rcases hrd : readDir child (jsResolve [uri, name]) (depth + 1) flt skipSym dat met with
          err | ⟨o1, dat3, met3, t1⟩
        · simp only [hrd] at hok
          exact absurd hok (by simp)
        · simp only [hrd] at hok
          rcases hrs : readSubdirs rest2 uri depth flt skipSym dat3 met3 with
            err2 | ⟨o2, dat4, met4, t2⟩
          · simp only [hrs] at hok
            exact absurd hok (by simp)
          · simp only [hrs, Except.ok.injEq, Prod.mk.injEq] at hok
            rw [show out = o1 ++ o2 from hok.1.symm] at he
            rcases List.mem_append.1 he with h1 | h2
            · have := readDir_depth_lb child _ _ _ _ _ _ _ _ hrd e h1
              omega
            · exact ihcs _ _ _ _ _ _ _ _ hrs e h2
      · simp only [hdir] at hok
        simp only [Bool.false_eq_true, if_false] at hok
        exact ihcs _ _ _ _ _ _ _ _ hok e he

/-- The split of one `readDir` call on a directory node: its own directory
children first, then its file children (all at the call depth), then
everything from the recursion (all strictly deeper). -/
theorem readDir_split (cs : List (String × FS)) (uri : String) (depth : Nat)
    (flt : String → Bool) (skipSym : Bool) (dat : Smap JVal) (met : Smap DocumentStat)
    (out : List DocumentEntry) (rest : Smap JVal × Smap DocumentStat × List BOp)
    (hok : readDir (.dir cs) uri depth flt skipSym dat met = .ok (out, rest)) :
    ∃ A B C, out = A ++ B ++ C ∧
      (∀ e ∈ A, e.depth = depth ∧ e.stat.isDirectory = true) ∧
      (∀ e ∈ B, e.depth = depth ∧ e.stat.isDirectory = false) ∧
      (∀ e ∈ C, depth < e.depth) := by
  by_cases hflt : flt uri
  · rw [readDir_dir_eq cs uri depth flt skipSym dat met hflt] at hok
    rcases hrs : readSubdirs cs uri depth flt skipSym
        (classifyChildren cs uri depth flt dat met).2.2.1
        (classifyChildren cs uri depth flt dat met).2.2.2 with err | ⟨recOut, dat2, met2, tr2⟩
    · simp only [hrs] at hok
      exact absurd hok (by simp)
    · simp only [hrs, Except.ok.injEq, Prod.mk.injEq] at hok
      obtain ⟨hcl1, hcl2⟩ := classifyChildren_spec cs uri depth flt dat met
      refine ⟨(classifyChildren cs uri depth flt dat met).1,
        (classifyChildren cs uri depth flt dat met).2.1, recOut, hok.1.symm, hcl1, hcl2, ?_⟩
      intro e he
      exact readSubdirs_depth_lb cs uri depth flt skipSym _ _ _ _ hrs e he
  · rw [readDir_not_filtered (.dir cs) uri depth flt skipSym dat met (by simpa using hflt)] at hok
    simp only [Except.ok.injEq, Prod.mk.injEq] at hok
    refine ⟨[], [], [], by simp [← hok.1], by simp, by simp, by simp⟩

/-- The tree `{a/ {x.txt, y.txt}, b.txt}` of the claim. -/
def c6fs : FS := .dir
  [("a", .dir [("x.txt", .file 1 0 none), ("y.txt", .file 1 0 none)]),
   ("b.txt", .file 1 0 none)]

/-- C6: within one directory level `readDir` yields every child directory
before any child file, and recursion output (strictly deeper entries) only
after all immediate children; on `{a/ {x.txt, y.txt}, b.txt}` it yields
directory `a` then file `b.txt` at depth 0, then `a`'s children `x.txt`,
`y.txt` at depth 1. -/
theorem c6_readDir_order :
    ((readDir c6fs "" 0 (fun _ => true) false [] []).toOption.map
        (fun r => r.1.map (fun e => (e.path, e.depth, e.stat.isDirectory))) =
      some [("a", 0, true), ("b.txt", 0, false), ("a/x.txt", 1, false), ("a/y.txt", 1, false)]) ∧
    (∀ (cs : List (String × FS)) (uri : String) (depth : Nat) (flt : String → Bool)
        (skipSym : Bool) (dat : Smap JVal) (met : Smap DocumentStat)
        (out : List DocumentEntry) (rest : Smap JVal × Smap DocumentStat × List BOp),
      readDir (.dir cs) uri depth flt skipSym dat met = .ok (out, rest) →
      ∃ A B C, out = A ++ B ++ C ∧
        (∀ e ∈ A, e.depth = depth ∧ e.stat.isDirectory = true) ∧
        (∀ e ∈ B, e.depth = depth ∧ e.stat.isDirectory = false) ∧
        (∀ e ∈ C, depth < e.depth)) :=
  ⟨by decide, readDir_split⟩

/-- C6 witness: the split at the concrete tree. -/
theorem c6_readDir_order_witness :
    ∃ A B C,
      (readDir c6fs "" 0 (fun _ => true) false [] []).toOption.map (fun r => r.1) =
        some (A ++ B ++ C) ∧
      (∀ e ∈ A, e.depth = 0 ∧ e.stat.isDirectory = true) ∧
      (∀ e ∈ B, e.depth = 0 ∧ e.stat.isDirectory = false) ∧
      (∀ e ∈ C, 0 < e.depth) := by
  rcases hok : readDir c6fs "" 0 (fun _ => true) false [] [] with err | ⟨out, rest⟩
  · have h1 := c6_readDir_order.1
    rw [hok] at h1
    simp [Except.toOption] at h1
  · obtain ⟨A, B, C, hsplit, hA, hB, hC⟩ :=
      c6_readDir_order.2 _ "" 0 (fun _ => true) false [] [] out rest hok
    refine ⟨A, B, C, ?_, hA, hB, hC⟩
    simp [Except.toOption, hsplit]

/-! ### Claim C4 : `find` loads the tree exactly once -/

/-- The `listDir` invocations recorded in a back-end trace. -/
def listDirCalls : List BOp → List String
  | [] => []
  | .listDir u :: rest => u :: listDirCalls rest
  | _ :: rest => listDirCalls rest

@[simp] theorem listDirCalls_nil : listDirCalls [] = [] := rfl

@[simp] theorem listDirCalls_append (a b : List BOp) :
    listDirCalls (a ++ b) = listDirCalls a ++ listDirCalls b := by
  induction a with
  | nil => rfl
  | cons x rest ih => cases x <;> simp [listDirCalls, ih]

mutual

/-- All directory URIs of the tree rooted at `uri`, in traversal order
(each directory appears exactly once for well-formed trees). -/
def dirsOf : FS → String → List String
  | .file _ _ _, _ => []
  | .dir cs, uri => uri :: dirsChildren cs uri

def dirsChildren : List (String × FS) → String → List String
  | [], _ => []
  | (n, c) :: rest, uri => dirsOf c (jsResolve [uri, n]) ++ dirsChildren rest uri

end

def distinctStr : List String → Bool
  | [] => true
  | s :: rest => (!rest.contains s) && distinctStr rest

mutual

/-- Well-formed back-end tree: sibling names are distinct, nonempty and
slash-free (the shape every real directory listing has). -/
def FS.wf : FS → Bool
  | .file _ _ _ => true
  | .dir cs =>
    distinctStr (cs.map (fun p => p.1)) &&
      (cs.map (fun p => p.1)).all (fun s => (s != "") && !(s.data.contains '/')) &&
      wfKids cs

def wfKids : List (String × FS) → Bool
  | [] => true
  | (_, c) :: rest => FS.wf c && wfKids rest

end

/-- Totality and trace of a full default-option `readDir` on a directory:
it succeeds, and its `listDir` calls are exactly the tree's directories in
traversal order. -/
theorem readDir_trace_aux :
    ∀ (n : Nat) (fs : FS), sizeOf fs ≤ n →
      ∀ (cs : List (String × FS)), fs = .dir cs →
        ∀ uri depth dat met,
          ∃ out dat2 met2 tr,
            readDir fs uri depth (fun _ => true) false dat met = .ok (out, dat2, met2, tr) ∧
            listDirCalls tr = dirsOf fs uri := by
  intro n
  induction n with
  | zero => intro fs h; cases fs <;> simp_arith at h
  | succ n ih =>
    intro fs hsz cs hfs uri depth dat met
    subst hfs
    have hsub : ∀ (kids : List (String × FS)), sizeOf kids ≤ n →
        ∀ uri2 depth2 dat2 met2,
          ∃ out dat3 met3 tr,
            readSubdirs kids uri2 depth2 (fun _ => true) false dat2 met2 =
              .ok (out, dat3, met3, tr) ∧
            listDirCalls tr = dirsChildren kids uri2 := by
      intro kids
      induction kids with
      | nil =>
        intro _ uri2 depth2 dat2 met2
        exact ⟨[], dat2, met2, [], rfl, rfl⟩
      | cons p rest ihk =>
        intro hksz uri2 depth2 dat2 met2
        obtain ⟨name, child⟩ := p
        have hszrest : sizeOf rest ≤ n := by simp_arith at hksz; omega
        have hszchild : sizeOf child ≤ n := by simp_arith at hksz; omega
        cases child with
        | file sz mt err =>
          obtain ⟨out, dat3, met3, tr, hok, htr⟩ := ihk hszrest uri2 depth2 dat2 met2
          refine ⟨out, dat3, met3, tr, ?_, ?_⟩
          · rw [readSubdirs_cons_eq]
            simp only [FS.stat]
            simpa using hok
          · rw [htr]
            simp [dirsChildren, dirsOf]
        | dir gk =>
          obtain ⟨o1, dat3, met3, t1, hok1, htr1⟩ :=
            ih (FS.dir gk) hszchild gk rfl (jsResolve [uri2, name]) (depth2 + 1) dat2 met2
          obtain ⟨o2, dat4, met4, t2, hok2, htr2⟩ := ihk hszrest uri2 depth2 dat3 met3
          refine ⟨o1 ++ o2, dat4, met4, t1 ++ t2, ?_, ?_⟩
          · rw [readSubdirs_cons_eq]
            simp only [FS.stat]
            simp [hok1, hok2]
          · simp [htr1, htr2, dirsChildren]
    have hcs : sizeOf cs ≤ n := by simp_arith at hsz; omega
    rcases hcl : classifyChildren cs uri depth (fun _ => true) dat met with ⟨ds, ls, dat1, met1⟩
    obtain ⟨recOut, dat2, met2, tr2, hokr, htrr⟩ := hsub cs hcs uri depth dat1 met1
    refine ⟨ds ++ ls ++ recOut, dat2, met2, [.statDoc uri, .listDir uri] ++ tr2, ?_, ?_⟩
    · rw [readDir_dir_eq cs uri depth (fun _ => true) false dat met rfl]
      rw [hcl]
      simp only [hokr]
    · simp [listDirCalls, htrr, dirsOf]

/-- `e` is the path `p` itself or lies strictly under it. -/
def underPath (p e : String) : Prop :=
  e = p ∨ ∃ r, e.data = p.data ++ '/' :: r

theorem jsResolve_two (uri n : String) (hu : uri ≠ "") (hn : n ≠ "") :
    jsResolve [uri, n] = uri ++ "/" ++ n := by
  unfold jsResolve
  simp [hu, hn, joinSl]

theorem data_resolve_two (uri n : String) (hu : uri ≠ "") (hn : n ≠ "") :
    (jsResolve [uri, n]).data = uri.data ++ '/' :: n.data := by
  rw [jsResolve_two uri n hu hn, str_data_append, str_data_append]
  simp [String.data]

theorem resolve_two_ne_empty (uri n : String) (hu : uri ≠ "") (hn : n ≠ "") :
    jsResolve [uri, n] ≠ "" := by
  intro h
  have := congrArg String.data h
  rw [data_resolve_two uri n hu hn] at this
  cases huri : uri.data with
  | nil =>
    exact hu (by cases uri with | _ d => cases huri; rfl)
  | cons c cs => rw [huri] at this; simp at this

theorem underPath_resolve (uri n e : String) (hu : uri ≠ "") (hn : n ≠ "")
    (h : underPath (jsResolve [uri, n]) e) : ∃ r, e.data = uri.data ++ '/' :: r := by
  rcases h with rfl | ⟨r, hr⟩
  · exact ⟨n.data, data_resolve_two uri n hu hn⟩
  · refine ⟨n.data ++ '/' :: r, ?_⟩
    rw [hr, data_resolve_two uri n hu hn]
    simp

theorem contains_false_not_mem {l : List Char} {c : Char} (h : l.contains c = false) :
    ∀ x ∈ l, x ≠ c := by
  intro x hx hcontra
  subst hcontra
  rw [List.contains_eq_any_beq] at h
  simp [List.any_eq_true] at h
  exact h x hx rfl

theorem strContains_false_not_mem {l : List String} {s : String} (h : l.contains s = false) :
    s ∉ l := by
  intro hmem
  rw [List.contains_eq_any_beq] at h
  simp [List.any_eq_true] at h
  exact h s hmem rfl

/-- Membership in the child portion of `dirsOf`. -/
theorem mem_dirsChildren :
    ∀ (kids : List (String × FS)) (uri e : String), e ∈ dirsChildren kids uri →
      ∃ p ∈ kids, e ∈ dirsOf p.2 (jsResolve [uri, p.1]) := by
  intro kids
  induction kids with
  | nil => intro uri e he; simp [dirsChildren] at he
  | cons p rest ih =>
    intro uri e he
    obtain ⟨n, c⟩ := p
    rw [show dirsChildren ((n, c) :: rest) uri =
        dirsOf c (jsResolve [uri, n]) ++ dirsChildren rest uri from rfl] at he
    rcases List.mem_append.1 he with h1 | h2
    · exact ⟨(n, c), by simp, h1⟩
    · obtain ⟨q, hq, hq2⟩ := ih uri e h2
      exact ⟨q, by simp [hq], hq2⟩

/-- Unpack `FS.wf` on a directory node. -/
theorem wf_dir_unpack (cs : List (String × FS)) (h : FS.wf (.dir cs) = true) :
    distinctStr (cs.map (fun p => p.1)) = true ∧
    (∀ p ∈ cs, p.1 ≠ "" ∧ p.1.data.contains '/' = false) ∧
    (∀ p ∈ cs, FS.wf p.2 = true) := by
  rw [FS.wf] at h
  simp only [Bool.and_eq_true] at h
  obtain ⟨⟨hdist, hnames⟩, hkids⟩ := h
  refine ⟨hdist, ?_, ?_⟩
  · intro p hp
    have := (List.all_eq_true.1 hnames) p.1 (List.mem_map_of_mem _ hp)
    simp only [Bool.and_eq_true, bne_iff_ne, ne_eq, Bool.not_eq_true'] at this
    exact this
  · intro p hp
    clear hdist hnames
    induction cs with
    | nil => simp at hp
    | cons q rest ih =>
      obtain ⟨nm, ch⟩ := q
      rw [show wfKids ((nm, ch) :: rest) = (FS.wf ch && wfKids rest) from rfl] at hkids
      simp only [Bool.and_eq_true] at hkids
      rcases List.mem_cons.1 hp with rfl | hp2
      · exact hkids.1
      · exact ih hkids.2 hp2

/-- Every directory URI in the subtree rooted at `uri` is `uri` itself or
lies strictly under it. -/
theorem dirsOf_under :
    ∀ (m : Nat) (fs : FS), sizeOf fs ≤ m → ∀ uri, uri ≠ "" → FS.wf fs = true →
      ∀ e ∈ dirsOf fs uri, underPath uri e := by
  intro m
  induction m with
  | zero => intro fs h; cases fs <;> simp_arith at h
  | succ m ih =>
    intro fs hsz uri hu hwf e he
    cases fs with
    | file sz mt err => simp [dirsOf] at he
    | dir cs =>
      rw [show dirsOf (.dir cs) uri = uri :: dirsChildren cs uri from rfl] at he
      rcases List.mem_cons.1 he with rfl | he2
      · exact Or.inl rfl
      · obtain ⟨⟨n, c⟩, hp, hmem⟩ := mem_dirsChildren cs uri e he2
        obtain ⟨_, hnames, hkids⟩ := wf_dir_unpack cs hwf
        obtain ⟨hn, _⟩ := hnames (n, c) hp
        have hszc : sizeOf c ≤ m := by
          have := List.sizeOf_lt_of_mem hp
          simp_arith at this hsz
          omega
        have hsub := ih c hszc (jsResolve [uri, n])
          (resolve_two_ne_empty uri n hu hn) (hkids (n, c) hp) e hmem
        exact Or.inr (underPath_resolve uri n e hu hn hsub)

theorem token_eq :
    ∀ (a b r1 r2 : List Char),
      (∀ c ∈ a, c ≠ '/') → (∀ c ∈ b, c ≠ '/') →
      (r1 = [] ∨ ∃ t, r1 = '/' :: t) → (r2 = [] ∨ ∃ t, r2 = '/' :: t) →
      a ++ r1 = b ++ r2 → a = b := by
  intro a
  induction a with
  | nil =>
    intro b r1 r2 _ hb hr1 _ heq
    cases b with
    | nil => rfl
    | cons d ds =>
      exfalso
      simp only [List.nil_append, List.cons_append] at heq
      rcases hr1 with rfl | ⟨t, rfl⟩
      · simp at heq
      · rw [List.cons.injEq] at heq
        exact hb d (by simp) heq.1.symm
  | cons c cs ih =>
    intro b r1 r2 ha hb hr1 hr2 heq
    cases b with
    | nil =>
      exfalso
      simp only [List.cons_append, List.nil_append] at heq
      rcases hr2 with rfl | ⟨t, rfl⟩
      · simp at heq
      · rw [List.cons.injEq] at heq
        exact ha c (by simp) heq.1
    | cons d ds =>
      simp only [List.cons_append, List.cons.injEq] at heq
      obtain ⟨rfl, heq2⟩ := heq
      rw [ih ds r1 r2 (fun x hx => ha x (by simp [hx])) (fun x hx => hb x (by simp [hx]))
        hr1 hr2 heq2]

theorem string_data_inj {a b : String} (h : a.data = b.data) : a = b := by
  cases a
  cases b
  cases h
  rfl

/-- Subtrees under distinct sibling names are disjoint path sets. -/
theorem under_disjoint (uri n1 n2 e1 e2 : String) (hu : uri ≠ "")
    (hn1 : n1 ≠ "") (hn2 : n2 ≠ "")
    (hs1 : n1.data.contains '/' = false) (hs2 : n2.data.contains '/' = false)
    (hne : n1 ≠ n2)
    (h1 : underPath (jsResolve [uri, n1]) e1) (h2 : underPath (jsResolve [uri, n2]) e2) :
    e1 ≠ e2 := by
  intro heq
  have g1 : ∃ r1, (r1 = [] ∨ ∃ t, r1 = '/' :: t) ∧
      e1.data = uri.data ++ '/' :: (n1.data ++ r1) := by
    rcases h1 with rfl | ⟨r, hr⟩
    · exact ⟨[], Or.inl rfl, by rw [data_resolve_two uri n1 hu hn1]; simp⟩
    · exact ⟨'/' :: r, Or.inr ⟨r, rfl⟩, by
        rw [hr, data_resolve_two uri n1 hu hn1]; simp⟩
  have g2 : ∃ r2, (r2 = [] ∨ ∃ t, r2 = '/' :: t) ∧
      e2.data = uri.data ++ '/' :: (n2.data ++ r2) := by
    rcases h2 with rfl | ⟨r, hr⟩
    · exact ⟨[], Or.inl rfl, by rw [data_resolve_two uri n2 hu hn2]; simp⟩
    · exact ⟨'/' :: r, Or.inr ⟨r, rfl⟩, by
        rw [hr, data_resolve_two uri n2 hu hn2]; simp⟩
  obtain ⟨r1, hr1, he1⟩ := g1
  obtain ⟨r2, hr2, he2⟩ := g2
  have : uri.data ++ '/' :: (n1.data ++ r1) = uri.data ++ '/' :: (n2.data ++ r2) := by
    rw [← he1, ← he2, heq]
  have hmid : n1.data ++ r1 = n2.data ++ r2 := by
    have h2 := List.append_cancel_left this
    injection h2 with _ h3
  exact hne (string_data_inj (token_eq n1.data n2.data r1 r2
    (contains_false_not_mem hs1) (contains_false_not_mem hs2) hr1 hr2 hmid))

/-- Sibling subtrees with distinct names contribute disjoint, duplicate-free
directory lists. -/
theorem dirsChildren_nodup_aux (m : Nat)
    (ih : ∀ (fs : FS), sizeOf fs ≤ m → ∀ uri, uri ≠ "" → FS.wf fs = true →
      (dirsOf fs uri).Nodup) :
    ∀ (kids : List (String × FS)), sizeOf kids ≤ m → ∀ uri, uri ≠ "" →
      distinctStr (kids.map (fun p => p.1)) = true →
      (∀ p ∈ kids, p.1 ≠ "" ∧ p.1.data.contains '/' = false) →
      (∀ p ∈ kids, FS.wf p.2 = true) →
      (dirsChildren kids uri).Nodup := by
  intro kids
  induction kids with
  | nil => intro _ uri _ _ _ _; simp [dirsChildren]
  | cons p rest ihcs =>
    intro hsz uri hu hdist hnames hkids
    obtain ⟨n, c⟩ := p
    rw [show dirsChildren ((n, c) :: rest) uri =
        dirsOf c (jsResolve [uri, n]) ++ dirsChildren rest uri from rfl]
    obtain ⟨hn, hslash⟩ := hnames (n, c) (by simp)
    have hszc : sizeOf c ≤ m := by simp_arith at hsz; omega
    have hszrest : sizeOf rest ≤ m := by simp_arith at hsz; omega
    have hdist2 : distinctStr (rest.map (fun p => p.1)) = true ∧
        (rest.map (fun p => p.1)).contains n = false := by
      rw [show ((n, c) :: rest).map (fun p => p.1) =
          n :: rest.map (fun p => p.1) from rfl] at hdist
      rw [show distinctStr (n :: rest.map (fun p => p.1)) =
          ((!(rest.map (fun p => p.1)).contains n) && distinctStr (rest.map (fun p => p.1)))
        from rfl] at hdist
      simp only [Bool.and_eq_true, Bool.not_eq_true'] at hdist
      exact ⟨hdist.2, hdist.1⟩
    refine List.Nodup.append ?_ ?_ ?_
    · exact ih c hszc (jsResolve [uri, n]) (resolve_two_ne_empty uri n hu hn)
        (hkids (n, c) (by simp))
    · exact ihcs hszrest uri hu hdist2.1 (fun p hp => hnames p (by simp [hp]))
        (fun p hp => hkids p (by simp [hp]))
    · intro e1 he1 he2
      obtain ⟨⟨n2, c2⟩, hp2, hin2⟩ := mem_dirsChildren rest uri e1 he2
      obtain ⟨hn2, hslash2⟩ := hnames (n2, c2) (by simp [hp2])
      have hnne : n ≠ n2 := by
        intro hcontra
        subst hcontra
        exact strContains_false_not_mem hdist2.2 (List.mem_map_of_mem _ hp2)
      have hu1 := dirsOf_under (sizeOf c) c (Nat.le_refl _) (jsResolve [uri, n])
        (resolve_two_ne_empty uri n hu hn) (hkids (n, c) (by simp)) e1 he1
      have hu2 := dirsOf_under (sizeOf c2) c2 (Nat.le_refl _) (jsResolve [uri, n2])
        (resolve_two_ne_empty uri n2 hu hn2) (hkids (n2, c2) (by simp [hp2])) e1 hin2
      exact under_disjoint uri n n2 e1 e1 hu hn hn2 hslash hslash2 hnne hu1 hu2 rfl

/-- For a well-formed tree, the traversal visits each directory exactly
once: `dirsOf` has no duplicates. -/
theorem dirsOf_nodup :
    ∀ (m : Nat) (fs : FS), sizeOf fs ≤ m → ∀ uri, uri ≠ "" → FS.wf fs = true →
      (dirsOf fs uri).Nodup := by
  intro m
  induction m with
  | zero => intro fs h; cases fs <;> simp_arith at h
  | succ m ih =>
    intro fs hsz uri hu hwf
    cases fs with
    | file sz mt err => simp [dirsOf]
    | dir cs =>
      rw [show dirsOf (.dir cs) uri = uri :: dirsChildren cs uri from rfl]
      obtain ⟨hdist, hnames, hkids⟩ := wf_dir_unpack cs hwf
      have hszcs : sizeOf cs ≤ m := by simp_arith at hsz; omega
      refine List.nodup_cons.2 ⟨?_, ?_⟩
      · intro hmem
        obtain ⟨⟨n, c⟩, hp, hin⟩ := mem_dirsChildren cs uri uri hmem
        obtain ⟨hn, _⟩ := hnames (n, c) hp
        have hund := dirsOf_under (sizeOf c) c (Nat.le_refl _) (jsResolve [uri, n])
          (resolve_two_ne_empty uri n hu hn) (hkids (n, c) hp) uri hin
        obtain ⟨r, hr⟩ := underPath_resolve uri n uri hu hn hund
        have := congrArg List.length hr
        simp at this
      · exact dirsChildren_nodup_aux m ih cs hszcs uri hu hdist hnames hkids

theorem mhas_mset_self {α : Type} (m : Smap α) (k : String) (v : α) :
    mhas (mset m k v) k = true := by
  simp [mhas, mget_mset_self]

/-- C4: on a connected store over a well-formed directory tree, the first
`find` call (no `"?loaded"` marker yet) delegates exactly one full
traversal of the root — its trace's `listDir` calls enumerate every
directory of the tree exactly once — and the marker is added to the
traversal's resulting metadata; any store that already carries the marker
answers purely from the cache with an empty back-end trace (a literal URI
is yielded iff cached, a predicate yields every matching cached key); and
`find("missing.txt")` on an empty connected store performs its single
traversal and yields nothing. -/
theorem c4_find_loads_once (cs : List (String × FS)) (self : DB) (q : FindQuery) (depth : Nat)
    (hwf : FS.wf (.dir cs) = true) (hroot : self.root ≠ "")
    (_hconn : self.connected = true) (hnl : mhas self.meta "?loaded" = false) :
    (∃ ents dat1 met1 tr,
      readDir (.dir cs) self.root (depth + 1) (fun _ => true) false self.data self.meta =
        .ok (ents, dat1, met1, tr) ∧
      DB.find (.dir cs) self q depth =
        .ok (ents.map .entry ++ (queryMatches q dat1).map .key,
          ((self.withConnected true).withData dat1).withMeta
            (mset met1 "?loaded" ({} : DocumentStat)), tr) ∧
      listDirCalls tr = dirsOf (.dir cs) self.root ∧
      (dirsOf (.dir cs) self.root).Nodup ∧
      mhas (mset met1 "?loaded" ({} : DocumentStat)) "?loaded" = true) ∧
    (∀ t : DB, mhas t.meta "?loaded" = true →
      DB.find (.dir cs) t q depth =
        .ok ((queryMatches q t.data).map .key, t.withConnected true, [])) ∧
    (DB.find (.dir []) (.mk "." "." true [] [] []) (.lit "missing.txt") 0 =
      .ok ([], .mk "." "." true [] [("?loaded", {})] [], [.statDoc ".", .listDir "."])) := by
  refine ⟨?_, ?_, ?_⟩
  · obtain ⟨ents, dat1, met1, tr, hok, htr⟩ :=
      readDir_trace_aux (sizeOf (FS.dir cs)) (.dir cs) (Nat.le_refl _) cs rfl
        self.root (depth + 1) self.data self.meta
    refine ⟨ents, dat1, met1, tr, hok, ?_, htr,
      dirsOf_nodup (sizeOf (FS.dir cs)) (.dir cs) (Nat.le_refl _) self.root hroot hwf,
      mhas_mset_self met1 "?loaded" {}⟩
    unfold DB.find
    simp only [DB.meta_withConnected, DB.data_withConnected, DB.root_withConnected, hnl,
      Bool.false_eq_true, not_false_eq_true, if_true, hok]
  · intro t ht
    unfold DB.find
    simp only [DB.meta_withConnected, DB.data_withConnected, ht, not_true_eq_false, if_false]
  · rfl

/-- C4 witness: one directory `d` under a root named `root`. -/
theorem c4_find_loads_once_witness :
    (FS.wf (.dir [("d", FS.dir [])]) = true) ∧
    ((DB.mk "root" "." true [] [] []).root ≠ "") ∧
    (mhas (DB.mk "root" "." true [] [] []).meta "?loaded" = false) ∧
    (DB.find (.dir [("d", FS.dir [])]) (.mk "root" "." true [] [] [])
        (.lit "missing.txt") 0).toOption.map (fun r => listDirCalls r.2.2) =
      some ["root", "root/d"] := by
  refine ⟨by decide, by decide, by decide, ?_⟩
  obtain ⟨ents, dat1, met1, tr, hok, hfind, htr, hnodup, hm⟩ :=
    (c4_find_loads_once [("d", FS.dir [])] (.mk "root" "." true [] [] [])
      (.lit "missing.txt") 0 (by decide) (by decide) rfl (by decide)).1
  rw [hfind]
  simp [Except.toOption]
  rw [htr]
  decide

/-! ### Claim C7 : `Data.merge` -/

mutual

/-- JSON-serializable values: no `undefined` anywhere (so the
`JSON.parse(JSON.stringify(…))` deep copy is lossless). -/
def wfJ : JVal → Bool
  | .undef => false
  | .arr xs => wfElems xs
  | .obj fs => wfFields fs
  | _ => true

def wfElems : List JVal → Bool
  | [] => true
  | x :: xs => wfJ x && wfElems xs

def wfFields : List (String × JVal) → Bool
  | [] => true
  | (_, v) :: fs => wfJ v && wfFields fs

end

theorem jsonCopyElems_cons (x : JVal) (rest : List JVal) (hx : x ≠ .undef) :
    jsonCopyElems (x :: rest) = jsonCopy x :: jsonCopyElems rest := by
  cases x <;> simp_all [jsonCopyElems]

theorem jsonCopyFields_cons (k : String) (v : JVal) (rest : List (String × JVal))
    (hv : v ≠ .undef) :
    jsonCopyFields ((k, v) :: rest) = (k, jsonCopy v) :: jsonCopyFields rest := by
  cases v <;> simp_all [jsonCopyFields]

/-- On JSON-serializable values the deep copy is the identity: `merge`
works on a copy and the first argument's value passes through intact. -/
theorem jsonCopy_id_aux :
    ∀ (n : Nat) (v : JVal), sizeOf v ≤ n → wfJ v = true → jsonCopy v = v := by
  intro n
  induction n with
  | zero => intro v h; cases v <;> simp_arith at h
  | succ n ih =>
    intro v hsz hwf
    cases v with
    | undef => simp [wfJ] at hwf
    | null => rfl
    | bool b => rfl
    | num m => rfl
    | str s => rfl
    | arr xs =>
      rw [show jsonCopy (.arr xs) = .arr (jsonCopyElems xs) from rfl]
      rw [show wfJ (.arr xs) = wfElems xs from rfl] at hwf
      have hxs : sizeOf xs ≤ n := by simp_arith at hsz; omega
      congr 1
      have hlist : ∀ (ys : List JVal), sizeOf ys ≤ n → wfElems ys = true →
          jsonCopyElems ys = ys := by
        intro ys
        induction ys with
        | nil => intro _ _; rfl
        | cons x rest ihx =>
          intro hsz2 hwf2
          rw [show wfElems (x :: rest) = (wfJ x && wfElems rest) from rfl] at hwf2
          simp only [Bool.and_eq_true] at hwf2
          have hxne : x ≠ .undef := by
            intro hcontra
            rw [hcontra] at hwf2
            simp [wfJ] at hwf2
          have h1 : sizeOf x ≤ n := by simp_arith at hsz2; omega
          have h2 : sizeOf rest ≤ n := by simp_arith at hsz2; omega
          rw [jsonCopyElems_cons x rest hxne, ih x h1 hwf2.1, ihx h2 hwf2.2]
      exact hlist xs hxs hwf
    | obj fs =>
      rw [show jsonCopy (.obj fs) = .obj (jsonCopyFields fs) from rfl]
      rw [show wfJ (.obj fs) = wfFields fs from rfl] at hwf
      have hfs : sizeOf fs ≤ n := by simp_arith at hsz; omega
      congr 1
      have hlist : ∀ (gs : List (String × JVal)), sizeOf gs ≤ n → wfFields gs = true →
          jsonCopyFields gs = gs := by
        intro gs
        induction gs with
        | nil => intro _ _; rfl
        | cons p rest ihf =>
          intro hsz2 hwf2
          obtain ⟨k, v⟩ := p
          rw [show wfFields ((k, v) :: rest) = (wfJ v && wfFields rest) from rfl] at hwf2
          simp only [Bool.and_eq_true] at hwf2
          have hvne : v ≠ .undef := by
            intro hcontra
            rw [hcontra] at hwf2
            simp [wfJ] at hwf2
          have h1 : sizeOf v ≤ n := by simp_arith at hsz2; omega
          have h2 : sizeOf rest ≤ n := by simp_arith at hsz2; omega
          rw [jsonCopyFields_cons k v rest hvne, ih v h1 hwf2.1, ihf h2 hwf2.2]
      exact hlist fs hfs hwf

theorem jsonCopy_id (v : JVal) (hwf : wfJ v = true) : jsonCopy v = v :=
  jsonCopy_id_aux (sizeOf v) v (Nat.le_refl _) hwf

/-- The value the `for…in` step of `merge` stores under one source key. -/
def mergeStepVal (nt : JVal) (k : String) (v : JVal) : JVal :=
  if truthy v ∧ isContainer v then
    match v with
    | .arr xs => .arr xs
    | _ => dataMerge (if truthy (nt.getProp k) then nt.getProp k else .obj []) v
  else v

theorem mergeFields_cons (nt : JVal) (k0 : String) (v0 : JVal) (rest : List (String × JVal)) :
    mergeFields nt ((k0, v0) :: rest) =
      mergeFields (nt.setProp k0 (mergeStepVal nt k0 v0)) rest := by
  by_cases hc : truthy v0 ∧ isContainer v0
  · cases v0 with
    | arr xs => simp [mergeFields, mergeStepVal, hc]
    | obj fs => simp [mergeFields, mergeStepVal, hc]
    | undef => simp [isContainer] at hc
    | null => simp [isContainer] at hc
    | bool b => simp [isContainer] at hc
    | num m => simp [isContainer] at hc
    | str s => simp [isContainer] at hc
  · simp [mergeFields, mergeStepVal, hc]

theorem mergeStepVal_congr (nt nt2 : JVal) (k : String) (v : JVal)
    (h : nt.getProp k = nt2.getProp k) : mergeStepVal nt k v = mergeStepVal nt2 k v := by
  unfold mergeStepVal
  rw [h]

theorem mget_none_not_mem {α : Type} {m : Smap α} {k : String} (h : mget m k = none) :
    ∀ p ∈ m, p.1 ≠ k := by
  induction m with
  | nil => intro p hp; simp at hp
  | cons q rest ih =>
    intro p hp
    obtain ⟨k2, v2⟩ := q
    rw [mget_cons] at h
    by_cases hk : k2 = k
    · simp [hk] at h
    · rcases List.mem_cons.1 hp with rfl | hp2
      · exact hk
      · exact ih (by simpa [hk] using h) p hp2

theorem mergeFields_getProp_notin (bf : List (String × JVal)) :
    ∀ (g : List (String × JVal)) (k : String), (∀ p ∈ bf, p.1 ≠ k) →
      (mergeFields (.obj g) bf).getProp k = (JVal.obj g).getProp k := by
  induction bf with
  | nil => intro g k _; rfl
  | cons p rest ih =>
    intro g k hk
    obtain ⟨k0, v0⟩ := p
    have hne : k0 ≠ k := hk (k0, v0) (by simp)
    rw [mergeFields_cons]
    rw [show (JVal.obj g).setProp k0 (mergeStepVal (.obj g) k0 v0) =
        .obj (mset g k0 (mergeStepVal (.obj g) k0 v0)) from rfl]
    rw [ih _ k (fun p hp => hk p (by simp [hp]))]
    show (mget (mset g k0 _) k).getD .undef = (mget g k).getD .undef
    rw [mget_mset_other g k0 k _ hne]

theorem mergeFields_getProp_found (bf : List (String × JVal)) :
    ∀ (g : List (String × JVal)) (k : String) (v : JVal),
      (bf.map Prod.fst).Nodup → mget bf k = some v →
      (mergeFields (.obj g) bf).getProp k = mergeStepVal (.obj g) k v := by
  induction bf with
  | nil => intro g k v _ h; simp at h
  | cons p rest ih =>
    intro g k v hnodup hfind
    obtain ⟨k0, v0⟩ := p
    rw [mergeFields_cons]
    rw [show (JVal.obj g).setProp k0 (mergeStepVal (.obj g) k0 v0) =
        .obj (mset g k0 (mergeStepVal (.obj g) k0 v0)) from rfl]
    rw [mget_cons] at hfind
    have hmc := List.nodup_cons.1 (by rw [List.map_cons] at hnodup; exact hnodup)
    by_cases hk : k0 = k
    · subst hk
      have hv : v = v0 := by simpa using hfind.symm
      subst hv
      have hnotin : ∀ p ∈ rest, p.1 ≠ k0 := by
        intro p hp hcontra
        have hmem : p.1 ∈ rest.map Prod.fst := List.mem_map_of_mem Prod.fst hp
        rw [hcontra] at hmem
        exact hmc.1 hmem
      rw [mergeFields_getProp_notin rest _ k0 hnotin]
      show (mget (mset g k0 _) k0).getD .undef = _
      rw [mget_mset_self]
      rfl
    · rw [if_neg hk] at hfind
      rw [ih _ k v hmc.2 hfind]
      exact mergeStepVal_congr _ _ k v (by
        show (mget (mset g k0 _) k).getD .undef = (mget g k).getD .undef
        rw [mget_mset_other g k0 k _ hk])

/-- C7: `merge(a, b)` operates on a deep copy that leaves `a`'s value
intact (`jsonCopy a = a` for JSON-serializable `a`); every array-valued
key of `b` lands in the result as `b`'s array (a `slice()` copy),
regardless of what `a` held there; non-array object values merge
recursively against `a`'s value at the key (or `{}` when that is falsy);
scalars overwrite; and keys absent from `b` keep `a`'s value. -/
theorem c7_merge_properties (af bf : List (String × JVal))
    (hwa : wfJ (.obj af) = true) (hnb : (bf.map Prod.fst).Nodup) :
    jsonCopy (.obj af) = .obj af ∧
    (∀ k xs, mget bf k = some (.arr xs) →
      (dataMerge (.obj af) (.obj bf)).getProp k = .arr xs) ∧
    (∀ k o, mget bf k = some (.obj o) →
      (dataMerge (.obj af) (.obj bf)).getProp k =
        dataMerge (if truthy ((JVal.obj af).getProp k) then (JVal.obj af).getProp k
          else .obj []) (.obj o)) ∧
    (∀ k v, mget bf k = some v → isContainer v = false →
      (dataMerge (.obj af) (.obj bf)).getProp k = v) ∧
    (∀ k, mget bf k = none →
      (dataMerge (.obj af) (.obj bf)).getProp k = (JVal.obj af).getProp k) := by
  have hcopy : jsonCopy (.obj af) = .obj af := jsonCopy_id _ hwa
  have hmerge : dataMerge (.obj af) (.obj bf) = mergeFields (.obj af) bf := by
    rw [show dataMerge (.obj af) (.obj bf) = mergeFields (jsonCopy (.obj af)) bf from rfl, hcopy]
  refine ⟨hcopy, ?_, ?_, ?_, ?_⟩
  · intro k xs hfind
    rw [hmerge, mergeFields_getProp_found bf af k (.arr xs) hnb hfind]
    rfl
  · intro k o hfind
    rw [hmerge, mergeFields_getProp_found bf af k (.obj o) hnb hfind]
    rfl
  · intro k v hfind hnc
    rw [hmerge, mergeFields_getProp_found bf af k v hnb hfind]
    unfold mergeStepVal
    simp [hnc]
  · intro k hnone
    rw [hmerge, mergeFields_getProp_notin bf af k (mget_none_not_mem hnone)]

/-- C7 witness: `a = { p: { x: 1 }, q: [1, 2], s: 3 }`,
`b = { p: { y: 2 }, q: [9], s: 7 }`. -/
theorem c7_merge_properties_witness :
    (wfJ (.obj [("p", .obj [("x", .num 1)]), ("q", .arr [.num 1, .num 2]), ("s", .num 3)]) =
      true) ∧
    (dataMerge (.obj [("p", .obj [("x", .num 1)]), ("q", .arr [.num 1, .num 2]), ("s", .num 3)])
        (.obj [("p", .obj [("y", .num 2)]), ("q", .arr [.num 9]), ("s", .num 7)])).getProp "q" =
      .arr [.num 9] := by
  refine ⟨by decide, ?_⟩
  exact (c7_merge_properties
    [("p", .obj [("x", .num 1)]), ("q", .arr [.num 1, .num 2]), ("s", .num 3)]
    [("p", .obj [("y", .num 2)]), ("q", .arr [.num 9]), ("s", .num 7)]
    (by decide) (by decide)).2.1 "q" [.num 9] (by decide)

/-- C10 witness at `u = "doc.txt"`, `v = 1`. -/
theorem c10_get_set_sentinel_witness :
    (JVal.num 1 ≠ JVal.bool false) ∧
    (DB.get ((DB.set (.mk "." "." true [] [] []) "doc.txt" (.num 1) 5).2) "doc.txt"
        (fun _ => .str "loaded")).1 = JVal.num 1 := by
  refine ⟨by decide, ?_⟩
  have h := (c10_get_set_sentinel (.mk "." "." true [] [] []) "doc.txt" (.num 1) 5
    (fun _ => .str "loaded") (by decide)).1
  rw [h]

/-! ### C3: the flatten/unflatten round trip

`Data.flatten` renders leaf paths of a nested structure as divider-joined
key strings (array indices wrapped as `[i]`); `Data.unflatten` re-splits
those strings and rebuilds the spine.  The development below works with
abstract path segments (`Seg`), relates rendering to re-parsing, and
proves the round trip for well-formed structures. -/

/-- An abstract path segment: an object key or an array index. -/
inductive Seg where
  | key (s : String)
  | idx (n : Nat)
  deriving Repr, DecidableEq

/-- How `flatten` renders a segment into the flat key. -/
def renderSeg : Seg → String
  | .key s => s
  | .idx n => "[" ++ natStr n ++ "]"

/-- The segment after `unflatten`'s `convKey` conversion (`[i]` becomes
`String(parseInt(i, 10))`, plain keys stay). -/
def convSeg : Seg → String
  | .key s => s
  | .idx n => natStr n

def segKindIdx : Seg → Bool
  | .key _ => false
  | .idx _ => true

/-- A safe object key: nonempty, divider-free, not an `[i]` wrapper and
not a bare digit string (which would collide with converted indices). -/
def wfKey (s : String) : Bool :=
  !s.data.isEmpty && !(s.data.contains '/') && (idxDigits? s).isNone &&
    !(s.data.all isDigitCh)

def segOk : Seg → Bool
  | .key s => wfKey s
  | .idx _ => true

def segsOk (p : List Seg) : Bool := p.all segOk

/-- `renderPath` is the flat key `flatten` writes for a leaf path. -/
def renderPath (p : List Seg) : String := joinSl (p.map renderSeg)

theorem char_toNat_inj {a b : Char} (h : a.toNat = b.toNat) : a = b := by
  rw [← Char.ofNat_toNat a, ← Char.ofNat_toNat b, h]

theorem digit_char_eq (c : Char) (h : isDigitCh c = true) : digitCh (digitVal c) = c := by
  simp only [isDigitCh, Bool.and_eq_true, decide_eq_true_eq] at h
  apply char_toNat_inj
  have hd : digitVal c < 10 := by unfold digitVal; omega
  have hc : c.toNat = 48 + digitVal c := by unfold digitVal; omega
  rw [hc]
  obtain ⟨d, hd10, hdc⟩ : ∃ d, d < 10 ∧ digitVal c = d := ⟨digitVal c, hd, rfl⟩
  rw [hdc]
  interval_cases d <;> decide

theorem digitVal_lt_10 (c : Char) (h : isDigitCh c = true) : digitVal c < 10 := by
  simp only [isDigitCh, Bool.and_eq_true, decide_eq_true_eq] at h
  unfold digitVal
  omega

/-- The fuel in `natCharsAux` does not matter once it suffices. -/
theorem natCharsAux_fuel :
    ∀ (n fuel : Nat), 0 < fuel → n < 10 ^ fuel → natCharsAux fuel n = natChars n := by
  intro n
  induction n using Nat.strong_induction_on with
  | _ n ih =>
    intro fuel hf hlt
    by_cases h : n < 10
    · cases fuel with
      | zero => omega
      | succ f => simp [natCharsAux, natChars, h]
    · cases fuel with
      | zero => omega
      | succ f =>
        have hf0 : 0 < f := by
          by_contra hc
          have hz : f = 0 := by omega
          subst hz
          simp at hlt
          omega
        have hdiv : n / 10 < 10 ^ f := by
          have hpow : 10 ^ (f + 1) = 10 * 10 ^ f := by ring
          omega
        have h1 : natCharsAux (f + 1) n = natCharsAux f (n / 10) ++ [digitCh (n % 10)] := by
          simp [natCharsAux, h]
        have h2 : natChars n = natCharsAux n (n / 10) ++ [digitCh (n % 10)] := by
          show natCharsAux (n + 1) n = _
          simp [natCharsAux, h]
        have hlt2 : n / 10 < 10 ^ n := by
          have : n < 10 ^ n := Nat.lt_pow_self (by norm_num) n
          omega
        rw [h1, h2, ih (n / 10) (by omega) f hf0 hdiv, ih (n / 10) (by omega) n (by omega) hlt2]

theorem parseDigits_foldl_ge (l : List Char) (a : Nat) :
    a ≤ l.foldl (fun acc c => acc * 10 + digitVal c) a := by
  induction l generalizing a with
  | nil => simp
  | cons c rest ih =>
    calc a ≤ a * 10 + digitVal c := by omega
    _ ≤ _ := ih _

theorem parseDigits_pos (d : Char) (rest : List Char) (hd : digitVal d ≠ 0) :
    0 < parseDigits (d :: rest) := by
  unfold parseDigits
  simp only [List.foldl_cons]
  have h := parseDigits_foldl_ge rest (0 * 10 + digitVal d)
  omega

/-- Parsing a canonical (no leading zero) digit string and re-rendering it
with `String(·)` gives the string back: decimal renderings are unique. -/
theorem natChars_parseDigits (ds : List Char) :
    ds ≠ [] → ds.all isDigitCh = true → (ds = ['0'] ∨ ds.head? ≠ some '0') →
    natChars (parseDigits ds) = ds := by
  induction ds using List.reverseRecOn with
  | nil => intro hne _ _; exact absurd rfl hne
  | append_singleton ds' c ih =>
    intro _ hd hlead
    have hdc : isDigitCh c = true := by
      simp only [List.all_append, List.all_cons, List.all_nil, Bool.and_eq_true] at hd
      exact hd.2.1
    have hd' : ds'.all isDigitCh = true := by
      simp only [List.all_append, Bool.and_eq_true] at hd
      exact hd.1
    have hvc : digitVal c < 10 := digitVal_lt_10 c hdc
    cases ds' with
    | nil =>
      have hp : parseDigits ([] ++ [c]) = digitVal c := by
        simp [parseDigits]
      rw [hp]
      have hn : natChars (digitVal c) = [digitCh (digitVal c)] := by
        show natCharsAux (digitVal c + 1) (digitVal c) = _
        simp [natCharsAux, hvc]
      rw [hn, digit_char_eq c hdc]
      simp
    | cons e t =>
      have hhead : e ≠ '0' := by
        rcases hlead with hl | hl
        · exact absurd (congrArg List.length hl) (by simp)
        · simpa using hl
      have hde : isDigitCh e = true := by
        simp only [List.all_append, List.all_cons, Bool.and_eq_true] at hd
        exact hd.1.1
      have hve : digitVal e ≠ 0 := by
        simp only [isDigitCh, Bool.and_eq_true, decide_eq_true_eq] at hde
        intro hz
        apply hhead
        apply char_toNat_inj
        have h0 : ('0' : Char).toNat = 48 := by decide
        rw [h0]
        unfold digitVal at hz
        omega
      have hP : 0 < parseDigits (e :: t) := parseDigits_pos e t hve
      have hp : parseDigits ((e :: t) ++ [c]) = parseDigits (e :: t) * 10 + digitVal c :=
        parseDigits_append (e :: t) c
      rw [hp]
      have hval10 : ¬ parseDigits (e :: t) * 10 + digitVal c < 10 := by omega
      have hdiv : (parseDigits (e :: t) * 10 + digitVal c) / 10 = parseDigits (e :: t) := by
        omega
      have hmod : (parseDigits (e :: t) * 10 + digitVal c) % 10 = digitVal c := by
        omega
      have hself : parseDigits (e :: t) < 10 ^ (parseDigits (e :: t) * 10 + digitVal c) := by
        have h1 : parseDigits (e :: t) * 10 + digitVal c <
            10 ^ (parseDigits (e :: t) * 10 + digitVal c) :=
          Nat.lt_pow_self (by norm_num) _
        omega
      have hstep : natChars (parseDigits (e :: t) * 10 + digitVal c) =
          natCharsAux (parseDigits (e :: t) * 10 + digitVal c)
            ((parseDigits (e :: t) * 10 + digitVal c) / 10) ++
            [digitCh ((parseDigits (e :: t) * 10 + digitVal c) % 10)] := by
        show natCharsAux (parseDigits (e :: t) * 10 + digitVal c + 1) _ = _
        simp [natCharsAux, hval10]
      rw [hstep, hdiv, hmod,
        natCharsAux_fuel (parseDigits (e :: t)) _ (by omega) hself,
        ih (by simp) hd' (Or.inr (by simpa using hhead)), digit_char_eq c hdc]

theorem natCharsAux_head :
    ∀ (fuel n : Nat), 0 < fuel → n < 10 ^ fuel → n ≠ 0 →
      (natCharsAux fuel n).head? ≠ some '0' := by
  intro fuel
  induction fuel with
  | zero => intro n h; omega
  | succ f ih =>
    intro n _ hlt hn
    by_cases h : n < 10
    · have hx : natCharsAux (f + 1) n = [digitCh n] := by simp [natCharsAux, h]
      rw [hx]
      simp only [List.head?_cons, ne_eq, Option.some.injEq]
      have hb : 0 < n := by omega
      interval_cases n <;> decide
    · have hf0 : 0 < f := by
        by_contra hc
        have hz : f = 0 := by omega
        subst hz
        simp at hlt
        omega
      have hdiv : n / 10 < 10 ^ f := by
        have hpow : 10 ^ (f + 1) = 10 * 10 ^ f := by ring
        omega
      have hx : natCharsAux (f + 1) n = natCharsAux f (n / 10) ++ [digitCh (n % 10)] := by
        simp [natCharsAux, h]
      rw [hx]
      have hne := (natCharsAux_spec f (n / 10) hf0 hdiv).2.1
      have hih := ih (n / 10) hf0 hdiv (by omega)
      rcases hrep : natCharsAux f (n / 10) with _ | ⟨a, t⟩
      · exact absurd hrep hne
      · rw [hrep] at hih
        simpa using hih

theorem natChars_zero : natChars 0 = ['0'] := by decide

theorem natChars_head_ne_zero (n : Nat) (hn : n ≠ 0) : (natChars n).head? ≠ some '0' := by
  have h1 : n < 10 ^ n := Nat.lt_pow_self (by norm_num) n
  have h2 : (10 : Nat) ^ n ≤ 10 ^ (n + 1) := Nat.pow_le_pow_right (by omega) (Nat.le_succ n)
  exact natCharsAux_head (n + 1) n (by omega) (by omega) hn

theorem natChars_canonical (n : Nat) :
    natChars n ≠ [] ∧ (natChars n).all isDigitCh = true ∧
      (natChars n = ['0'] ∨ (natChars n).head? ≠ some '0') := by
  refine ⟨natChars_ne_nil n, natChars_all_digits n, ?_⟩
  by_cases h : n = 0
  · subst h; exact Or.inl natChars_zero
  · exact Or.inr (natChars_head_ne_zero n h)

/-- `String(i)` is a canonical array index. -/
theorem canonIdx?_natStr (n : Nat) : canonIdx? (natStr n) = some n := by
  obtain ⟨h1, h2, h3⟩ := natChars_canonical n
  have hdata : (natStr n).data = natChars n := rfl
  unfold canonIdx?
  rw [hdata, if_pos ⟨h1, by simpa using h2, h3⟩, parseDigits_natChars]

/-- Only `String(i)` itself is a canonical spelling of the index `i`. -/
theorem canonIdx?_eq_natStr (k : String) (i : Nat) (h : canonIdx? k = some i) :
    k = natStr i := by
  unfold canonIdx? at h
  by_cases hc : k.data ≠ [] ∧ k.data.all isDigitCh ∧ (k.data = ['0'] ∨ k.data.head? ≠ some '0')
  · rw [if_pos hc] at h
    obtain ⟨h1, h2, h3⟩ := hc
    have hi : parseDigits k.data = i := by simpa using h
    have hrt := natChars_parseDigits k.data h1 (by simpa using h2) h3
    rw [hi] at hrt
    apply string_data_inj
    rw [show (natStr i).data = natChars i from rfl, hrt]
  · rw [if_neg hc] at h
    exact absurd h (by simp)

theorem natStr_inj {i j : Nat} (h : natStr i = natStr j) : i = j := by
  have h1 := canonIdx?_natStr i
  rw [h, canonIdx?_natStr j] at h1
  simpa using h1.symm

theorem render_idx_data (n : Nat) :
    (renderSeg (.idx n)).data = '[' :: (natChars n ++ [']']) := by
  show ("[" ++ natStr n ++ "]").data = _
  rw [str_data_append, str_data_append]
  rfl

theorem idxDigits?_render (n : Nat) :
    idxDigits? (renderSeg (.idx n)) = some (natChars n) := by
  unfold idxDigits?
  rw [render_idx_data]
  simp only [List.head?_cons, List.tail_cons]
  have hlast : (natChars n ++ [']']).getLast? = some ']' := by
    simp
  have hdrop : (natChars n ++ [']']).dropLast = natChars n := by
    simp
  rw [if_pos ⟨by trivial, hlast, by rw [hdrop]; exact natChars_ne_nil n,
    by rw [hdrop]; exact natChars_all_digits n⟩, hdrop]

theorem idxDigits?_key (s : String) (h : wfKey s = true) : idxDigits? s = none := by
  simp only [wfKey, Bool.and_eq_true, Option.isNone_iff_eq_none] at h
  exact h.1.2

theorem idxDigits?_natStr (n : Nat) : idxDigits? (natStr n) = none := by
  unfold idxDigits?
  rw [if_neg]
  intro hcontra
  have h1 := hcontra.1
  have hdata : (natStr n).data = natChars n := rfl
  rw [hdata] at h1
  rcases hrep : natChars n with _ | ⟨c, t⟩
  · rw [hrep] at h1; simp at h1
  · rw [hrep] at h1
    simp only [List.head?_cons, Option.some.injEq] at h1
    have hall := natChars_all_digits n
    rw [hrep] at hall
    simp only [List.all_cons, Bool.and_eq_true] at hall
    have hd := hall.1
    rw [h1] at hd
    revert hd
    decide

/-- `convKey` undoes `renderSeg`, landing on `convSeg`. -/
theorem convKey_renderSeg (s : Seg) (h : segOk s = true) :
    convKey (renderSeg s) = convSeg s := by
  cases s with
  | key s =>
    have hk : wfKey s = true := by simpa [segOk] using h
    simp [convKey, renderSeg, idxDigits?_key s hk, convSeg]
  | idx n =>
    simp [convKey, idxDigits?_render, convSeg, parseDigits_natChars]

/-- `convKey` is the identity on already-converted segments. -/
theorem convKey_convSeg (s : Seg) (h : segOk s = true) :
    convKey (convSeg s) = convSeg s := by
  cases s with
  | key s =>
    have hk : wfKey s = true := by simpa [segOk] using h
    simp [convKey, convSeg, idxDigits?_key s hk]
  | idx n =>
    simp [convKey, convSeg, idxDigits?_natStr]

theorem render_ne_empty (s : Seg) (h : segOk s = true) : renderSeg s ≠ "" := by
  intro hcontra
  have hdata := congrArg String.data hcontra
  cases s with
  | key s =>
    have hk : wfKey s = true := by simpa [segOk] using h
    simp only [wfKey, Bool.and_eq_true] at hk
    have hne : s.data ≠ [] := by
      have h1 := hk.1.1.1
      simpa [List.isEmpty_iff] using h1
    exact hne (by simpa [renderSeg] using hdata)
  | idx n =>
    rw [render_idx_data] at hdata
    simp at hdata

theorem convSeg_inj (a b : Seg) (ha : segOk a = true) (hb : segOk b = true)
    (h : convSeg a = convSeg b) : a = b := by
  cases a with
  | key s =>
    cases b with
    | key t => simpa [convSeg] using h
    | idx j =>
      have hk : wfKey s = true := by simpa [segOk] using ha
      simp only [wfKey, Bool.and_eq_true] at hk
      have hnd : s.data.all isDigitCh = false := by
        have h2 := hk.2
        rwa [Bool.not_eq_true'] at h2
      have hs : s = natStr j := by simpa [convSeg] using h
      have hall : s.data.all isDigitCh = true := by
        rw [hs]
        exact natChars_all_digits j
      rw [hall] at hnd
      exact absurd hnd (by simp)
  | idx i =>
    cases b with
    | key t =>
      have hk : wfKey t = true := by simpa [segOk] using hb
      simp only [wfKey, Bool.and_eq_true] at hk
      have hnd : t.data.all isDigitCh = false := by
        have h2 := hk.2
        rwa [Bool.not_eq_true'] at h2
      have hs : t = natStr i := by simpa [convSeg] using h.symm
      have hall : t.data.all isDigitCh = true := by
        rw [hs]
        exact natChars_all_digits i
      rw [hall] at hnd
      exact absurd hnd (by simp)
    | idx j =>
      have hij : natStr i = natStr j := by simpa [convSeg] using h
      rw [natStr_inj hij]

theorem renderSeg_inj (a b : Seg) (ha : segOk a = true) (hb : segOk b = true)
    (h : renderSeg a = renderSeg b) : a = b := by
  cases a with
  | key s =>
    cases b with
    | key t => simpa [renderSeg] using h
    | idx j =>
      have hk : wfKey s = true := by simpa [segOk] using ha
      have hnone := idxDigits?_key s hk
      have hs : s = renderSeg (.idx j) := h
      rw [hs, idxDigits?_render] at hnone
      exact absurd hnone (by simp)
  | idx i =>
    cases b with
    | key t =>
      have hk : wfKey t = true := by simpa [segOk] using hb
      have hnone := idxDigits?_key t hk
      have hs : t = renderSeg (.idx i) := h.symm
      rw [hs, idxDigits?_render] at hnone
      exact absurd hnone (by simp)
    | idx j =>
      have hdata2 := congrArg String.data h
      rw [render_idx_data, render_idx_data] at hdata2
      have hnc : natChars i = natChars j := by
        have h2 : natChars i ++ [']'] = natChars j ++ [']'] := by
          simpa using hdata2
        have h3 := congrArg List.dropLast h2
        simpa using h3
      have hij : i = j := by
        have h4 := parseDigits_natChars i
        rw [hnc, parseDigits_natChars j] at h4
        omega
      rw [hij]

theorem renderSeg_no_slash (s : Seg) (h : segOk s = true) : '/' ∉ (renderSeg s).data := by
  cases s with
  | key s =>
    have hk : wfKey s = true := by simpa [segOk] using h
    simp only [wfKey, Bool.and_eq_true] at hk
    have hc : s.data.contains '/' = false := by simpa using hk.1.1.2
    intro hmem
    exact contains_false_not_mem hc '/' hmem rfl
  | idx n =>
    rw [render_idx_data]
    intro hmem
    simp only [List.mem_cons, List.mem_append, List.mem_singleton] at hmem
    rcases hmem with h1 | h2 | h3
    · exact absurd h1 (by decide)
    · have hall := natChars_all_digits n
      rw [List.all_eq_true] at hall
      have hd := hall _ h2
      simp only [isDigitCh, Bool.and_eq_true, decide_eq_true_eq] at hd
      have h47 : ('/' : Char).toNat = 47 := by decide
      omega
    · exact absurd h3 (by decide)

theorem splitCh_ne_nil (c : Char) (l : List Char) : splitCh c l ≠ [] := by
  cases l with
  | nil => simp [splitCh]
  | cons a as =>
    unfold splitCh
    by_cases h : a = c
    · simp [h]
    · simp only [h, if_false]
      rcases hs : splitCh c as with _ | ⟨g, gs⟩ <;> simp

theorem splitCh_no_sep (c : Char) (l : List Char) (h : c ∉ l) : splitCh c l = [l] := by
  induction l with
  | nil => rfl
  | cons a as ih =>
    have ha : ¬ a = c := fun hc => h (hc ▸ List.mem_cons_self a as)
    have has : c ∉ as := fun hc => h (List.mem_cons_of_mem a hc)
    unfold splitCh
    rw [if_neg ha, ih has]

theorem splitCh_append_sep (c : Char) (a b : List Char) (h : c ∉ a) :
    splitCh c (a ++ c :: b) = a :: splitCh c b := by
  induction a with
  | nil => simp [splitCh]
  | cons x a' ih =>
    have hx : ¬ x = c := fun hc => h (hc ▸ List.mem_cons_self x a')
    have ha' : c ∉ a' := fun hc => h (List.mem_cons_of_mem x hc)
    show splitCh c (x :: (a' ++ c :: b)) = (x :: a') :: splitCh c b
    have hstep : splitCh c (x :: (a' ++ c :: b)) =
        if x = c then [] :: splitCh c (a' ++ c :: b)
        else match splitCh c (a' ++ c :: b) with
          | [] => [[x]]
          | g :: gs => (x :: g) :: gs := rfl
    rw [hstep, if_neg hx, ih ha']

/-- `join("/")` followed by `split("/")` restores any nonempty list of
nonempty divider-free tokens. -/
theorem jsSplitSl_joinSl (ts : List String) (hne : ts ≠ [])
    (h : ∀ t ∈ ts, '/' ∉ t.data) : jsSplitSl (joinSl ts) = ts := by
  induction ts with
  | nil => exact absurd rfl hne
  | cons t rest ih =>
    cases rest with
    | nil =>
      show jsSplitSl (joinSl [t]) = [t]
      unfold joinSl jsSplitSl
      rw [splitCh_no_sep '/' t.data (h t (List.mem_cons_self t []))]
      simp [strMk_data]
    | cons r rest' =>
      have hjoin : joinSl (t :: r :: rest') = t ++ "/" ++ joinSl (r :: rest') := rfl
      have hdata : (t ++ "/" ++ joinSl (r :: rest')).data =
          t.data ++ '/' :: (joinSl (r :: rest')).data := by
        rw [str_data_append, str_data_append, show ("/" : String).data = ['/'] from rfl,
          List.append_assoc]
        rfl
      unfold jsSplitSl
      rw [hjoin, hdata, splitCh_append_sep '/' _ _ (h t (List.mem_cons_self t _))]
      have hih := ih (by simp) (fun u hu => h u (List.mem_cons_of_mem t hu))
      unfold jsSplitSl at hih
      simp only [List.map_cons, strMk_data, hih]

theorem segsOk_mem {p : List Seg} (h : segsOk p = true) {s : Seg} (hs : s ∈ p) :
    segOk s = true := by
  rw [segsOk, List.all_eq_true] at h
  exact h s hs

/-- Splitting a rendered path recovers the rendered segments. -/
theorem jsSplitSl_renderPath (p : List Seg) (hne : p ≠ []) (h : segsOk p = true) :
    jsSplitSl (renderPath p) = p.map renderSeg := by
  apply jsSplitSl_joinSl
  · simp [hne]
  · intro t ht
    obtain ⟨s, hs, rfl⟩ := List.mem_map.1 ht
    exact renderSeg_no_slash s (segsOk_mem h hs)

theorem map_renderSeg_inj :
    ∀ (p q : List Seg), segsOk p = true → segsOk q = true →
      p.map renderSeg = q.map renderSeg → p = q := by
  intro p
  induction p with
  | nil => intro q _ _ h; cases q <;> simp_all
  | cons a p' ih =>
    intro q hp hq h
    cases q with
    | nil => simp at h
    | cons b q' =>
      simp only [List.map_cons, List.cons.injEq] at h
      have ha : segOk a = true := segsOk_mem hp (List.mem_cons_self a p')
      have hb : segOk b = true := segsOk_mem hq (List.mem_cons_self b q')
      have hp' : segsOk p' = true := by
        rw [segsOk, List.all_eq_true] at hp ⊢
        exact fun s hs => hp s (List.mem_cons_of_mem a hs)
      have hq' : segsOk q' = true := by
        rw [segsOk, List.all_eq_true] at hq ⊢
        exact fun s hs => hq s (List.mem_cons_of_mem b hs)
      rw [renderSeg_inj a b ha hb h.1, ih q' hp' hq' h.2]

theorem renderPath_inj (p q : List Seg) (hpne : p ≠ []) (hqne : q ≠ [])
    (hp : segsOk p = true) (hq : segsOk q = true) (h : renderPath p = renderPath q) :
    p = q := by
  have hsplit := congrArg jsSplitSl h
  rw [jsSplitSl_renderPath p hpne hp, jsSplitSl_renderPath q hqne hq] at hsplit
  exact map_renderSeg_inj p q hp hq hsplit

/-! C3, part 2: the algebra of `getProp`/`setProp` at the positions
`unflatten` writes through (any key of an object, a canonical index of an
array). -/

theorem getD_append_len {α : Type} (l1 l2 : List α) (x d : α) :
    (l1 ++ x :: l2).getD l1.length d = x := by
  induction l1 with
  | nil => rfl
  | cons a t ih => simpa using ih

theorem getD_append_lt {α : Type} (l1 l2 : List α) (j : Nat) (d : α) (h : j < l1.length) :
    (l1 ++ l2).getD j d = l1.getD j d := by
  induction l1 generalizing j with
  | nil => simp at h
  | cons a t ih =>
    cases j with
    | zero => rfl
    | succ j2 => simpa using ih j2 (by simpa using h)

theorem getD_append_ge {α : Type} (l1 l2 : List α) (j : Nat) (d : α) (h : l1.length ≤ j) :
    (l1 ++ l2).getD j d = l2.getD (j - l1.length) d := by
  induction l1 generalizing j with
  | nil => simp
  | cons a t ih =>
    cases j with
    | zero => simp at h
    | succ j2 => simpa [Nat.succ_sub_succ] using ih j2 (by simpa using h)

theorem getD_ge_length {α : Type} (l : List α) (j : Nat) (d : α) (h : l.length ≤ j) :
    l.getD j d = d := by
  induction l generalizing j with
  | nil => simp
  | cons a t ih =>
    cases j with
    | zero => simp at h
    | succ j2 => simpa using ih j2 (by simpa using h)

theorem getD_set_self {α : Type} (l : List α) (i : Nat) (x d : α) (h : i < l.length) :
    (l.set i x).getD i d = x := by
  induction l generalizing i with
  | nil => simp at h
  | cons a t ih =>
    cases i with
    | zero => rfl
    | succ i2 => simpa using ih i2 (by simpa using h)

theorem getD_set_other {α : Type} (l : List α) (i j : Nat) (x d : α) (h : i ≠ j) :
    (l.set i x).getD j d = l.getD j d := by
  induction l generalizing i j with
  | nil => simp
  | cons a t ih =>
    cases i with
    | zero =>
      cases j with
      | zero => exact absurd rfl h
      | succ j2 => simp
    | succ i2 =>
      cases j with
      | zero => simp
      | succ j2 => simpa using ih i2 j2 (by omega)

theorem set_append_last {α : Type} (l : List α) (x y : α) :
    (l ++ [x]).set l.length y = l ++ [y] := by
  induction l with
  | nil => rfl
  | cons a t ih => simp [ih]

theorem getD_replicate_mem {α : Type} (k j : Nat) (x d : α) (h : j < k) :
    (List.replicate k x).getD j d = x := by
  induction k generalizing j with
  | zero => omega
  | succ k2 ih =>
    cases j with
    | zero => rfl
    | succ j2 => simpa [List.replicate] using ih j2 (by omega)

theorem mset_mset_self {α : Type} (m : Smap α) (k : String) (x y : α) :
    mset (mset m k x) k y = mset m k y := by
  induction m with
  | nil => simp [mset]
  | cons p rest ih =>
    obtain ⟨k2, v2⟩ := p
    by_cases h : k2 = k <;> simp [mset, h, ih]

theorem mset_fresh {α : Type} (m : Smap α) (k : String) (v : α) (h : mget m k = none) :
    mset m k v = m ++ [(k, v)] := by
  induction m with
  | nil => rfl
  | cons p rest ih =>
    obtain ⟨k2, v2⟩ := p
    by_cases hk : k2 = k
    · rw [hk] at h
      simp at h
    · simp only [mget_cons, hk, if_false] at h
      simp [mset, hk, ih h]

theorem mget_append_none {α : Type} (m1 m2 : Smap α) (k : String)
    (h1 : mget m1 k = none) (h2 : mget m2 k = none) : mget (m1 ++ m2) k = none := by
  induction m1 with
  | nil => simpa using h2
  | cons p rest ih =>
    obtain ⟨k2, v2⟩ := p
    by_cases hk : k2 = k
    · rw [hk] at h1
      simp at h1
    · simp only [mget_cons, hk, if_false] at h1
      simpa [mget, hk] using ih h1

theorem mget_singleton_none {α : Type} (k k2 : String) (v : α) (h : k2 ≠ k) :
    mget [(k2, v)] k = none := by
  simp [mget, h]

/-- The write positions `unflatten` uses: any key of an object, a
canonical index of an array (writes to other positions never occur in the
verified runs). -/
def settable : JVal → String → Prop
  | .obj _, _ => True
  | .arr _, k => (canonIdx? k).isSome = true
  | _, _ => False

theorem settable_container {v : JVal} {k : String} (h : settable v k) :
    isContainer v = true := by
  cases v with
  | arr xs => rfl
  | obj fs => rfl
  | undef => exact h.elim
  | null => exact h.elim
  | bool b => exact h.elim
  | num n => exact h.elim
  | str s => exact h.elim

theorem container_truthy {v : JVal} (h : isContainer v = true) : truthy v = true := by
  cases v <;> simp [isContainer] at h <;> rfl

theorem container_ne_undef {v : JVal} (h : isContainer v = true) : v ≠ .undef := by
  cases v <;> simp [isContainer] at h <;> simp

theorem setProp_container (v : JVal) (k : String) (x : JVal) (h : isContainer v = true) :
    isContainer (v.setProp k x) = true := by
  cases v with
  | arr xs =>
    show isContainer (match canonIdx? k with
      | some i => JVal.arr (listSet xs i x)
      | none => JVal.arr xs) = true
    cases canonIdx? k <;> rfl
  | obj fs => rfl
  | undef => simp [isContainer] at h
  | null => simp [isContainer] at h
  | bool b => simp [isContainer] at h
  | num n => simp [isContainer] at h
  | str s => simp [isContainer] at h

theorem getProp_setProp_same (v : JVal) (k : String) (x : JVal) (h : settable v k) :
    (v.setProp k x).getProp k = x := by
  cases v with
  | obj fs => simp [JVal.setProp, JVal.getProp, mget_mset_self]
  | arr xs =>
    obtain ⟨i, hi⟩ := Option.isSome_iff_exists.1 h
    simp only [JVal.setProp, hi, JVal.getProp]
    unfold listSet
    by_cases hlen : i < xs.length
    · rw [if_pos hlen]
      exact getD_set_self xs i x .undef hlen
    · rw [if_neg hlen]
      have hl : (xs ++ List.replicate (i - xs.length) JVal.undef).length = i := by
        simp
        omega
      have hgd := getD_append_len (xs ++ List.replicate (i - xs.length) JVal.undef) [] x
        JVal.undef
      rw [hl] at hgd
      simpa using hgd
  | undef => exact h.elim
  | null => exact h.elim
  | bool b => exact h.elim
  | num n => exact h.elim
  | str s => exact h.elim

theorem setProp_setProp_same (v : JVal) (k : String) (x y : JVal) (h : settable v k) :
    (v.setProp k x).setProp k y = v.setProp k y := by
  cases v with
  | obj fs => simp [JVal.setProp, mset_mset_self]
  | arr xs =>
    obtain ⟨i, hi⟩ := Option.isSome_iff_exists.1 h
    simp only [JVal.setProp, hi]
    have hgoal : listSet (listSet xs i x) i y = listSet xs i y := by
      unfold listSet
      by_cases hlen : i < xs.length
      · have hlen2 : i < (xs.set i x).length := by simpa using hlen
        rw [if_pos hlen, if_pos hlen2, if_pos hlen, List.set_set]
      · have hl : (xs ++ List.replicate (i - xs.length) JVal.undef).length = i := by
          simp
          omega
        have hlen3 : i < ((xs ++ List.replicate (i - xs.length) JVal.undef) ++ [x]).length := by
          simp
          omega
        rw [if_neg hlen, if_pos hlen3]
        have hset := set_append_last (xs ++ List.replicate (i - xs.length) JVal.undef) x y
        rw [hl] at hset
        rw [hset, if_neg hlen]
    rw [hgoal]
  | undef => exact h.elim
  | null => exact h.elim
  | bool b => exact h.elim
  | num n => exact h.elim
  | str s => exact h.elim

theorem getProp_setProp_other (v : JVal) (k k2 : String) (x : JVal) (h : settable v k)
    (hne : k2 ≠ k) : (v.setProp k x).getProp k2 = v.getProp k2 := by
  cases v with
  | obj fs =>
    simp [JVal.setProp, JVal.getProp, mget_mset_other fs k k2 x (fun hc => hne hc.symm)]
  | arr xs =>
    obtain ⟨i, hi⟩ := Option.isSome_iff_exists.1 h
    simp only [JVal.setProp, hi, JVal.getProp]
    rcases hj : canonIdx? k2 with _ | j
    · rfl
    · have hij : i ≠ j := by
        intro hc
        apply hne
        rw [canonIdx?_eq_natStr k2 j hj, canonIdx?_eq_natStr k i hi, hc]
      show (listSet xs i x).getD j .undef = xs.getD j .undef
      unfold listSet
      by_cases hlen : i < xs.length
      · rw [if_pos hlen]
        exact getD_set_other xs i j x .undef hij
      · rw [if_neg hlen]
        by_cases hjl : j < xs.length
        · rw [List.append_assoc]
          exact getD_append_lt xs _ j .undef hjl
        · rw [getD_ge_length xs j .undef (by omega)]
          rw [List.append_assoc,
            getD_append_ge xs (List.replicate (i - xs.length) JVal.undef ++ [x]) j .undef
              (by omega)]
          by_cases hji : j < i
          · rw [getD_append_lt _ [x] _ .undef (by simp; omega)]
            exact getD_replicate_mem _ _ _ _ (by omega)
          · rw [getD_ge_length]
            simp
            omega
  | undef => exact h.elim
  | null => exact h.elim
  | bool b => exact h.elim
  | num n => exact h.elim
  | str s => exact h.elim

theorem empty_getProp (k : String) :
    (JVal.obj []).getProp k = .undef ∧ (JVal.arr []).getProp k = .undef := by
  constructor
  · rfl
  · show (match canonIdx? k with
      | some i => ([] : List JVal).getD i .undef
      | none => JVal.undef) = JVal.undef
    cases canonIdx? k with
    | none => rfl
    | some i => cases i <;> rfl

/-! C3, part 3: one-hole contexts for the write spine.  `unflatten`
mutates `result` through the alias returned by `Data.find`; functionally,
every such write happens at the end of a chain of enclosing containers.
`plug` re-seats a subtree through that chain, and the lemmas below convert
the path-indexed primitives (`dataFindLoop`, `walkPath`, `replaceAt`,
`setAtPath`) into subtree operations. -/

structure Frame where
  node : JVal
  key : String

def plug : List Frame → JVal → JVal
  | [], c => c
  | f :: fs, c => f.node.setProp f.key (plug fs c)

def frameKeys (fs : List Frame) : List String := fs.map Frame.key

def GoodFrame (f : Frame) : Prop :=
  settable f.node f.key ∧ convKey f.key = f.key

def GoodFrames (fs : List Frame) : Prop := ∀ f ∈ fs, GoodFrame f

theorem goodFrames_nil : GoodFrames [] := by
  intro f hf
  simp at hf

theorem goodFrames_append {fs gs : List Frame} (h1 : GoodFrames fs) (h2 : GoodFrames gs) :
    GoodFrames (fs ++ gs) := by
  intro f hf
  rcases List.mem_append.1 hf with h | h
  · exact h1 f h
  · exact h2 f h

theorem plug_append (fs gs : List Frame) (c : JVal) :
    plug (fs ++ gs) c = plug fs (plug gs c) := by
  induction fs with
  | nil => rfl
  | cons f fs ih => simp [plug, ih]

theorem frameKeys_append (fs gs : List Frame) :
    frameKeys (fs ++ gs) = frameKeys fs ++ frameKeys gs := by
  simp [frameKeys]

theorem plug_container (fs : List Frame) (c : JVal) (hg : GoodFrames fs)
    (hc : isContainer c = true) : isContainer (plug fs c) = true := by
  induction fs with
  | nil => exact hc
  | cons f fs ih =>
    have hgf := hg f (List.mem_cons_self f fs)
    exact setProp_container f.node f.key _ (settable_container hgf.1)

theorem dataFindLoop_plug (fs : List Frame) (c : JVal) (hg : GoodFrames fs)
    (hc : isContainer c = true) : dataFindLoop (plug fs c) (frameKeys fs) = c := by
  induction fs with
  | nil => rfl
  | cons f fs ih =>
    have hgf := hg f (List.mem_cons_self f fs)
    have hg' : GoodFrames fs := fun x hx => hg x (List.mem_cons_of_mem f hx)
    show dataFindLoop (f.node.setProp f.key (plug fs c)) (f.key :: frameKeys fs) = c
    unfold dataFindLoop
    rw [if_neg (container_ne_undef (setProp_container f.node f.key _
      (settable_container hgf.1)))]
    simp only [hgf.2, getProp_setProp_same f.node f.key _ hgf.1]
    rw [if_pos (plug_container fs c hg' hc)]
    exact ih hg'

theorem walkPath_plug (fs : List Frame) (c : JVal) (hg : GoodFrames fs) :
    walkPath (plug fs c) (frameKeys fs) = c := by
  induction fs generalizing c with
  | nil => rfl
  | cons f fs ih =>
    have hgf := hg f (List.mem_cons_self f fs)
    have hg' : GoodFrames fs := fun x hx => hg x (List.mem_cons_of_mem f hx)
    show walkPath (f.node.setProp f.key (plug fs c)) (f.key :: frameKeys fs) = c
    unfold walkPath
    rw [hgf.2, getProp_setProp_same f.node f.key _ hgf.1]
    exact ih c hg'

theorem replaceAt_plug (fs : List Frame) (c y : JVal) (hg : GoodFrames fs) :
    replaceAt (plug fs c) (frameKeys fs) y = plug fs y := by
  induction fs generalizing c y with
  | nil => rfl
  | cons f fs ih =>
    have hgf := hg f (List.mem_cons_self f fs)
    have hg' : GoodFrames fs := fun x hx => hg x (List.mem_cons_of_mem f hx)
    show replaceAt (f.node.setProp f.key (plug fs c)) (f.key :: frameKeys fs) y = _
    unfold replaceAt
    rw [hgf.2, getProp_setProp_same f.node f.key _ hgf.1,
      setProp_setProp_same f.node f.key _ _ hgf.1, ih c y hg']
    rfl

theorem setAtPath_plug (fs : List Frame) (c : JVal) (k : String) (x : JVal)
    (hg : GoodFrames fs) :
    setAtPath (plug fs c) (frameKeys fs) k x = plug fs (c.setProp k x) := by
  unfold setAtPath
  rw [walkPath_plug fs c hg, replaceAt_plug fs c _ hg]

/-- `findValue` returns its first lookup untouched when that lookup hits a
defined value (the `do … while` exits after one iteration). -/
theorem findValueLoop_found (obj : JVal) (fuel : Nat) (path : List String)
    (h : dataFindLoop obj path ≠ .undef) :
    findValueLoop obj false (fuel + 1) path 0 = (dataFindLoop obj path, path) := by
  unfold findValueLoop
  simp [h]

/-! C3, part 4: the shape discipline (`Fits`) a path must satisfy against
the current partial result, the functional rendering of one `unflatten`
insertion (`insertClean`), and the bridge showing the source's loop
computes exactly that insertion. -/

/-- The default container `unflatten` creates ahead of a segment:
`keys[i+1]` matching `/^\[(\d+)\]$/` selects `[]`, otherwise `{}`. -/
def segDefv : Seg → JVal
  | .key _ => .obj []
  | .idx _ => .arr []

/-- The container kind a segment addresses. -/
def KindFit : JVal → Seg → Prop
  | .obj _, .key _ => True
  | .arr _, .idx _ => True
  | _, _ => False

/-- A path fits a container when every existing node along it is a
container of the matching kind (missing nodes are fine: the loop creates
them). -/
def Fits : JVal → List Seg → Prop
  | _, [] => True
  | c, s :: rest =>
    KindFit c s ∧
      (rest = [] ∨ c.getProp (convSeg s) = .undef ∨ Fits (c.getProp (convSeg s)) rest)

/-- One whole-key insertion, structurally: reuse or create the spine
containers, then write the leaf. -/
def insertClean : JVal → List Seg → JVal → JVal
  | c, [], _ => c
  | c, [s], v => c.setProp (convSeg s) v
  | c, s :: s2 :: rest, v =>
    let cur := c.getProp (convSeg s)
    let base := if truthy cur then cur else segDefv s2
    c.setProp (convSeg s) (insertClean base (s2 :: rest) v)

/-- The container in which the leaf write lands. -/
def spineTarget : JVal → List Seg → JVal
  | c, [] => c
  | c, [_] => c
  | c, s :: s2 :: rest =>
    let cur := c.getProp (convSeg s)
    let base := if truthy cur then cur else segDefv s2
    spineTarget base (s2 :: rest)

/-- The enclosing-container chain of the leaf write. -/
def spineFrames : JVal → List Seg → List Frame
  | _, [] => []
  | _, [_] => []
  | c, s :: s2 :: rest =>
    let cur := c.getProp (convSeg s)
    let base := if truthy cur then cur else segDefv s2
    ⟨c, convSeg s⟩ :: spineFrames base (s2 :: rest)

theorem kindFit_container {c : JVal} {s : Seg} (h : KindFit c s) : isContainer c = true := by
  cases c <;> cases s <;> first | rfl | exact h.elim

theorem kindFit_settable {c : JVal} {s : Seg} (h : KindFit c s) : settable c (convSeg s) := by
  cases c with
  | obj fs => trivial
  | arr xs =>
    cases s with
    | key t => exact h.elim
    | idx n =>
      show (canonIdx? (natStr n)).isSome = true
      rw [canonIdx?_natStr]
      rfl
  | undef => exact h.elim
  | null => exact h.elim
  | bool b => exact h.elim
  | num n => exact h.elim
  | str t => exact h.elim

theorem kindFit_defv (s : Seg) : KindFit (segDefv s) s := by
  cases s <;> trivial

theorem kindFit_defv_of_kind {a b : Seg} (h : segKindIdx a = segKindIdx b) :
    KindFit (segDefv a) b := by
  cases a <;> cases b <;> trivial

theorem segDefv_container (s : Seg) : isContainer (segDefv s) = true := by
  cases s <;> rfl

theorem segDefv_getProp (s : Seg) (k : String) : (segDefv s).getProp k = .undef := by
  cases s with
  | key t => exact (empty_getProp k).1
  | idx n => exact (empty_getProp k).2

theorem fits_step {c : JVal} {s s2 : Seg} {rest : List Seg} (h : Fits c (s :: s2 :: rest)) :
    KindFit c s ∧
      isContainer (if truthy (c.getProp (convSeg s)) then c.getProp (convSeg s)
        else segDefv s2) = true ∧
      Fits (if truthy (c.getProp (convSeg s)) then c.getProp (convSeg s) else segDefv s2)
        (s2 :: rest) := by
  obtain ⟨hk, hrest⟩ := h
  refine ⟨hk, ?_⟩
  rcases hrest with hnil | hundef | hfits
  · exact absurd hnil (by simp)
  · rw [hundef]
    rw [show truthy JVal.undef = false from rfl]
    simp only [Bool.false_eq_true, if_false]
    exact ⟨segDefv_container s2, kindFit_defv s2, Or.inr (Or.inl (segDefv_getProp s2 _))⟩
  · have hcont : isContainer (c.getProp (convSeg s)) = true := kindFit_container hfits.1
    rw [container_truthy hcont]
    simp only [if_true]
    exact ⟨hcont, hfits⟩

theorem insertClean_cons2 (c : JVal) (s s2 : Seg) (rest : List Seg) (v : JVal) :
    insertClean c (s :: s2 :: rest) v =
      c.setProp (convSeg s)
        (insertClean (if truthy (c.getProp (convSeg s)) then c.getProp (convSeg s)
          else segDefv s2) (s2 :: rest) v) := rfl

theorem insertClean_container (c : JVal) (ss : List Seg) (v : JVal)
    (hc : isContainer c = true) : isContainer (insertClean c ss v) = true := by
  cases ss with
  | nil => exact hc
  | cons s rest =>
    cases rest with
    | nil => exact setProp_container c (convSeg s) v hc
    | cons s2 rest' => exact setProp_container c (convSeg s) _ hc

theorem insertClean_shape (c : JVal) (x : Seg) (p' : List Seg) (v : JVal) :
    ∃ z, insertClean c (x :: p') v = c.setProp (convSeg x) z := by
  cases p' with
  | nil => exact ⟨v, rfl⟩
  | cons s2 rest => exact ⟨_, rfl⟩

theorem getLast?_map {α β : Type} (f : α → β) (l : List α) :
    (l.map f).getLast? = (l.getLast?).map f := by
  induction l with
  | nil => rfl
  | cons a t ih =>
    cases t with
    | nil => rfl
    | cons b t' =>
      show ((f a) :: (f b) :: t'.map f).getLast? = ((a :: b :: t').getLast?).map f
      rw [List.getLast?_cons_cons, List.getLast?_cons_cons]
      exact ih

theorem insertClean_eq_plug :
    ∀ (ss : List Seg) (slast : Seg) (c v : JVal), ss.getLast? = some slast →
      plug (spineFrames c ss) ((spineTarget c ss).setProp (convSeg slast) v) =
        insertClean c ss v := by
  intro ss
  induction ss with
  | nil =>
    intro slast c v h
    simp at h
  | cons s rest ih =>
    intro slast c v h
    cases rest with
    | nil =>
      have hs : s = slast := by simpa using h
      subst hs
      rfl
    | cons s2 rest' =>
      have h2 : (s2 :: rest').getLast? = some slast := by
        rw [← h, List.getLast?_cons_cons]
      have hF : spineFrames c (s :: s2 :: rest') =
          ⟨c, convSeg s⟩ :: spineFrames (if truthy (c.getProp (convSeg s))
            then c.getProp (convSeg s) else segDefv s2) (s2 :: rest') := rfl
      have hT : spineTarget c (s :: s2 :: rest') =
          spineTarget (if truthy (c.getProp (convSeg s)) then c.getProp (convSeg s)
            else segDefv s2) (s2 :: rest') := rfl
      rw [hF, hT, insertClean_cons2]
      show JVal.setProp c (convSeg s) (plug _ _) = _
      rw [ih slast _ v h2]

/-- `keys[i+1]`'s array test selects exactly `segDefv`. -/
theorem defv_render (s2 : Seg) (h : segOk s2 = true) :
    (if renderSeg s2 ≠ "" ∧ (idxDigits? (renderSeg s2)).isSome then JVal.arr []
      else JVal.obj []) = segDefv s2 := by
  cases s2 with
  | key t =>
    have hk : wfKey t = true := by simpa [segOk] using h
    rw [if_neg]
    · rfl
    · intro hc
      rw [show renderSeg (.key t) = t from rfl, idxDigits?_key t hk] at hc
      simp at hc
  | idx n =>
    rw [if_pos ⟨render_ne_empty _ h, by rw [idxDigits?_render]; rfl⟩]
    rfl

theorem unflatLoop_cons2 (result : JVal) (path : List String) (curr next : String)
    (rest : List String) :
    unflatLoop result path (curr :: next :: rest) =
      (if truthy (dataFindLoop result path) ∧ ¬ isContainer (dataFindLoop result path) then
        .error ("Element is not an object in " ++ joinSl path)
      else
        unflatLoop (orAssign result path (dataFindLoop result path) (convKey curr)
          (if next ≠ "" ∧ (idxDigits? next).isSome then JVal.arr [] else JVal.obj []))
          (path ++ [convKey curr]) (next :: rest)) := rfl

/-- The `for` loop of `unflatten` on a rendered, fitting path: it runs
without error and its net effect is to ensure the spine containers,
leaving the result re-expressed through one extra frame per segment. -/
theorem bridgeLoop :
    ∀ (ss : List Seg) (c : JVal) (K : List Frame),
      GoodFrames K → isContainer c = true → Fits c ss → segsOk ss = true → ss ≠ [] →
      unflatLoop (plug K c) (frameKeys K) (ss.map renderSeg) =
          .ok (plug (K ++ spineFrames c ss) (spineTarget c ss),
            frameKeys (K ++ spineFrames c ss)) ∧
        GoodFrames (K ++ spineFrames c ss) ∧
        isContainer (spineTarget c ss) = true ∧
        ∀ slast, ss.getLast? = some slast → KindFit (spineTarget c ss) slast := by
  intro ss
  induction ss with
  | nil =>
    intro c K _ _ _ _ hne
    exact absurd rfl hne
  | cons s rest ih =>
    intro c K hK hc hf hok hne
    cases rest with
    | nil =>
      refine ⟨?_, ?_, hc, ?_⟩
      · rw [show spineFrames c [s] = [] from rfl, List.append_nil]
        rfl
      · rw [show spineFrames c [s] = [] from rfl, List.append_nil]
        exact hK
      · intro slast h
        have hs : s = slast := by simpa using h
        subst hs
        exact hf.1
    | cons s2 rest' =>
      have hs : segOk s = true := segsOk_mem hok (List.mem_cons_self _ _)
      have hs2 : segOk s2 = true := segsOk_mem hok (by simp)
      have hok' : segsOk (s2 :: rest') = true := by
        rw [segsOk, List.all_eq_true] at hok ⊢
        exact fun x hx => hok x (List.mem_cons_of_mem s hx)
      obtain ⟨hkf, hbase_cont, hbase_fits⟩ := fits_step hf
      set base := if truthy (c.getProp (convSeg s)) then c.getProp (convSeg s)
        else segDefv s2 with hbase
      have hfind : dataFindLoop (plug K c) (frameKeys K) = c := dataFindLoop_plug K c hK hc
      have hstep := unflatLoop_cons2 (plug K c) (frameKeys K) (renderSeg s) (renderSeg s2)
        (rest'.map renderSeg)
      rw [hfind, if_neg (fun hcontra => hcontra.2 hc), convKey_renderSeg s hs,
        defv_render s2 hs2] at hstep
      have hor : orAssign (plug K c) (frameKeys K) c (convSeg s) (segDefv s2) =
          plug K (c.setProp (convSeg s) base) := by
        unfold orAssign
        rw [if_pos (container_truthy hc), setAtPath_plug K c _ _ hK, hbase]
      rw [hor] at hstep
      have hframe : GoodFrame ⟨c, convSeg s⟩ := ⟨kindFit_settable hkf, convKey_convSeg s hs⟩
      have hK2 : GoodFrames (K ++ [⟨c, convSeg s⟩]) :=
        goodFrames_append hK (fun f hf2 => (List.mem_singleton.1 hf2) ▸ hframe)
      have hplug2 : plug K (c.setProp (convSeg s) base) = plug (K ++ [⟨c, convSeg s⟩]) base := by
        rw [plug_append]
        rfl
      have hkeys2 : frameKeys K ++ [convSeg s] = frameKeys (K ++ [⟨c, convSeg s⟩]) := by
        rw [frameKeys_append]
        rfl
      rw [hplug2, hkeys2] at hstep
      obtain ⟨ihl, ihg, ihc, ihk⟩ := ih base (K ++ [⟨c, convSeg s⟩]) hK2 hbase_cont hbase_fits
        hok' (by simp)
      have hSF : spineFrames c (s :: s2 :: rest') =
          ⟨c, convSeg s⟩ :: spineFrames base (s2 :: rest') := by
        rw [hbase]
        rfl
      have hST : spineTarget c (s :: s2 :: rest') = spineTarget base (s2 :: rest') := by
        rw [hbase]
        rfl
      have happ : K ++ (⟨c, convSeg s⟩ :: spineFrames base (s2 :: rest')) =
          (K ++ [⟨c, convSeg s⟩]) ++ spineFrames base (s2 :: rest') := by
        simp
      refine ⟨?_, ?_, ?_, ?_⟩
      · rw [show (s :: s2 :: rest').map renderSeg =
          renderSeg s :: renderSeg s2 :: rest'.map renderSeg from rfl, hstep, hSF, hST, happ]
        exact ihl
      · rw [hSF, happ]
        exact ihg
      · rw [hST]
        exact ihc
      · intro slast hl
        rw [hST]
        exact ihk slast (by rw [← hl, List.getLast?_cons_cons])

/-- One full `unflatten` iteration on a rendered, fitting key performs
exactly the clean insertion. -/
theorem unflatKey_insert (R : JVal) (p : List Seg) (v : JVal) (slast : Seg)
    (hlast : p.getLast? = some slast) (hR : isContainer R = true) (hf : Fits R p)
    (hok : segsOk p = true) (hne : p ≠ []) :
    unflatKey R (renderPath p) v = .ok (insertClean R p v) := by
  obtain ⟨hloop0, hgood0, hTcont, hkindAll⟩ := bridgeLoop p R [] goodFrames_nil hR hf hok hne
  have hkind := hkindAll slast hlast
  have hgood : GoodFrames (spineFrames R p) := hgood0
  have hloop : unflatLoop R [] (p.map renderSeg) =
      .ok (plug (spineFrames R p) (spineTarget R p), frameKeys (spineFrames R p)) := hloop0
  have hfind2 : dataFindLoop (plug (spineFrames R p) (spineTarget R p))
      (frameKeys (spineFrames R p)) = spineTarget R p :=
    dataFindLoop_plug _ _ hgood hTcont
  have hkeys : jsSplitSl (renderPath p) = p.map renderSeg := jsSplitSl_renderPath p hne hok
  have hfv : dataFindValue (frameKeys (spineFrames R p))
      (plug (spineFrames R p) (spineTarget R p)) false =
      (spineTarget R p, frameKeys (spineFrames R p)) := by
    unfold dataFindValue
    rw [findValueLoop_found _ _ _ (by rw [hfind2]; exact container_ne_undef hTcont), hfind2]
  have hlastkey : (p.map renderSeg).getLast? = some (renderSeg slast) := by
    rw [getLast?_map, hlast]
    rfl
  have hins := insertClean_eq_plug p slast R v hlast
  unfold unflatKey
  rw [hkeys]
  simp only []
  rw [hloop]
  show (match dataFindValue (frameKeys (spineFrames R p))
      (plug (spineFrames R p) (spineTarget R p)) false with
    | (value, vpath) =>
      match value with
      | .arr _ =>
        match idxDigits? (((p.map renderSeg).getLast?).getD "") with
        | some ds => pure (setAtPath (plug (spineFrames R p) (spineTarget R p)) vpath
            (natStr (parseDigits ds)) v)
        | none => pure (setAtPath (plug (spineFrames R p) (spineTarget R p)) vpath
            (((p.map renderSeg).getLast?).getD "") v)
      | .obj _ => pure (setAtPath (plug (spineFrames R p) (spineTarget R p)) vpath
          (((p.map renderSeg).getLast?).getD "") v)
      | .null => .error "TypeError: cannot set a property of null"
      | _ =>
        match dataFindValue (p.map renderSeg).dropLast.dropLast
            (plug (spineFrames R p) (spineTarget R p)) true with
        | (v2, p2) =>
          match v2 with
          | .arr _ => pure (setAtPath (plug (spineFrames R p) (spineTarget R p)) p2
              (jsSliceFrom (renderPath p) ((joinSl p2).data.length + 1)) v)
          | .obj _ => pure (setAtPath (plug (spineFrames R p) (spineTarget R p)) p2
              (jsSliceFrom (renderPath p) ((joinSl p2).data.length + 1)) v)
          | .null => .error "TypeError: cannot set a property of null"
          | _ => .error ("Value key not found: " ++ (((p.map renderSeg).getLast?).getD "") ++
              " => " ++ joinSl (p.map renderSeg).dropLast)) =
    Except.ok (insertClean R p v)
  rw [hfv]
  show (match spineTarget R p with
    | .arr _ =>
      match idxDigits? (((p.map renderSeg).getLast?).getD "") with
      | some ds => pure (setAtPath (plug (spineFrames R p) (spineTarget R p))
          (frameKeys (spineFrames R p)) (natStr (parseDigits ds)) v)
      | none => pure (setAtPath (plug (spineFrames R p) (spineTarget R p))
          (frameKeys (spineFrames R p)) (((p.map renderSeg).getLast?).getD "") v)
    | .obj _ => pure (setAtPath (plug (spineFrames R p) (spineTarget R p))
        (frameKeys (spineFrames R p)) (((p.map renderSeg).getLast?).getD "") v)
    | .null => .error "TypeError: cannot set a property of null"
    | _ =>
      match dataFindValue (p.map renderSeg).dropLast.dropLast
          (plug (spineFrames R p) (spineTarget R p)) true with
      | (v2, p2) =>
        match v2 with
        | .arr _ => pure (setAtPath (plug (spineFrames R p) (spineTarget R p)) p2
            (jsSliceFrom (renderPath p) ((joinSl p2).data.length + 1)) v)
        | .obj _ => pure (setAtPath (plug (spineFrames R p) (spineTarget R p)) p2
            (jsSliceFrom (renderPath p) ((joinSl p2).data.length + 1)) v)
        | .null => .error "TypeError: cannot set a property of null"
        | _ => .error ("Value key not found: " ++ (((p.map renderSeg).getLast?).getD "") ++
            " => " ++ joinSl (p.map renderSeg).dropLast)) =
    Except.ok (insertClean R p v)
  rw [hlastkey]
  simp only [Option.getD_some]
  rcases hTv : spineTarget R p with _ | _ | b | nn | st | xs | fs
  · rw [hTv] at hTcont
    simp [isContainer] at hTcont
  · rw [hTv] at hTcont
    simp [isContainer] at hTcont
  · rw [hTv] at hTcont
    simp [isContainer] at hTcont
  · rw [hTv] at hTcont
    simp [isContainer] at hTcont
  · rw [hTv] at hTcont
    simp [isContainer] at hTcont
  · rw [hTv] at hkind
    cases slast with
    | key t => exact hkind.elim
    | idx n =>
      show (match idxDigits? (renderSeg (.idx n)) with
        | some ds => pure (setAtPath (plug (spineFrames R p) (JVal.arr xs))
            (frameKeys (spineFrames R p)) (natStr (parseDigits ds)) v)
        | none => pure (setAtPath (plug (spineFrames R p) (JVal.arr xs))
            (frameKeys (spineFrames R p)) (renderSeg (.idx n)) v)) =
        Except.ok (insertClean R p v)
      rw [idxDigits?_render]
      show Except.ok (setAtPath (plug (spineFrames R p) (JVal.arr xs))
          (frameKeys (spineFrames R p)) (natStr (parseDigits (natChars n))) v) =
        Except.ok (insertClean R p v)
      rw [parseDigits_natChars, setAtPath_plug _ _ _ _ hgood, ← hins, hTv]
      rfl
  · rw [hTv] at hkind
    cases slast with
    | idx n => exact hkind.elim
    | key t =>
      show Except.ok (setAtPath (plug (spineFrames R p) (JVal.obj fs))
          (frameKeys (spineFrames R p)) (renderSeg (.key t)) v) =
        Except.ok (insertClean R p v)
      rw [setAtPath_plug _ _ _ _ hgood, ← hins, hTv]
      rfl

/-! C3, part 5: preservation.  Distinct leaves of one tree diverge at
sibling segments of the same kind (`Compat`); insertions along compatible
paths preserve both earlier leaves (`WalkTo`) and the fit of later
paths. -/

/-- Two leaf paths are compatible when they diverge at segments of the
same kind, as the paths of two distinct leaves of one tree always do. -/
def Compat : List Seg → List Seg → Prop
  | [], _ => False
  | _ :: _, [] => False
  | x :: p', y :: q' => (x = y ∧ Compat p' q') ∨ (x ≠ y ∧ segKindIdx x = segKindIdx y)

theorem compat_symm : ∀ {p q : List Seg}, Compat p q → Compat q p := by
  intro p
  induction p with
  | nil => intro q h; exact h.elim
  | cons x p' ih =>
    intro q h
    cases q with
    | nil => exact h.elim
    | cons y q' =>
      rcases h with ⟨rfl, hc⟩ | ⟨hne, hk⟩
      · exact Or.inl ⟨rfl, ih hc⟩
      · exact Or.inr ⟨fun hc => hne hc.symm, hk.symm⟩

theorem dataFindLoop_cons (acc : JVal) (key : String) (rest : List String) :
    dataFindLoop acc (key :: rest) =
      if acc = .undef then .undef
      else if isContainer (acc.getProp (convKey key)) then
        dataFindLoop (acc.getProp (convKey key)) rest
      else acc.getProp (convKey key) := rfl

/-- A committed walk: every spine node exists and is a container, and the
leaf slot holds `w`. -/
def WalkTo : JVal → List Seg → JVal → Prop
  | _, [], _ => False
  | c, [s], w => c ≠ .undef ∧ c.getProp (convSeg s) = w
  | c, s :: s2 :: rest, w =>
    c ≠ .undef ∧ isContainer (c.getProp (convSeg s)) = true ∧
      WalkTo (c.getProp (convSeg s)) (s2 :: rest) w

theorem segsOk_tail {s : Seg} {rest : List Seg} (h : segsOk (s :: rest) = true) :
    segsOk rest = true := by
  rw [segsOk, List.all_eq_true] at h ⊢
  exact fun x hx => h x (List.mem_cons_of_mem s hx)

/-- A committed walk is what `Data.find` computes on the rendered key. -/
theorem walkTo_find :
    ∀ (p : List Seg) (c w : JVal), segsOk p = true →
      WalkTo c p w → dataFindLoop c (p.map renderSeg) = w := by
  intro p
  induction p with
  | nil => intro c w _ h; exact h.elim
  | cons s rest ih =>
    intro c w hok h
    have hss : segOk s = true := segsOk_mem hok (List.mem_cons_self _ _)
    cases rest with
    | nil =>
      obtain ⟨hne, hget⟩ := h
      show dataFindLoop c [renderSeg s] = w
      rw [dataFindLoop_cons, if_neg hne, convKey_renderSeg s hss, hget]
      split <;> rfl
    | cons s2 rest' =>
      obtain ⟨hne, hcont, hwalk⟩ := h
      show dataFindLoop c (renderSeg s :: (s2 :: rest').map renderSeg) = w
      rw [dataFindLoop_cons, if_neg hne, convKey_renderSeg s hss, if_pos hcont]
      exact ih _ _ (segsOk_tail hok) hwalk

/-- Inserting a leaf commits its own walk. -/
theorem walkTo_insertClean :
    ∀ (p : List Seg) (c v : JVal), isContainer c = true → Fits c p → p ≠ [] →
      WalkTo (insertClean c p v) p v := by
  intro p
  induction p with
  | nil => intro c v _ _ hne; exact absurd rfl hne
  | cons s rest ih =>
    intro c v hc hf hne
    cases rest with
    | nil =>
      show WalkTo (c.setProp (convSeg s) v) [s] v
      exact ⟨container_ne_undef (setProp_container c _ _ hc),
        getProp_setProp_same c _ v (kindFit_settable hf.1)⟩
    | cons s2 rest' =>
      obtain ⟨hkf, hbc, hbf⟩ := fits_step hf
      rw [insertClean_cons2]
      refine ⟨container_ne_undef (setProp_container c _ _ hc), ?_, ?_⟩
      · rw [getProp_setProp_same c _ _ (kindFit_settable hkf)]
        exact insertClean_container _ _ _ hbc
      · rw [getProp_setProp_same c _ _ (kindFit_settable hkf)]
        exact ih _ v hbc hbf (by simp)

theorem kindFit_setProp {c : JVal} {s : Seg} (k : String) (z : JVal) (h : KindFit c s) :
    KindFit (c.setProp k z) s := by
  cases c with
  | obj fs =>
    cases s with
    | key t => trivial
    | idx n => exact h.elim
  | arr xs =>
    cases s with
    | idx n =>
      show KindFit (match canonIdx? k with
        | some i => JVal.arr (listSet xs i z)
        | none => JVal.arr xs) (.idx n)
      cases canonIdx? k <;> trivial
    | key t => exact h.elim
  | undef => exact h.elim
  | null => exact h.elim
  | bool b => exact h.elim
  | num n => exact h.elim
  | str t => exact h.elim

/-- Inserting one leaf preserves the committed walks of leaves on
compatible paths. -/
theorem walkTo_preserve :
    ∀ (p q : List Seg) (c w v : JVal), isContainer c = true → Fits c p →
      segsOk p = true → segsOk q = true → Compat p q → WalkTo c q w →
      WalkTo (insertClean c p v) q w := by
  intro p
  induction p with
  | nil => intro q c w v _ _ _ _ hcomp _; exact hcomp.elim
  | cons x p' ih =>
    intro q c w v hc hf hokp hokq hcomp hw
    cases q with
    | nil => exact hw.elim
    | cons y q' =>
      rcases hcomp with ⟨rfl, hcc⟩ | ⟨hne, hk⟩
      · -- shared head
        cases p' with
        | nil => exact hcc.elim
        | cons p1 p'' =>
          cases q' with
          | nil => exact hcc.elim
          | cons q1 q'' =>
            obtain ⟨hneU, hcont, hwalk⟩ := hw
            obtain ⟨hkf, hbc, hbf⟩ := fits_step hf
            have hbase_eq : (if truthy (c.getProp (convSeg x)) then c.getProp (convSeg x)
                else segDefv p1) = c.getProp (convSeg x) := by
              rw [container_truthy hcont]
              simp
            rw [hbase_eq] at hbc hbf
            rw [insertClean_cons2, hbase_eq]
            refine ⟨container_ne_undef (setProp_container c _ _ hc), ?_, ?_⟩
            · rw [getProp_setProp_same c _ _ (kindFit_settable hkf)]
              exact insertClean_container _ _ _ hcont
            · rw [getProp_setProp_same c _ _ (kindFit_settable hkf)]
              exact ih (q1 :: q'') _ w v hcont hbf (segsOk_tail hokp) (segsOk_tail hokq)
                hcc hwalk
      · -- divergent heads: the walk reads an untouched sibling slot
        have hx : segOk x = true := segsOk_mem hokp (List.mem_cons_self _ _)
        have hy : segOk y = true := segsOk_mem hokq (List.mem_cons_self _ _)
        have hsettable := kindFit_settable hf.1
        have hconv : convSeg y ≠ convSeg x :=
          fun h2 => hne (convSeg_inj y x hy hx h2).symm
        obtain ⟨z, hz⟩ := insertClean_shape c x p' v
        rw [hz]
        cases q' with
        | nil =>
          obtain ⟨hneU, hget⟩ := hw
          exact ⟨container_ne_undef (setProp_container c _ _ hc),
            by rw [getProp_setProp_other c _ _ _ hsettable hconv]; exact hget⟩
        | cons q1 q'' =>
          obtain ⟨hneU, hcont, hwalk⟩ := hw
          refine ⟨container_ne_undef (setProp_container c _ _ hc), ?_, ?_⟩
          · rw [getProp_setProp_other c _ _ _ hsettable hconv]
            exact hcont
          · rw [getProp_setProp_other c _ _ _ hsettable hconv]
            exact hwalk

/-- Inserting one leaf preserves the fit of compatible later paths. -/
theorem fits_preserve :
    ∀ (p q : List Seg) (c v : JVal), isContainer c = true → Fits c p → Fits c q →
      segsOk p = true → segsOk q = true → Compat p q → Fits (insertClean c p v) q := by
  intro p
  induction p with
  | nil => intro q c v _ _ _ _ _ hcomp; exact hcomp.elim
  | cons x p' ih =>
    intro q c v hc hfp hfq hokp hokq hcomp
    cases q with
    | nil => exact hcomp.elim
    | cons y q' =>
      rcases hcomp with ⟨rfl, hcc⟩ | ⟨hne, hk⟩
      · -- shared head
        cases p' with
        | nil => exact hcc.elim
        | cons p1 p'' =>
          cases q' with
          | nil => exact hcc.elim
          | cons q1 q'' =>
            obtain ⟨hkf, hbc, hbf⟩ := fits_step hfp
            rw [insertClean_cons2]
            refine ⟨kindFit_setProp _ _ hfq.1, Or.inr (Or.inr ?_)⟩
            rw [getProp_setProp_same c _ _ (kindFit_settable hkf)]
            rcases hfp.2 with hnil | hundef | hfcur
            · exact absurd hnil (by simp)
            · -- fresh spine under this node
              have hbase_eq : (if truthy (c.getProp (convSeg x)) then c.getProp (convSeg x)
                  else segDefv p1) = segDefv p1 := by
                rw [hundef]
                rw [show truthy JVal.undef = false from rfl]
                simp
              rw [hbase_eq]
              have hkq1 : KindFit (segDefv p1) q1 := by
                rcases hcc with ⟨rfl, _⟩ | ⟨_, hk2⟩
                · exact kindFit_defv p1
                · exact kindFit_defv_of_kind hk2
              exact ih (q1 :: q'') _ v (segDefv_container p1)
                ⟨kindFit_defv p1, Or.inr (Or.inl (segDefv_getProp p1 _))⟩
                ⟨hkq1, Or.inr (Or.inl (segDefv_getProp p1 _))⟩
                (segsOk_tail hokp) (segsOk_tail hokq) hcc
            · -- existing spine under this node
              have hcont : isContainer (c.getProp (convSeg x)) = true :=
                kindFit_container hfcur.1
              have hbase_eq : (if truthy (c.getProp (convSeg x)) then c.getProp (convSeg x)
                  else segDefv p1) = c.getProp (convSeg x) := by
                rw [container_truthy hcont]
                simp
              rw [hbase_eq]
              have hfqcur : Fits (c.getProp (convSeg x)) (q1 :: q'') := by
                rcases hfq.2 with hnil2 | hundef2 | hfq2
                · exact absurd hnil2 (by simp)
                · rw [hundef2] at hcont
                  simp [isContainer] at hcont
                · exact hfq2
              exact ih (q1 :: q'') _ v hcont hfcur hfqcur (segsOk_tail hokp)
                (segsOk_tail hokq) hcc
      · -- divergent heads
        have hsettable := kindFit_settable hfp.1
        have hx : segOk x = true := segsOk_mem hokp (List.mem_cons_self _ _)
        have hy : segOk y = true := segsOk_mem hokq (List.mem_cons_self _ _)
        have hconv : convSeg y ≠ convSeg x :=
          fun h2 => hne (convSeg_inj y x hy hx h2).symm
        obtain ⟨z, hz⟩ := insertClean_shape c x p' v
        rw [hz]
        refine ⟨kindFit_setProp _ _ hfq.1, ?_⟩
        rcases hfq.2 with hnil | hundef | hfcur
        · exact Or.inl hnil
        · exact Or.inr (Or.inl
            (by rw [getProp_setProp_other c _ _ _ hsettable hconv]; exact hundef))
        · exact Or.inr (Or.inr
            (by rw [getProp_setProp_other c _ _ _ hsettable hconv]; exact hfcur))

theorem getLast?_ne_nil {α : Type} : ∀ (l : List α), l ≠ [] → ∃ a, l.getLast? = some a := by
  intro l
  induction l with
  | nil => intro h; exact absurd rfl h
  | cons a t ih =>
    intro _
    cases t with
    | nil => exact ⟨a, rfl⟩
    | cons b t' =>
      obtain ⟨x, hx⟩ := ih (by simp)
      exact ⟨x, by rw [List.getLast?_cons_cons]; exact hx⟩

/-- Folding `unflatten`'s per-key step over rendered, pairwise-compatible,
fitting leaf entries succeeds and commits every leaf's walk. -/
theorem unflatten_fold :
    ∀ (L done : List (List Seg × JVal)) (R : JVal), isContainer R = true →
      (∀ a ∈ L, a.1 ≠ [] ∧ segsOk a.1 = true) →
      (∀ a ∈ L, Fits R a.1) →
      (∀ a ∈ done, ∀ b ∈ L, Compat a.1 b.1) →
      (∀ a ∈ done, segsOk a.1 = true) →
      List.Pairwise (fun a b => Compat a.1 b.1) L →
      (∀ a ∈ done, WalkTo R a.1 a.2) →
      ∃ R2, (L.map (fun q => (renderPath q.1, q.2))).foldlM
          (fun r kv => unflatKey r kv.1 kv.2) R = .ok R2 ∧
        isContainer R2 = true ∧
        ∀ a, (a ∈ done ∨ a ∈ L) → WalkTo R2 a.1 a.2 := by
  intro L
  induction L with
  | nil =>
    intro done R hR _ _ _ _ _ hdone
    refine ⟨R, rfl, hR, ?_⟩
    intro a ha
    rcases ha with h | h
    · exact hdone a h
    · simp at h
  | cons q L' ih =>
    intro done R hR hwf hfits hcompDL hokD hpw hdone
    obtain ⟨hne, hok⟩ := hwf q (List.mem_cons_self q L')
    obtain ⟨slast, hlast⟩ := getLast?_ne_nil q.1 hne
    have hfq : Fits R q.1 := hfits q (List.mem_cons_self q L')
    have hrun := unflatKey_insert R q.1 q.2 slast hlast hR hfq hok hne
    have hstep : ((q :: L').map (fun a => (renderPath a.1, a.2))).foldlM
        (fun r kv => unflatKey r kv.1 kv.2) R =
        (L'.map (fun a => (renderPath a.1, a.2))).foldlM
          (fun r kv => unflatKey r kv.1 kv.2) (insertClean R q.1 q.2) := by
      rw [List.map_cons, List.foldlM_cons, hrun]
      rfl
    have hR' : isContainer (insertClean R q.1 q.2) = true := insertClean_container _ _ _ hR
    obtain ⟨R2, hfold, hR2, hwalks⟩ := ih (done ++ [q]) (insertClean R q.1 q.2) hR'
      (fun a ha => hwf a (List.mem_cons_of_mem q ha))
      (fun a ha => fits_preserve q.1 a.1 R q.2 hR hfq
        (hfits a (List.mem_cons_of_mem q ha)) hok (hwf a (List.mem_cons_of_mem q ha)).2
        (List.rel_of_pairwise_cons hpw ha))
      (fun a ha b hb => by
        rcases List.mem_append.1 ha with h | h
        · exact hcompDL a h b (List.mem_cons_of_mem q hb)
        · rw [List.mem_singleton.1 h]
          exact List.rel_of_pairwise_cons hpw hb)
      (fun a ha => by
        rcases List.mem_append.1 ha with h | h
        · exact hokD a h
        · rw [List.mem_singleton.1 h]
          exact hok)
      (List.pairwise_cons.1 hpw).2
      (fun a ha => by
        rcases List.mem_append.1 ha with h | h
        · exact walkTo_preserve q.1 a.1 R a.2 q.2 hR hfq hok (hokD a h)
            (compat_symm (hcompDL a h q (List.mem_cons_self q L'))) (hdone a h)
        · rw [List.mem_singleton.1 h]
          exact walkTo_insertClean q.1 R q.2 hR hfq hne)
    refine ⟨R2, ?_, hR2, ?_⟩
    · rw [hstep]
      exact hfold
    · intro a ha
      apply hwalks
      rcases ha with h | h
      · exact Or.inl (List.mem_append_left _ h)
      · rcases List.mem_cons.1 h with h2 | h2
        · exact Or.inl (List.mem_append_right _ (by rw [h2]; exact List.mem_singleton_self q))
        · exact Or.inr h2

/-! C3, part 6: the leaves of a nested structure and the characterisation
of `Data.flatten` as rendering them in depth-first `for…in` order. -/

mutual

/-- The leaf paths and values of a nested structure, in the order
`flatten` visits them. -/
def leavesV : JVal → List (List Seg × JVal)
  | .obj fs => leavesFs fs
  | .arr xs => leavesAr xs 0
  | _ => []

def leavesFs : List (String × JVal) → List (List Seg × JVal)
  | [] => []
  | (k, v) :: rest =>
    (if isContainer v then (leavesV v).map (fun q => (Seg.key k :: q.1, q.2))
     else [([Seg.key k], v)]) ++ leavesFs rest

def leavesAr : List JVal → Nat → List (List Seg × JVal)
  | [], _ => []
  | v :: rest, i =>
    (if isContainer v then (leavesV v).map (fun q => (Seg.idx i :: q.1, q.2))
     else [([Seg.idx i], v)]) ++ leavesAr rest (i + 1)

end

mutual

/-- Structures whose round trip restores every leaf: no `undefined`
values, object keys safe (`wfKey`) and duplicate-free among siblings. -/
def wfS : JVal → Bool
  | .undef => false
  | .null => true
  | .bool _ => true
  | .num _ => true
  | .str _ => true
  | .arr xs => wfSElems xs
  | .obj fs => wfSFields fs

def wfSElems : List JVal → Bool
  | [] => true
  | v :: rest => wfS v && wfSElems rest

def wfSFields : List (String × JVal) → Bool
  | [] => true
  | (k, v) :: rest => wfKey k && !(mhas rest k) && wfS v && wfSFields rest

end

/-- The amended claim's domain: a well-formed structure with an object at
the top (`unflatten` always rebuilds into an object). -/
def WfStruct : JVal → Bool
  | .obj fs => wfSFields fs
  | _ => false

theorem str_append_assoc (a b c : String) : a ++ b ++ c = a ++ (b ++ c) := by
  apply string_data_inj
  simp [str_data_append, List.append_assoc]

theorem joinSl_cons_cons (t r : String) (rest : List String) :
    joinSl (t :: r :: rest) = t ++ "/" ++ joinSl (r :: rest) := rfl

theorem joinSl_append :
    ∀ (ts us : List String), ts ≠ [] → us ≠ [] →
      joinSl (ts ++ us) = joinSl ts ++ "/" ++ joinSl us := by
  intro ts
  induction ts with
  | nil => intro us h _; exact absurd rfl h
  | cons t ts' ih =>
    intro us _ hus
    cases ts' with
    | nil =>
      cases us with
      | nil => exact absurd rfl hus
      | cons u us' => rfl
    | cons r ts'' =>
      have hih := ih us (by simp) hus
      show joinSl (t :: ((r :: ts'') ++ us)) = joinSl (t :: r :: ts'') ++ "/" ++ joinSl us
      have hcc : joinSl (t :: ((r :: ts'') ++ us)) =
          t ++ "/" ++ joinSl ((r :: ts'') ++ us) := by
        cases us with
        | nil => exact absurd rfl hus
        | cons u us' => rfl
      rw [hcc, hih, joinSl_cons_cons]
      apply string_data_inj
      simp [str_data_append, List.append_assoc]

def extendKey (parent s : String) : String :=
  if parent = "" then s else parent ++ "/" ++ s

theorem renderPath_ne_empty (pp : List Seg) (hne : pp ≠ []) (hok : segsOk pp = true) :
    renderPath pp ≠ "" := by
  cases pp with
  | nil => exact absurd rfl hne
  | cons s rest =>
    cases rest with
    | nil =>
      show joinSl [renderSeg s] ≠ ""
      exact render_ne_empty s (segsOk_mem hok (List.mem_cons_self _ _))
    | cons t rest' =>
      show renderSeg s ++ "/" ++ joinSl (renderSeg t :: rest'.map renderSeg) ≠ ""
      intro hc
      have hdata := congrArg String.data hc
      rw [str_data_append, str_data_append,
        show ("/" : String).data = ['/'] from rfl] at hdata
      simp at hdata

theorem renderPath_append (pp q1 : List Seg) (hok : segsOk pp = true) (hq : q1 ≠ []) :
    extendKey (renderPath pp) (renderPath q1) = renderPath (pp ++ q1) := by
  cases pp with
  | nil =>
    unfold extendKey
    rw [if_pos (show renderPath [] = "" from rfl)]
    rfl
  | cons s pp' =>
    unfold extendKey
    rw [if_neg (renderPath_ne_empty (s :: pp') (by simp) hok)]
    show renderPath (s :: pp') ++ "/" ++ renderPath q1 = renderPath ((s :: pp') ++ q1)
    unfold renderPath
    rw [List.map_append,
      joinSl_append ((s :: pp').map renderSeg) (q1.map renderSeg) (by simp) (by simp [hq])]

theorem segsOk_cons (s : Seg) (p : List Seg) :
    segsOk (s :: p) = (segOk s && segsOk p) := by
  simp [segsOk]

theorem segsOk_append (p q : List Seg) (hp : segsOk p = true) (hq : segsOk q = true) :
    segsOk (p ++ q) = true := by
  rw [segsOk, List.all_eq_true] at hp hq ⊢
  intro x hx
  rcases List.mem_append.1 hx with h | h
  · exact hp x h
  · exact hq x h

theorem mhas_cons_self {α : Type} (k : String) (v : α) (m : Smap α) :
    mhas ((k, v) :: m) k = true := by
  simp [mhas, mget]

theorem mhas_cons_of {α : Type} (k k2 : String) (v : α) (m : Smap α)
    (h : mhas m k = true) : mhas ((k2, v) :: m) k = true := by
  unfold mhas at h ⊢
  simp only [mget_cons]
  by_cases h2 : k2 = k <;> simp [h2, h]

theorem mget_map_none (L : List (List Seg × JVal)) (f : List Seg × JVal → String)
    (k : String) (h : ∀ a ∈ L, f a ≠ k) :
    mget (L.map (fun a => (f a, a.2))) k = none := by
  induction L with
  | nil => rfl
  | cons a L' ih =>
    simp only [List.map_cons, mget_cons]
    rw [if_neg (h a (List.mem_cons_self a L'))]
    exact ih (fun b hb => h b (List.mem_cons_of_mem a hb))

/-- Leaves of a well-formed structure: nonempty safe paths to scalar
values, pairwise compatible, with heads recording the sibling key or
index. -/
theorem leaves_aux :
    ∀ (n : Nat),
      (∀ (v : JVal), sizeOf v ≤ n → wfS v = true →
        (∀ a ∈ leavesV v, a.1 ≠ [] ∧ segsOk a.1 = true ∧ isContainer a.2 = false) ∧
        List.Pairwise (fun a b => Compat a.1 b.1) (leavesV v)) ∧
      (∀ (fs : List (String × JVal)), sizeOf fs ≤ n → wfSFields fs = true →
        (∀ a ∈ leavesFs fs, a.1 ≠ [] ∧ segsOk a.1 = true ∧ isContainer a.2 = false) ∧
        List.Pairwise (fun a b => Compat a.1 b.1) (leavesFs fs) ∧
        (∀ a ∈ leavesFs fs, ∃ k tail, a.1 = Seg.key k :: tail ∧ wfKey k = true ∧
          mhas fs k = true)) ∧
      (∀ (xs : List JVal) (i : Nat), sizeOf xs ≤ n → wfSElems xs = true →
        (∀ a ∈ leavesAr xs i, a.1 ≠ [] ∧ segsOk a.1 = true ∧ isContainer a.2 = false) ∧
        List.Pairwise (fun a b => Compat a.1 b.1) (leavesAr xs i) ∧
        (∀ a ∈ leavesAr xs i, ∃ j tail, a.1 = Seg.idx j :: tail ∧ i ≤ j)) := by
  intro n
  induction n using Nat.strong_induction_on with
  | _ n ih =>
    refine ⟨?_, ?_, ?_⟩
    · intro v hv hwf
      cases v with
      | undef => simp [wfS] at hwf
      | null => exact ⟨fun a ha => absurd ha (List.not_mem_nil a), List.Pairwise.nil⟩
      | bool b => exact ⟨fun a ha => absurd ha (List.not_mem_nil a), List.Pairwise.nil⟩
      | num m => exact ⟨fun a ha => absurd ha (List.not_mem_nil a), List.Pairwise.nil⟩
      | str t => exact ⟨fun a ha => absurd ha (List.not_mem_nil a), List.Pairwise.nil⟩
      | obj fs =>
        have hlt : sizeOf fs < n := by simp_arith at hv; omega
        obtain ⟨hgood, hpw, _⟩ := (ih (sizeOf fs) hlt).2.1 fs (Nat.le_refl _) hwf
        exact ⟨hgood, hpw⟩
      | arr xs =>
        have hlt : sizeOf xs < n := by simp_arith at hv; omega
        obtain ⟨hgood, hpw, _⟩ := (ih (sizeOf xs) hlt).2.2 xs 0 (Nat.le_refl _) hwf
        exact ⟨hgood, hpw⟩
    · intro fs hfs hwf
      cases fs with
      | nil =>
        exact ⟨fun a ha => absurd ha (List.not_mem_nil a), List.Pairwise.nil,
          fun a ha => absurd ha (List.not_mem_nil a)⟩
      | cons pkv rest =>
        obtain ⟨k, v⟩ := pkv
        have hwf' : (wfKey k && !(mhas rest k) && wfS v && wfSFields rest) = true := hwf
        simp only [Bool.and_eq_true, Bool.not_eq_true'] at hwf'
        obtain ⟨⟨⟨hk, hmh⟩, hv⟩, hrest⟩ := hwf'
        have hszv : sizeOf v < n := by simp_arith at hfs; omega
        have hszr : sizeOf rest < n := by simp_arith at hfs; omega
        obtain ⟨hgoodR, hpwR, hheadR⟩ :=
          (ih (sizeOf rest) hszr).2.1 rest (Nat.le_refl _) hrest
        have heq : leavesFs ((k, v) :: rest) =
            (if isContainer v then (leavesV v).map (fun q => (Seg.key k :: q.1, q.2))
             else [([Seg.key k], v)]) ++ leavesFs rest := rfl
        have hkne : ∀ k2, mhas rest k2 = true → k2 ≠ k := by
          intro k2 hm2 hcontra
          rw [hcontra, hmh] at hm2
          exact absurd hm2 (by simp)
        by_cases hcv : isContainer v = true
        · obtain ⟨hgoodV, hpwV⟩ := (ih (sizeOf v) hszv).1 v (Nat.le_refl _) hv
          rw [heq, if_pos hcv]
          refine ⟨?_, ?_, ?_⟩
          · intro a ha
            rcases List.mem_append.1 ha with h | h
            · obtain ⟨q, hqmem, rfl⟩ := List.mem_map.1 h
              obtain ⟨hq1, hq2, hq3⟩ := hgoodV q hqmem
              refine ⟨by simp, ?_, hq3⟩
              rw [segsOk_cons]
              simp only [Bool.and_eq_true]
              exact ⟨by simpa [segOk] using hk, hq2⟩
            · exact hgoodR a h
          · rw [List.pairwise_append]
            refine ⟨?_, hpwR, ?_⟩
            · rw [List.pairwise_map]
              exact hpwV.imp (fun h => Or.inl ⟨rfl, h⟩)
            · intro a ha b hb
              obtain ⟨q, hqmem, rfl⟩ := List.mem_map.1 ha
              obtain ⟨k2, tb, hb1, _, hmb⟩ := hheadR b hb
              rw [hb1]
              exact Or.inr ⟨fun hc => hkne k2 hmb (Seg.key.inj hc).symm, rfl⟩
          · intro a ha
            rcases List.mem_append.1 ha with h | h
            · obtain ⟨q, hqmem, rfl⟩ := List.mem_map.1 h
              exact ⟨k, q.1, rfl, hk, mhas_cons_self k v rest⟩
            · obtain ⟨k2, tb, hb1, hk2, hmb⟩ := hheadR a h
              exact ⟨k2, tb, hb1, hk2, mhas_cons_of k2 k v rest hmb⟩
        · have hcvf : isContainer v = false := by
            cases hcc : isContainer v
            · rfl
            · exact absurd hcc hcv
          rw [heq, if_neg hcv]
          refine ⟨?_, ?_, ?_⟩
          · intro a ha
            rcases List.mem_append.1 ha with h | h
            · rw [List.mem_singleton.1 h]
              refine ⟨by simp, ?_, hcvf⟩
              rw [segsOk_cons]
              simp only [Bool.and_eq_true]
              exact ⟨by simpa [segOk] using hk, rfl⟩
            · exact hgoodR a h
          · rw [List.pairwise_append]
            refine ⟨List.pairwise_singleton _ _, hpwR, ?_⟩
            intro a ha b hb
            rw [List.mem_singleton.1 ha]
            obtain ⟨k2, tb, hb1, _, hmb⟩ := hheadR b hb
            rw [hb1]
            exact Or.inr ⟨fun hc => hkne k2 hmb (Seg.key.inj hc).symm, rfl⟩
          · intro a ha
            rcases List.mem_append.1 ha with h | h
            · rw [List.mem_singleton.1 h]
              exact ⟨k, [], rfl, hk, mhas_cons_self k v rest⟩
            · obtain ⟨k2, tb, hb1, hk2, hmb⟩ := hheadR a h
              exact ⟨k2, tb, hb1, hk2, mhas_cons_of k2 k v rest hmb⟩
    · intro xs i hxs hwf
      cases xs with
      | nil =>
        exact ⟨fun a ha => absurd ha (List.not_mem_nil a), List.Pairwise.nil,
          fun a ha => absurd ha (List.not_mem_nil a)⟩
      | cons v rest =>
        have hwf' : (wfS v && wfSElems rest) = true := hwf
        simp only [Bool.and_eq_true] at hwf'
        obtain ⟨hv, hrest⟩ := hwf'
        have hszv : sizeOf v < n := by simp_arith at hxs; omega
        have hszr : sizeOf rest < n := by simp_arith at hxs; omega
        obtain ⟨hgoodR, hpwR, hheadR⟩ :=
          (ih (sizeOf rest) hszr).2.2 rest (i + 1) (Nat.le_refl _) hrest
        have heq : leavesAr (v :: rest) i =
            (if isContainer v then (leavesV v).map (fun q => (Seg.idx i :: q.1, q.2))
             else [([Seg.idx i], v)]) ++ leavesAr rest (i + 1) := rfl
        by_cases hcv : isContainer v = true
        · obtain ⟨hgoodV, hpwV⟩ := (ih (sizeOf v) hszv).1 v (Nat.le_refl _) hv
          rw [heq, if_pos hcv]
          refine ⟨?_, ?_, ?_⟩
          · intro a ha
            rcases List.mem_append.1 ha with h | h
            · obtain ⟨q, hqmem, rfl⟩ := List.mem_map.1 h
              obtain ⟨hq1, hq2, hq3⟩ := hgoodV q hqmem
              refine ⟨by simp, ?_, hq3⟩
              rw [segsOk_cons]
              simp only [Bool.and_eq_true]
              exact ⟨rfl, hq2⟩
            · exact hgoodR a h
          · rw [List.pairwise_append]
            refine ⟨?_, hpwR, ?_⟩
            · rw [List.pairwise_map]
              exact hpwV.imp (fun h => Or.inl ⟨rfl, h⟩)
            · intro a ha b hb
              obtain ⟨q, hqmem, rfl⟩ := List.mem_map.1 ha
              obtain ⟨j, tb, hb1, hij⟩ := hheadR b hb
              rw [hb1]
              exact Or.inr ⟨by simp; omega, rfl⟩
          · intro a ha
            rcases List.mem_append.1 ha with h | h
            · obtain ⟨q, hqmem, rfl⟩ := List.mem_map.1 h
              exact ⟨i, q.1, rfl, Nat.le_refl i⟩
            · obtain ⟨j, tb, hb1, hij⟩ := hheadR a h
              exact ⟨j, tb, hb1, by omega⟩
        · have hcvf : isContainer v = false := by
            cases hcc : isContainer v
            · rfl
            · exact absurd hcc hcv
          rw [heq, if_neg hcv]
          refine ⟨?_, ?_, ?_⟩
          · intro a ha
            rcases List.mem_append.1 ha with h | h
            · rw [List.mem_singleton.1 h]
              exact ⟨by simp, rfl, hcvf⟩
            · exact hgoodR a h
          · rw [List.pairwise_append]
            refine ⟨List.pairwise_singleton _ _, hpwR, ?_⟩
            intro a ha b hb
            rw [List.mem_singleton.1 ha]
            obtain ⟨j, tb, hb1, hij⟩ := hheadR b hb
            rw [hb1]
            exact Or.inr ⟨by simp; omega, rfl⟩
          · intro a ha
            rcases List.mem_append.1 ha with h | h
            · rw [List.mem_singleton.1 h]
              exact ⟨i, [], rfl, Nat.le_refl i⟩
            · obtain ⟨j, tb, hb1, hij⟩ := hheadR a h
              exact ⟨j, tb, hb1, by omega⟩

theorem flattenFs_cons (k : String) (v : JVal) (rest : List (String × JVal))
    (parentK : String) (res : Smap JVal) :
    flattenFs ((k, v) :: rest) parentK res =
      flattenFs rest parentK
        (if isContainer v then flattenV v (extendKey parentK k) res
         else mset res (extendKey parentK k) v) := rfl

theorem flattenAr_cons (v : JVal) (rest : List JVal) (i : Nat) (parentK : String)
    (res : Smap JVal) :
    flattenAr (v :: rest) i parentK res =
      flattenAr rest (i + 1) parentK
        (if isContainer v then flattenV v (extendKey parentK (renderSeg (.idx i))) res
         else mset res (extendKey parentK (renderSeg (.idx i))) v) := rfl

/-- `flatten` appends the rendered leaves, in order, to its accumulator
(fresh keys make the JS `res[propName] = …` writes pure appends). -/
theorem flatten_aux :
    ∀ (n : Nat),
      (∀ (v : JVal) (pp : List Seg) (res : Smap JVal), sizeOf v ≤ n → wfS v = true →
        isContainer v = true → segsOk pp = true →
        (∀ a ∈ leavesV v, mget res (renderPath (pp ++ a.1)) = none) →
        flattenV v (renderPath pp) res =
          res ++ (leavesV v).map (fun a => (renderPath (pp ++ a.1), a.2))) ∧
      (∀ (fs : List (String × JVal)) (pp : List Seg) (res : Smap JVal), sizeOf fs ≤ n →
        wfSFields fs = true → segsOk pp = true →
        (∀ a ∈ leavesFs fs, mget res (renderPath (pp ++ a.1)) = none) →
        flattenFs fs (renderPath pp) res =
          res ++ (leavesFs fs).map (fun a => (renderPath (pp ++ a.1), a.2))) ∧
      (∀ (xs : List JVal) (i : Nat) (pp : List Seg) (res : Smap JVal), sizeOf xs ≤ n →
        wfSElems xs = true → segsOk pp = true →
        (∀ a ∈ leavesAr xs i, mget res (renderPath (pp ++ a.1)) = none) →
        flattenAr xs i (renderPath pp) res =
          res ++ (leavesAr xs i).map (fun a => (renderPath (pp ++ a.1), a.2))) := by
  intro n
  induction n using Nat.strong_induction_on with
  | _ n ih =>
    refine ⟨?_, ?_, ?_⟩
    · intro v pp res hv hwf hcont hok hfresh
      cases v with
      | obj fs =>
        have hlt : sizeOf fs < n := by simp_arith at hv; omega
        exact (ih (sizeOf fs) hlt).2.1 fs pp res (Nat.le_refl _) hwf hok hfresh
      | arr xs =>
        have hlt : sizeOf xs < n := by simp_arith at hv; omega
        exact (ih (sizeOf xs) hlt).2.2 xs 0 pp res (Nat.le_refl _) hwf hok hfresh
      | undef => simp [isContainer] at hcont
      | null => simp [isContainer] at hcont
      | bool b => simp [isContainer] at hcont
      | num m => simp [isContainer] at hcont
      | str t => simp [isContainer] at hcont
    · intro fs pp res hfs hwf hok hfresh
      cases fs with
      | nil => simp [flattenFs, leavesFs]
      | cons pkv rest =>
        obtain ⟨k, v⟩ := pkv
        have hwf' : (wfKey k && !(mhas rest k) && wfS v && wfSFields rest) = true := hwf
        simp only [Bool.and_eq_true, Bool.not_eq_true'] at hwf'
        obtain ⟨⟨⟨hk, hmh⟩, hv⟩, hrest⟩ := hwf'
        have hszv : sizeOf v < n := by simp_arith at hfs; omega
        have hszr : sizeOf rest < n := by simp_arith at hfs; omega
        have hkey : segOk (Seg.key k) = true := by simpa [segOk] using hk
        have hprop : extendKey (renderPath pp) k = renderPath (pp ++ [Seg.key k]) :=
          renderPath_append pp [Seg.key k] hok (by simp)
        obtain ⟨hgoodR, _, hheadR⟩ := (leaves_aux (sizeOf rest)).2.1 rest (Nat.le_refl _) hrest
        have hkne : ∀ k2, mhas rest k2 = true → k2 ≠ k := by
          intro k2 hm2 hcontra
          rw [hcontra, hmh] at hm2
          exact absurd hm2 (by simp)
        have heqL : leavesFs ((k, v) :: rest) =
            (if isContainer v then (leavesV v).map (fun q => (Seg.key k :: q.1, q.2))
             else [([Seg.key k], v)]) ++ leavesFs rest := rfl
        rw [flattenFs_cons]
        by_cases hcv : isContainer v = true
        · obtain ⟨hgoodV, _⟩ := (leaves_aux (sizeOf v)).1 v (Nat.le_refl _) hv
          have hfreshV : ∀ a ∈ leavesV v,
              mget res (renderPath ((pp ++ [Seg.key k]) ++ a.1)) = none := by
            intro a ha
            have hmem : (Seg.key k :: a.1, a.2) ∈ leavesFs ((k, v) :: rest) := by
              rw [heqL, if_pos hcv]
              exact List.mem_append_left _ (List.mem_map.2 ⟨a, ha, rfl⟩)
            have hfr := hfresh _ hmem
            rw [List.append_assoc]
            exact hfr
          have hsub := (ih (sizeOf v) hszv).1 v (pp ++ [Seg.key k]) res (Nat.le_refl _)
            hv hcv (segsOk_append pp [Seg.key k] hok (by simpa [segsOk] using hkey)) hfreshV
          rw [if_pos hcv, hprop, hsub]
          have hfreshR : ∀ b ∈ leavesFs rest,
              mget (res ++ (leavesV v).map
                  (fun a => (renderPath ((pp ++ [Seg.key k]) ++ a.1), a.2)))
                (renderPath (pp ++ b.1)) = none := by
            intro b hb
            apply mget_append_none
            · exact hfresh b (by rw [heqL, if_pos hcv]; exact List.mem_append_right _ hb)
            · apply mget_map_none
              intro a ha hcontra
              obtain ⟨k2, tb, hb1, hk2, hmb⟩ := hheadR b hb
              obtain ⟨ha1, ha2, _⟩ := hgoodV a ha
              obtain ⟨hb1', hb2, _⟩ := hgoodR b hb
              have hlists := renderPath_inj ((pp ++ [Seg.key k]) ++ a.1) (pp ++ b.1)
                (by simp) (by rw [hb1]; simp)
                (segsOk_append _ _
                  (segsOk_append pp [Seg.key k] hok (by simpa [segsOk] using hkey)) ha2)
                (segsOk_append pp b.1 hok hb2) hcontra
              rw [List.append_assoc] at hlists
              have hheads := List.append_cancel_left hlists
              rw [hb1] at hheads
              have hkk : Seg.key k = Seg.key k2 := by
                have hh := congrArg (fun l => l.head?) hheads
                simpa using hh
              exact hkne k2 hmb (Seg.key.inj hkk).symm
          have htail := (ih (sizeOf rest) hszr).2.1 rest pp
            (res ++ (leavesV v).map (fun a => (renderPath ((pp ++ [Seg.key k]) ++ a.1), a.2)))
            (Nat.le_refl _) hrest hok hfreshR
          rw [htail, heqL, if_pos hcv, List.map_append, List.map_map, List.append_assoc]
          congr 2
          apply List.map_congr_left
          intro a ha
          simp only [Function.comp]
          rw [List.append_assoc]
          rfl
        · rw [if_neg hcv]
          have hfresh1 : mget res (renderPath (pp ++ [Seg.key k])) = none := by
            have hmem : (([Seg.key k], v) : List Seg × JVal) ∈ leavesFs ((k, v) :: rest) := by
              rw [heqL, if_neg hcv]
              exact List.mem_append_left _ (List.mem_singleton_self _)
            exact hfresh _ hmem
          rw [hprop, mset_fresh res _ v hfresh1]
          have hfreshR : ∀ b ∈ leavesFs rest,
              mget (res ++ [(renderPath (pp ++ [Seg.key k]), v)])
                (renderPath (pp ++ b.1)) = none := by
            intro b hb
            apply mget_append_none
            · exact hfresh b (by rw [heqL, if_neg hcv]; exact List.mem_append_right _ hb)
            · apply mget_singleton_none _ _ _ ?_
              intro hcontra
              obtain ⟨k2, tb, hb1, hk2, hmb⟩ := hheadR b hb
              obtain ⟨hb1', hb2, _⟩ := hgoodR b hb
              have hlists := renderPath_inj (pp ++ [Seg.key k]) (pp ++ b.1)
                (by simp) (by rw [hb1]; simp)
                (segsOk_append pp [Seg.key k] hok (by simpa [segsOk] using hkey))
                (segsOk_append pp b.1 hok hb2) hcontra
              have hheads := List.append_cancel_left hlists
              rw [hb1] at hheads
              have hkk : Seg.key k = Seg.key k2 := by
                have hh := congrArg (fun l => l.head?) hheads
                simpa using hh
              exact hkne k2 hmb (Seg.key.inj hkk).symm
          have htail := (ih (sizeOf rest) hszr).2.1 rest pp
            (res ++ [(renderPath (pp ++ [Seg.key k]), v)]) (Nat.le_refl _) hrest hok hfreshR
          rw [htail, heqL, if_neg hcv, List.map_append, List.append_assoc]
          rfl
    · intro xs i pp res hxs hwf hok hfresh
      cases xs with
      | nil => simp [flattenAr, leavesAr]
      | cons v rest =>
        have hwf' : (wfS v && wfSElems rest) = true := hwf
        simp only [Bool.and_eq_true] at hwf'
        obtain ⟨hv, hrest⟩ := hwf'
        have hszv : sizeOf v < n := by simp_arith at hxs; omega
        have hszr : sizeOf rest < n := by simp_arith at hxs; omega
        have hprop : extendKey (renderPath pp) (renderSeg (.idx i)) =
            renderPath (pp ++ [Seg.idx i]) :=
          renderPath_append pp [Seg.idx i] hok (by simp)
        obtain ⟨hgoodR, _, hheadR⟩ :=
          (leaves_aux (sizeOf rest)).2.2 rest (i + 1) (Nat.le_refl _) hrest
        have heqL : leavesAr (v :: rest) i =
            (if isContainer v then (leavesV v).map (fun q => (Seg.idx i :: q.1, q.2))
             else [([Seg.idx i], v)]) ++ leavesAr rest (i + 1) := rfl
        rw [flattenAr_cons]
        by_cases hcv : isContainer v = true
        · obtain ⟨hgoodV, _⟩ := (leaves_aux (sizeOf v)).1 v (Nat.le_refl _) hv
          have hfreshV : ∀ a ∈ leavesV v,
              mget res (renderPath ((pp ++ [Seg.idx i]) ++ a.1)) = none := by
            intro a ha
            have hmem : (Seg.idx i :: a.1, a.2) ∈ leavesAr (v :: rest) i := by
              rw [heqL, if_pos hcv]
              exact List.mem_append_left _ (List.mem_map.2 ⟨a, ha, rfl⟩)
            have hfr := hfresh _ hmem
            rw [List.append_assoc]
            exact hfr
          have hsub := (ih (sizeOf v) hszv).1 v (pp ++ [Seg.idx i]) res (Nat.le_refl _)
            hv hcv (segsOk_append pp [Seg.idx i] hok rfl) hfreshV
          rw [if_pos hcv, hprop, hsub]
          have hfreshR : ∀ b ∈ leavesAr rest (i + 1),
              mget (res ++ (leavesV v).map
                  (fun a => (renderPath ((pp ++ [Seg.idx i]) ++ a.1), a.2)))
                (renderPath (pp ++ b.1)) = none := by
            intro b hb
            apply mget_append_none
            · exact hfresh b (by rw [heqL, if_pos hcv]; exact List.mem_append_right _ hb)
            · apply mget_map_none
              intro a ha hcontra
              obtain ⟨j, tb, hb1, hij⟩ := hheadR b hb
              obtain ⟨ha1, ha2, _⟩ := hgoodV a ha
              obtain ⟨hb1', hb2, _⟩ := hgoodR b hb
              have hlists := renderPath_inj ((pp ++ [Seg.idx i]) ++ a.1) (pp ++ b.1)
                (by simp) (by rw [hb1]; simp)
                (segsOk_append _ _ (segsOk_append pp [Seg.idx i] hok rfl) ha2)
                (segsOk_append pp b.1 hok hb2) hcontra
              rw [List.append_assoc] at hlists
              have hheads := List.append_cancel_left hlists
              rw [hb1] at hheads
              have hkk : Seg.idx i = Seg.idx j := by
                have hh := congrArg (fun l => l.head?) hheads
                simpa using hh
              have hij2 := Seg.idx.inj hkk
              omega
          have htail := (ih (sizeOf rest) hszr).2.2 rest (i + 1) pp
            (res ++ (leavesV v).map (fun a => (renderPath ((pp ++ [Seg.idx i]) ++ a.1), a.2)))
            (Nat.le_refl _) hrest hok hfreshR
          rw [htail, heqL, if_pos hcv, List.map_append, List.map_map, List.append_assoc]
          congr 2
          apply List.map_congr_left
          intro a ha
          simp only [Function.comp]
          rw [List.append_assoc]
          rfl
        · rw [if_neg hcv]
          have hfresh1 : mget res (renderPath (pp ++ [Seg.idx i])) = none := by
            have hmem : (([Seg.idx i], v) : List Seg × JVal) ∈ leavesAr (v :: rest) i := by
              rw [heqL, if_neg hcv]
              exact List.mem_append_left _ (List.mem_singleton_self _)
            exact hfresh _ hmem
          rw [hprop, mset_fresh res _ v hfresh1]
          have hfreshR : ∀ b ∈ leavesAr rest (i + 1),
              mget (res ++ [(renderPath (pp ++ [Seg.idx i]), v)])
                (renderPath (pp ++ b.1)) = none := by
            intro b hb
            apply mget_append_none
            · exact hfresh b (by rw [heqL, if_neg hcv]; exact List.mem_append_right _ hb)
            · apply mget_singleton_none _ _ _ ?_
              intro hcontra
              obtain ⟨j, tb, hb1, hij⟩ := hheadR b hb
              obtain ⟨hb1', hb2, _⟩ := hgoodR b hb
              have hlists := renderPath_inj (pp ++ [Seg.idx i]) (pp ++ b.1)
                (by simp) (by rw [hb1]; simp)
                (segsOk_append pp [Seg.idx i] hok rfl)
                (segsOk_append pp b.1 hok hb2) hcontra
              have hheads := List.append_cancel_left hlists
              rw [hb1] at hheads
              have hkk : Seg.idx i = Seg.idx j := by
                have hh := congrArg (fun l => l.head?) hheads
                simpa using hh
              have hij2 := Seg.idx.inj hkk
              omega
          have htail := (ih (sizeOf rest) hszr).2.2 rest (i + 1) pp
            (res ++ [(renderPath (pp ++ [Seg.idx i]), v)]) (Nat.le_refl _) hrest hok hfreshR
          rw [htail, heqL, if_neg hcv, List.map_append, List.append_assoc]
          rfl

/-- `Data.flatten` of a well-formed object is exactly its rendered leaf
list. -/
theorem dataFlatten_leaves (fs : List (String × JVal)) (hwf : wfSFields fs = true) :
    dataFlatten (JVal.obj fs) =
      (leavesV (JVal.obj fs)).map (fun a => (renderPath a.1, a.2)) := by
  have h := (flatten_aux (sizeOf (JVal.obj fs))).1 (JVal.obj fs) [] [] (Nat.le_refl _)
    hwf rfl rfl (fun a _ => rfl)
  rw [show renderPath ([] : List Seg) = "" from rfl] at h
  simpa [dataFlatten] using h

/-- Every key-headed path fits the empty object `unflatten` starts
from. -/
theorem fits_top (p : List Seg) (k : String) (tail : List Seg)
    (hp : p = Seg.key k :: tail) : Fits (JVal.obj []) p := by
  subst hp
  refine ⟨trivial, ?_⟩
  cases tail with
  | nil => exact Or.inl rfl
  | cons a t => exact Or.inr (Or.inl rfl)

/-- The full round trip: flattening a well-formed structure and
unflattening the result succeeds, and `Data.find` recovers every
flattened leaf under its original flat key. -/
theorem roundtrip_general (o : JVal) (hwf : WfStruct o = true) :
    ∃ r, unflatten (dataFlatten o) = .ok r ∧
      ∀ kv ∈ dataFlatten o, dataFindStr kv.1 r = kv.2 := by
  cases o with
  | obj fs =>
    have hwfF : wfSFields fs = true := hwf
    have hflat := dataFlatten_leaves fs hwfF
    obtain ⟨hgood, hpw, hhead⟩ := (leaves_aux (sizeOf fs)).2.1 fs (Nat.le_refl _) hwfF
    obtain ⟨R2, hfold, hR2, hwalks⟩ := unflatten_fold (leavesFs fs) [] (JVal.obj [])
      rfl
      (fun a ha => ⟨(hgood a ha).1, (hgood a ha).2.1⟩)
      (fun a ha => by
        obtain ⟨k, tail, h1, _, _⟩ := hhead a ha
        exact fits_top a.1 k tail h1)
      (fun a ha => absurd ha (List.not_mem_nil a))
      (fun a ha => absurd ha (List.not_mem_nil a))
      hpw
      (fun a ha => absurd ha (List.not_mem_nil a))
    refine ⟨R2, ?_, ?_⟩
    · rw [show unflatten (dataFlatten (JVal.obj fs)) =
        (dataFlatten (JVal.obj fs)).foldlM (fun r kv => unflatKey r kv.1 kv.2)
          (JVal.obj []) from rfl, hflat]
      exact hfold
    · intro kv hkv
      rw [hflat] at hkv
      obtain ⟨a, ha, rfl⟩ := List.mem_map.1 hkv
      unfold dataFindStr
      rw [jsSplitSl_renderPath a.1 (hgood a ha).1 (hgood a ha).2.1]
      exact walkTo_find a.1 R2 a.2 (hgood a ha).2.1 (hwalks a (Or.inr ha))
  | undef => simp [WfStruct] at hwf
  | null => simp [WfStruct] at hwf
  | bool b => simp [WfStruct] at hwf
  | num m => simp [WfStruct] at hwf
  | str t => simp [WfStruct] at hwf
  | arr xs => simp [WfStruct] at hwf

/-- C3 counterexample: the structure `{a: 1, "a/b": 2}` is built only from
objects and scalar leaves, yet flattening it (to `{a: 1, "a/b": 2}`: keys
pass through verbatim) and unflattening that map yields
`{a: 1, "/b": 2}` — the loop overwrote nothing but `findValue` backtracked
to the root and `flatKey.slice` mangled the key — so `Data.find` at the
original path `"a/b"` returns `1`, not the leaf value `2`. -/
theorem c3_counterexample :
    dataFlatten (JVal.obj [("a", .num 1), ("a/b", .num 2)]) =
      [("a", JVal.num 1), ("a/b", JVal.num 2)] ∧
    unflatten [("a", JVal.num 1), ("a/b", JVal.num 2)] =
      .ok (JVal.obj [("a", .num 1), ("/b", .num 2)]) ∧
    dataFindStr "a/b" (JVal.obj [("a", .num 1), ("/b", .num 2)]) = .num 1 ∧
    JVal.num 1 ≠ JVal.num 2 := by decide

/-- C3 (amended): for every well-formed structure — an object at the top,
with object keys that are nonempty, divider-free, not `[i]`-shaped and
not bare digit strings, sibling keys duplicate-free, and no `undefined`
values — `unflatten (flatten o)` succeeds and `Data.find` restores every
scalar leaf under its original flat path; in particular
`{a: {b: [1, 2]}}` flattens to `{"a/b/[0]": 1, "a/b/[1]": 2}` and
unflatten of that map reproduces the original structure exactly. -/
theorem c3_flatten_unflatten_roundtrip :
    (∀ o : JVal, WfStruct o = true →
      ∃ r, unflatten (dataFlatten o) = .ok r ∧
        ∀ kv ∈ dataFlatten o, dataFindStr kv.1 r = kv.2) ∧
    dataFlatten (JVal.obj [("a", .obj [("b", .arr [.num 1, .num 2])])]) =
      [("a/b/[0]", JVal.num 1), ("a/b/[1]", JVal.num 2)] ∧
    unflatten [("a/b/[0]", JVal.num 1), ("a/b/[1]", JVal.num 2)] =
      .ok (JVal.obj [("a", .obj [("b", .arr [.num 1, .num 2])])]) :=
  ⟨roundtrip_general, by decide, by decide⟩

/-- C3 witness: the amended round trip applied to the concrete structure
`{a: {b: [1, 2]}}` (well-formedness checked by evaluation). -/
theorem c3_flatten_unflatten_roundtrip_witness :
    (WfStruct (JVal.obj [("a", .obj [("b", .arr [.num 1, .num 2])])]) = true) ∧
    ∃ r, unflatten (dataFlatten (JVal.obj [("a", .obj [("b", .arr [.num 1, .num 2])])])) =
        .ok r ∧
      ∀ kv ∈ dataFlatten (JVal.obj [("a", .obj [("b", .arr [.num 1, .num 2])])]),
        dataFindStr kv.1 r = kv.2 :=
  ⟨by decide, c3_flatten_unflatten_roundtrip.1 _ (by decide)⟩

end Nan0DB
